import Mathlib

set_option maxRecDepth 4000

/-!
Verification of the automata construction engine (`core/models.py`,
`core/product.py`, `core/optimizer.py`, `core/agents.py`).

Python dictionaries are modelled as association lists with first-match
lookup (Python dict keys are unique, so first-match lookup agrees with
dict lookup).  Python strings that are scanned character by character are
modelled as `List String`, one entry per symbol, matching the engine's
use of single-character alphabet symbols.  Python truthiness of a string
(`if nxt:`) is modelled as `nxt ≠ ""`.
-/

namespace Spec2Proof

/-- First-match lookup in an association list, modelling `dict.get(k)`. -/
def alookup {β : Type} : List (String × β) → String → Option β
  | [], _ => none
  | (k, v) :: rest, key => if k = key then some v else alookup rest key

/-- Model of `dict[k] = v`: replace the value at the first occurrence of the
key, otherwise append the binding (Python dict assignment keeps the original
insertion position of an existing key). -/
def aset {β : Type} : List (String × β) → String → β → List (String × β)
  | [], key, v => [(key, v)]
  | (k, w) :: rest, key, v =>
    if k = key then (k, v) :: rest else (k, w) :: aset rest key v

/-- A row of a transition table: symbol → target state (`Dict[str, str]`). -/
abbrev Row := List (String × String)

/-- A transition table: state → row (`Dict[str, Dict[str, str]]`). -/
abbrev Trans := List (String × Row)

/-- The `DFA` pydantic model of `core/models.py`. -/
structure DFA where
  reasoning : String := ""
  states : List String
  alphabet : List String
  transitions : Trans
  start_state : String
  accept_states : List String
deriving DecidableEq, Repr

/-- `DFA.validate_integrity` (`models.py` lines 195-199): construction fails
exactly when `start_state not in states`; no other field is checked. -/
def mkDFA (reasoning : String) (states alphabet : List String) (transitions : Trans)
    (start_state : String) (accept_states : List String) : Except String DFA :=
  if start_state ∈ states then
    .ok ⟨reasoning, states, alphabet, transitions, start_state, accept_states⟩
  else
    .error "Empty or invalid start_state"

/-- One step of the `DFA.accepts` simulation loop of `models.py` lines
211-227: `none` when the character is out of the alphabet, when the current
state has no transition row, or when the row lacks the character. -/
def DFA.step (d : DFA) (cur c : String) : Option String :=
  if c ∈ d.alphabet then
    match alookup d.transitions cur with
    | none => none
    | some row => alookup row c
  else none

/-- The simulation loop of `DFA.accepts`, with the current state explicit:
any crash (`step = none`) returns `False`, never an error. -/
def DFA.acceptsFrom (d : DFA) : String → List String → Bool
  | cur, [] => decide (cur ∈ d.accept_states)
  | cur, c :: rest =>
    match d.step cur c with
    | none => false
    | some nxt => d.acceptsFrom nxt rest

/-- `DFA.accepts` of `core/models.py`. -/
def DFA.accepts (d : DFA) (s : List String) : Bool :=
  d.acceptsFrom d.start_state s

/-- The state reached by the simulation loop, `none` on a crash (missing
transition or out-of-alphabet character). -/
def DFA.runFrom (d : DFA) : String → List String → Option String
  | cur, [] => some cur
  | cur, c :: rest =>
    match d.step cur c with
    | none => none
    | some nxt => d.runFrom nxt rest

theorem acceptsFrom_eq_runFrom (d : DFA) (q : String) (s : List String) :
    d.acceptsFrom q s =
      match d.runFrom q s with
      | some f => decide (f ∈ d.accept_states)
      | none => false := by
  induction s generalizing q with
  | nil => rfl
  | cons c rest ih =>
    simp only [DFA.acceptsFrom, DFA.runFrom]
    cases hs : d.step q c with
    | none => rfl
    | some nxt => exact ih nxt

theorem step_some_alphabet (d : DFA) (q nxt c : String) (h : d.step q c = some nxt) :
    c ∈ d.alphabet := by
  by_cases hc : c ∈ d.alphabet
  · exact hc
  · simp [DFA.step, hc] at h

theorem runFrom_some_alphabet (d : DFA) (q f : String) (s : List String)
    (h : d.runFrom q s = some f) : ∀ c ∈ s, c ∈ d.alphabet := by
  induction s generalizing q with
  | nil => intro c hc; cases hc
  | cons c rest ih =>
    intro x hx
    simp only [DFA.runFrom] at h
    cases hs : d.step q c with
    | none => simp [hs] at h
    | some nxt =>
      simp only [hs] at h
      rcases List.mem_cons.mp hx with rfl | hx
      · exact step_some_alphabet d q nxt x hs
      · exact ih nxt h x hx

/-! ### Association list and sorting toolkit -/

theorem alookup_aset_self {β : Type} (t : List (String × β)) (k : String) (v : β) :
    alookup (aset t k v) k = some v := by
  induction t with
  | nil => simp [aset, alookup]
  | cons p rest ih =>
    by_cases h : p.1 = k
    · simp [aset, alookup, h]
    · simp [aset, alookup, h, ih]

theorem alookup_aset_ne {β : Type} (t : List (String × β)) {k k' : String} (v : β)
    (h : k' ≠ k) : alookup (aset t k v) k' = alookup t k' := by
  have hk : ¬ k = k' := fun hh => h hh.symm
  induction t with
  | nil => simp [aset, alookup, hk]
  | cons p rest ih =>
    obtain ⟨a, b⟩ := p
    by_cases hp : a = k
    · subst hp
      simp [aset, alookup, hk]
    · simp [aset, alookup, hp, ih]

theorem alookup_some_mem {β : Type} {t : List (String × β)} {k : String} {v : β}
    (h : alookup t k = some v) : (k, v) ∈ t := by
  induction t with
  | nil => cases h
  | cons p rest ih =>
    obtain ⟨a, b⟩ := p
    by_cases hp : a = k
    · subst hp
      simp only [alookup, if_pos] at h
      cases h
      exact List.mem_cons_self _ _
    · simp only [alookup, hp, if_false] at h
      exact List.mem_cons_of_mem _ (ih h)

theorem alookup_build_fold {β : Type} (f : String → β) (sts : List String) (t0 : List (String × β))
    (k : String) :
    alookup (sts.foldl (fun t s => aset t s (f s)) t0) k =
      if k ∈ sts then some (f k) else alookup t0 k := by
  induction sts generalizing t0 with
  | nil => simp
  | cons s rest ih =>
    simp only [List.foldl_cons]
    rw [ih]
    by_cases hr : k ∈ rest
    · simp [hr, List.mem_cons]
    · by_cases hk : k = s
      · subst hk
        simp [hr, alookup_aset_self]
      · simp [hr, hk, alookup_aset_ne _ _ hk]

/-- Code-point comparison of character lists, modelling Python's string `<`. -/
def charListLt : List Char → List Char → Bool
  | [], [] => false
  | [], _ :: _ => true
  | _ :: _, [] => false
  | a :: as, b :: bs =>
    if a.toNat < b.toNat then true
    else if b.toNat < a.toNat then false
    else charListLt as bs

/-- `a ≤ b` on Python strings (code-point lexicographic order). -/
def strLe (a b : String) : Bool := !(charListLt b.data a.data)

def insertSorted (a : String) : List String → List String
  | [] => [a]
  | b :: rest => if strLe a b then a :: b :: rest else b :: insertSorted a rest

/-- Model of Python `sorted` on lists of strings.  Python's sort is a stable
sort by `<`; since `<` on strings is a total order (equal-ranked elements are
equal), its output is the unique nondecreasing rearrangement, which insertion
sort computes as well. -/
def pySorted : List String → List String
  | [] => []
  | a :: rest => insertSorted a (pySorted rest)

theorem mem_insertSorted {x a : String} {l : List String} :
    x ∈ insertSorted a l ↔ x = a ∨ x ∈ l := by
  induction l with
  | nil => simp [insertSorted]
  | cons b rest ih =>
    by_cases h : strLe a b
    · simp [insertSorted, h, List.mem_cons]
    · simp only [insertSorted, h, Bool.false_eq_true, if_false, List.mem_cons, ih]
      tauto

theorem length_insertSorted (a : String) (l : List String) :
    (insertSorted a l).length = l.length + 1 := by
  induction l with
  | nil => rfl
  | cons b rest ih =>
    by_cases h : strLe a b
    · simp [insertSorted, h]
    · simp [insertSorted, h, ih]

theorem mem_pySorted {x : String} {l : List String} : x ∈ pySorted l ↔ x ∈ l := by
  induction l with
  | nil => simp [pySorted]
  | cons a rest ih => simp [pySorted, mem_insertSorted, ih, List.mem_cons]

theorem length_pySorted (l : List String) : (pySorted l).length = l.length := by
  induction l with
  | nil => rfl
  | cons a rest ih => simp [pySorted, length_insertSorted, ih]

/-- C8.  `DFA.accepts` is a total boolean function of the DFA value and the
input string (it is a Lean function into `Bool`, so it never raises), and it
returns `true` exactly when every character is in the alphabet and the
simulation reaches, without any missing transition, a final state that is an
accept state.  In particular an out-of-alphabet character or a missing
transition (a `none` run) always yields `false`, never an error. -/
theorem accepts_total_characterization (d : DFA) (s : List String) :
    d.accepts s = true ↔
      ((∀ c ∈ s, c ∈ d.alphabet) ∧
        ∃ q, d.runFrom d.start_state s = some q ∧ q ∈ d.accept_states) := by
  unfold DFA.accepts
  rw [acceptsFrom_eq_runFrom]
  cases hr : d.runFrom d.start_state s with
  | none =>
    simp only [Bool.false_eq_true, false_iff]
    rintro ⟨-, q, hq, -⟩
    cases hq
  | some f =>
    simp only [decide_eq_true_eq]
    constructor
    · intro hf
      exact ⟨runFrom_some_alphabet d _ f s hr, f, rfl, hf⟩
    · rintro ⟨-, q, hq, hacc⟩
      cases hq
      exact hacc

/-- C10.  Constructing a `DFA` value succeeds exactly when `start_state` is a
member of `states`; `accept_states` not being a subset of `states` or
transitions pointing outside `states` cause no error (they are simply not
checked by `validate_integrity`). -/
theorem mkDFA_ok_iff_start_mem (reasoning : String) (states alphabet : List String)
    (transitions : Trans) (start_state : String) (accept_states : List String) :
    (∃ d, mkDFA reasoning states alphabet transitions start_state accept_states =
        Except.ok d) ↔ start_state ∈ states := by
  unfold mkDFA
  by_cases h : start_state ∈ states
  · simp [h]
  · simp [h]

/-! ### `ProductConstructionEngine.complete_dfa` and `.invert` (`core/product.py`) -/

/-- `dfa.transitions.get(state, {})`. -/
def getRow (t : Trans) (st : String) : Row := (alookup t st).getD []

/-- The completeness check of `complete_dfa` (`product.py` lines 195-202):
some state is missing some alphabet symbol in its transition row. -/
def hasMissing (d : DFA) : Bool :=
  d.states.any fun st => d.alphabet.any fun sym => (alookup (getRow d.transitions st) sym).isNone

/-- The gap-filling inner loop of `complete_dfa`: route every missing symbol
of the row to the trap state `"q_trap"`. -/
def fillRow (alphabet : List String) (row : Row) : Row :=
  alphabet.foldl (fun r sym => if (alookup r sym).isNone then aset r sym "q_trap" else r) row

/-- The gap-filling outer loop of `complete_dfa` over all states.  The Python
loop mutates one row at a time; since the inner loop touches only the current
state's row, it is the per-state `fillRow` transform. -/
def completeFill (alphabet : List String) (sts : List String) (t : Trans) : Trans :=
  sts.foldl (fun acc st => aset acc st (fillRow alphabet (getRow acc st))) t

/-- The then-branch of `complete_dfa` (a trap state is added; note that
`new_transitions[trap_state] = {}` erases the row of a pre-existing state
named `q_trap`, and `accept_states` is passed through unchanged). -/
def completeCore (d : DFA) : DFA :=
  let new_states := if "q_trap" ∈ d.states then d.states else d.states ++ ["q_trap"]
  let base : Trans := d.states.foldl (fun t s => aset t s (getRow d.transitions s)) []
  let base2 : Trans := aset base "q_trap" []
  { reasoning := d.reasoning ++ " (completed)"
    states := pySorted new_states
    alphabet := d.alphabet
    transitions := completeFill d.alphabet new_states base2
    start_state := d.start_state
    accept_states := d.accept_states }

/-- `ProductConstructionEngine.complete_dfa` (`product.py` lines 181-231). -/
def complete_dfa (d : DFA) : DFA :=
  if hasMissing d then completeCore d else d

/-- `ProductConstructionEngine.invert` (`product.py` lines 233-253): complete
first, then make accepting exactly the completed states that are not in
`accept_states`. -/
def invert (d : DFA) : DFA :=
  let c := complete_dfa d
  { reasoning := "NOT (" ++ c.reasoning ++ ")"
    states := c.states
    alphabet := c.alphabet
    transitions := c.transitions
    start_state := c.start_state
    accept_states := pySorted (c.states.filter fun s => decide (s ∉ c.accept_states)) }

theorem fillRow_cons (a : String) (rest : List String) (row : Row) :
    fillRow (a :: rest) row =
      fillRow rest (if (alookup row a).isNone then aset row a "q_trap" else row) := by
  simp only [fillRow, List.foldl_cons]

theorem fillRow_preserves (alphabet : List String) (row : Row) (sym : String) (v : String)
    (h : alookup row sym = some v) : alookup (fillRow alphabet row) sym = some v := by
  induction alphabet generalizing row with
  | nil => exact h
  | cons a rest ih =>
    rw [fillRow_cons]
    by_cases ha : (alookup row a).isNone
    · simp only [ha, if_pos]
      apply ih
      by_cases hs : sym = a
      · subst hs
        rw [h] at ha
        cases ha
      · rw [alookup_aset_ne _ _ hs]
        exact h
    · simp only [ha, if_false]
      exact ih row h

theorem fillRow_mem (alphabet : List String) (row : Row) (sym : String) (hsym : sym ∈ alphabet) :
    alookup (fillRow alphabet row) sym = some ((alookup row sym).getD "q_trap") := by
  induction alphabet generalizing row with
  | nil => cases hsym
  | cons a rest ih =>
    rw [fillRow_cons]
    by_cases hs : sym = a
    · subst hs
      by_cases ha : (alookup row sym).isNone
      · simp only [ha, if_pos]
        have h0 : alookup row sym = none := by
          cases hh : alookup row sym with
          | none => rfl
          | some v => rw [hh] at ha; cases ha
        rw [h0]
        exact fillRow_preserves rest _ sym _ (alookup_aset_self row sym "q_trap")
      · simp only [ha, if_false]
        cases hh : alookup row sym with
        | none => rw [hh] at ha; cases ha rfl
        | some v => exact fillRow_preserves rest row sym v hh
    · have hrest : sym ∈ rest := by
        rcases List.mem_cons.mp hsym with h | h
        · exact absurd h hs
        · exact h
      by_cases ha : (alookup row a).isNone
      · simp only [ha, if_pos]
        rw [ih _ hrest, alookup_aset_ne _ _ hs]
      · simp only [ha, if_false]
        exact ih row hrest

theorem fillRow_noop (alphabet : List String) (row : Row)
    (h : ∀ a ∈ alphabet, (alookup row a).isSome) : fillRow alphabet row = row := by
  induction alphabet with
  | nil => rfl
  | cons a rest ih =>
    rw [fillRow_cons]
    have ha : (alookup row a).isNone = false := by
      have h1 := h a (List.mem_cons_self a rest)
      cases hh : alookup row a with
      | none => rw [hh] at h1; cases h1
      | some v => rfl
    rw [ha]
    simp only [Bool.false_eq_true, if_false]
    exact ih fun x hx => h x (List.mem_cons_of_mem a hx)

theorem fillRow_idem (alphabet : List String) (row : Row) :
    fillRow alphabet (fillRow alphabet row) = fillRow alphabet row := by
  apply fillRow_noop
  intro a ha
  rw [fillRow_mem alphabet row a ha]
  rfl

theorem alookup_completeFill (alphabet sts : List String) (t : Trans) (k : String) :
    alookup (completeFill alphabet sts t) k =
      if k ∈ sts then some (fillRow alphabet (getRow t k)) else alookup t k := by
  induction sts generalizing t with
  | nil => simp [completeFill]
  | cons s rest ih =>
    simp only [completeFill, List.foldl_cons]
    rw [show (List.foldl (fun acc st => aset acc st (fillRow alphabet (getRow acc st))) _ rest) =
      completeFill alphabet rest (aset t s (fillRow alphabet (getRow t s))) from rfl, ih]
    by_cases hr : k ∈ rest
    · simp only [hr, if_pos, List.mem_cons]
      by_cases hk : k = s
      · subst hk
        have : getRow (aset t k (fillRow alphabet (getRow t k))) k = fillRow alphabet (getRow t k) := by
          simp [getRow, alookup_aset_self]
        rw [this, fillRow_idem]
        simp [hr]
      · have : getRow (aset t s (fillRow alphabet (getRow t s))) k = getRow t k := by
          simp [getRow, alookup_aset_ne _ _ hk]
        rw [this]
        simp [hr]
    · by_cases hk : k = s
      · subst hk
        simp [hr, alookup_aset_self, List.mem_cons]
      · simp [hr, hk, alookup_aset_ne _ _ hk, List.mem_cons]

/-- The DFA invariants documented in spec §3 ("start ∈ states; every
transition target ∈ states; accept ⊆ states"). -/
def WellFormed (d : DFA) : Prop :=
  d.start_state ∈ d.states ∧
  (∀ p ∈ d.transitions, ∀ e ∈ p.2, e.2 ∈ d.states) ∧
  ∀ a ∈ d.accept_states, a ∈ d.states

theorem completeCore_trans (d : DFA) (htrap : "q_trap" ∉ d.states) (st : String) :
    alookup (completeCore d).transitions st =
      if st ∈ d.states then some (fillRow d.alphabet (getRow d.transitions st))
      else if st = "q_trap" then some (fillRow d.alphabet []) else none := by
  have hbase : ∀ k, alookup (d.states.foldl (fun t s => aset t s (getRow d.transitions s)) []) k =
      if k ∈ d.states then some (getRow d.transitions k) else none := by
    intro k
    rw [alookup_build_fold]
    split <;> rfl
  show alookup (completeFill d.alphabet
      (if "q_trap" ∈ d.states then d.states else d.states ++ ["q_trap"]) _) st = _
  rw [if_neg htrap, alookup_completeFill]
  by_cases hst : st ∈ d.states
  · have hne : st ≠ "q_trap" := fun h => htrap (h ▸ hst)
    rw [if_pos (List.mem_append_left _ hst), if_pos hst]
    have hg : getRow (aset (d.states.foldl (fun t s => aset t s (getRow d.transitions s)) [])
        "q_trap" []) st = getRow d.transitions st := by
      show (alookup (aset (d.states.foldl (fun t s => aset t s (getRow d.transitions s)) [])
        "q_trap" []) st).getD [] = getRow d.transitions st
      rw [alookup_aset_ne _ _ hne, hbase, if_pos hst]
      rfl
    rw [hg]
  · by_cases htr : st = "q_trap"
    · subst htr
      rw [if_pos (List.mem_append_right _ (List.mem_singleton.mpr rfl)), if_neg hst, if_pos rfl]
      have hg : getRow (aset (d.states.foldl (fun t s => aset t s (getRow d.transitions s)) [])
          "q_trap" []) "q_trap" = [] := by
        show (alookup (aset (d.states.foldl (fun t s => aset t s (getRow d.transitions s)) [])
          "q_trap" []) "q_trap").getD [] = []
        rw [alookup_aset_self]
        rfl
      rw [hg]
    · have hmem : st ∉ d.states ++ ["q_trap"] := by
        intro h
        rcases List.mem_append.mp h with h | h
        · exact hst h
        · exact htr (List.mem_singleton.mp h)
      rw [if_neg hmem, if_neg hst, if_neg htr, alookup_aset_ne _ _ htr, hbase, if_neg hst]

theorem step_eq_getRow (d : DFA) (q c : String) (hc : c ∈ d.alphabet) :
    d.step q c = alookup (getRow d.transitions q) c := by
  unfold DFA.step getRow
  rw [if_pos hc]
  cases alookup d.transitions q <;> rfl

theorem completeCore_step (d : DFA) (htrap : "q_trap" ∉ d.states) (q c : String)
    (hc : c ∈ d.alphabet) (hq : q ∈ d.states) :
    (completeCore d).step q c = some ((alookup (getRow d.transitions q) c).getD "q_trap") := by
  rw [step_eq_getRow _ _ _ (show c ∈ (completeCore d).alphabet from hc)]
  show (alookup ((alookup (completeCore d).transitions q).getD []) c) = _
  rw [completeCore_trans d htrap, if_pos hq, Option.getD_some]
  exact fillRow_mem d.alphabet _ c hc

theorem completeCore_step_trap (d : DFA) (htrap : "q_trap" ∉ d.states) (c : String)
    (hc : c ∈ d.alphabet) : (completeCore d).step "q_trap" c = some "q_trap" := by
  rw [step_eq_getRow _ _ _ (show c ∈ (completeCore d).alphabet from hc)]
  show (alookup ((alookup (completeCore d).transitions "q_trap").getD []) c) = _
  rw [completeCore_trans d htrap, if_neg htrap, if_pos rfl, Option.getD_some]
  rw [fillRow_mem d.alphabet [] c hc]
  rfl

theorem completeCore_run_trap (d : DFA) (htrap : "q_trap" ∉ d.states) (s : List String)
    (hs : ∀ c ∈ s, c ∈ d.alphabet) :
    (completeCore d).runFrom "q_trap" s = some "q_trap" := by
  induction s with
  | nil => rfl
  | cons c rest ih =>
    simp only [DFA.runFrom]
    rw [completeCore_step_trap d htrap c (hs c (List.mem_cons_self _ _))]
    exact ih fun x hx => hs x (List.mem_cons_of_mem _ hx)

theorem target_mem_states (d : DFA) (hwf : WellFormed d) {q c t : String}
    (ht : alookup (getRow d.transitions q) c = some t) : t ∈ d.states := by
  unfold getRow at ht
  cases hrow : alookup d.transitions q with
  | none => rw [hrow] at ht; cases ht
  | some row =>
    rw [hrow] at ht
    exact hwf.2.1 _ (alookup_some_mem hrow) _ (alookup_some_mem ht)

theorem completeCore_run (d : DFA) (hwf : WellFormed d) (htrap : "q_trap" ∉ d.states)
    (s : List String) (hs : ∀ c ∈ s, c ∈ d.alphabet) (q : String) (hq : q ∈ d.states) :
    (d.runFrom q s = none ∧ (completeCore d).runFrom q s = some "q_trap") ∨
    (∃ f, d.runFrom q s = some f ∧ f ∈ d.states ∧ (completeCore d).runFrom q s = some f) := by
  induction s generalizing q with
  | nil => exact Or.inr ⟨q, rfl, hq, rfl⟩
  | cons c rest ih =>
    have hc : c ∈ d.alphabet := hs c (List.mem_cons_self _ _)
    have hrest : ∀ x ∈ rest, x ∈ d.alphabet := fun x hx => hs x (List.mem_cons_of_mem _ hx)
    have hstep := step_eq_getRow d q c hc
    have hcstep := completeCore_step d htrap q c hc hq
    cases ht : alookup (getRow d.transitions q) c with
    | none =>
      left
      constructor
      · simp only [DFA.runFrom, hstep, ht]
      · rw [ht] at hcstep
        simp only [DFA.runFrom, hcstep, Option.getD_none]
        exact completeCore_run_trap d htrap rest hrest
    | some t =>
      have htstates : t ∈ d.states := target_mem_states d hwf ht
      have h1 : d.runFrom q (c :: rest) = d.runFrom t rest := by
        simp only [DFA.runFrom, hstep, ht]
      have h2 : (completeCore d).runFrom q (c :: rest) = (completeCore d).runFrom t rest := by
        rw [ht] at hcstep
        simp only [DFA.runFrom, hcstep, Option.getD_some]
      rw [h1, h2]
      exact ih hrest t htstates

theorem not_missing_step (d : DFA) (hm : hasMissing d = false) {q c : String}
    (hq : q ∈ d.states) (hc : c ∈ d.alphabet) :
    ∃ t, alookup (getRow d.transitions q) c = some t := by
  unfold hasMissing at hm
  rw [List.any_eq_false] at hm
  have h1 := hm q hq
  have h2 : (d.alphabet.any fun sym => (alookup (getRow d.transitions q) sym).isNone) = false :=
    Bool.eq_false_iff.mpr h1
  rw [List.any_eq_false] at h2
  have h3 := h2 c hc
  cases ht : alookup (getRow d.transitions q) c with
  | none => rw [ht] at h3; cases h3 rfl
  | some t => exact ⟨t, rfl⟩

theorem run_total_of_not_missing (d : DFA) (hwf : WellFormed d) (hm : hasMissing d = false)
    (s : List String) (hs : ∀ c ∈ s, c ∈ d.alphabet) (q : String) (hq : q ∈ d.states) :
    ∃ f, d.runFrom q s = some f ∧ f ∈ d.states := by
  induction s generalizing q with
  | nil => exact ⟨q, rfl, hq⟩
  | cons c rest ih =>
    have hc : c ∈ d.alphabet := hs c (List.mem_cons_self _ _)
    obtain ⟨t, ht⟩ := not_missing_step d hm hq hc
    have h1 : d.runFrom q (c :: rest) = d.runFrom t rest := by
      simp only [DFA.runFrom, step_eq_getRow d q c hc, ht]
    rw [h1]
    exact ih (fun x hx => hs x (List.mem_cons_of_mem _ hx)) t (target_mem_states d hwf ht)

theorem runFrom_congr (d1 d2 : DFA) (ha : d1.alphabet = d2.alphabet)
    (ht : d1.transitions = d2.transitions) (q : String) (s : List String) :
    d1.runFrom q s = d2.runFrom q s := by
  induction s generalizing q with
  | nil => rfl
  | cons c rest ih =>
    have hstep : d1.step q c = d2.step q c := by
      unfold DFA.step
      rw [ha, ht]
    simp only [DFA.runFrom, hstep]
    cases d2.step q c with
    | none => rfl
    | some nxt => exact ih nxt

theorem mem_invert_accept (d : DFA) (f : String) :
    f ∈ (invert d).accept_states ↔
      f ∈ (complete_dfa d).states ∧ f ∉ (complete_dfa d).accept_states := by
  show f ∈ pySorted ((complete_dfa d).states.filter fun s =>
    decide (s ∉ (complete_dfa d).accept_states)) ↔ _
  rw [mem_pySorted, List.mem_filter]
  simp

/-- The counterexample DFA for C2: a valid pydantic `DFA` value whose single
state is literally named `q_trap`; completion erases its transition row. -/
def c2cex : DFA :=
  { reasoning := ""
    states := ["q_trap"]
    alphabet := ["0"]
    transitions := []
    start_state := "q_trap"
    accept_states := ["q_trap"] }

/-- C2, counterexample.  The claim "for every DFA A and every string s over
A's alphabet, invert(A).accepts(s) equals not A.accepts(s)" fails at the DFA
with states ["q_trap"], alphabet ["0"], no transitions, start "q_trap",
accept ["q_trap"], on the one-symbol string "0": `complete_dfa` reuses the
existing state named `q_trap` as the trap, erases its row, and leaves it
accepting, so both A and invert(A) reject "0". -/
theorem invert_claim_counterexample :
    (∀ c ∈ [("0" : String)], c ∈ c2cex.alphabet) ∧
    (invert c2cex).accepts ["0"] ≠ (!(c2cex.accepts ["0"])) := by
  constructor
  · decide
  · decide

/-- C2 (amended).  For every DFA satisfying the documented invariants
(start ∈ states, transition targets ∈ states, accept ⊆ states) and having no
state named `q_trap` (the fresh trap name used by completion), and every
string over the DFA's alphabet, `invert(A).accepts(s) = not A.accepts(s)`;
`invert` completes first (adding the non-accepting trap `q_trap` and routing
every missing transition to it — this is definitional: `invert` is literally
the accept-set swap of `complete_dfa A`). -/
theorem invert_accepts_amended (d : DFA) (hwf : WellFormed d) (htrap : "q_trap" ∉ d.states)
    (s : List String) (hs : ∀ c ∈ s, c ∈ d.alphabet) :
    (invert d).accepts s = !(d.accepts s) := by
  have hrun : ∀ q s', (invert d).runFrom q s' = (complete_dfa d).runFrom q s' :=
    fun q s' => runFrom_congr (invert d) (complete_dfa d) rfl rfl q s'
  have hstart : (invert d).start_state = (complete_dfa d).start_state := rfl
  rw [DFA.accepts, DFA.accepts, acceptsFrom_eq_runFrom, acceptsFrom_eq_runFrom, hstart, hrun]
  by_cases hm : hasMissing d
  · have hcd : complete_dfa d = completeCore d := if_pos hm
    rw [hcd]
    have hstart2 : (completeCore d).start_state = d.start_state := rfl
    rw [hstart2]
    rcases completeCore_run d hwf htrap s hs d.start_state hwf.1 with
      ⟨hnone, htr⟩ | ⟨f, hsome, hfst, hcr⟩
    · rw [hnone, htr]
      have hmem : "q_trap" ∈ (invert d).accept_states := by
        rw [mem_invert_accept, hcd]
        constructor
        · show "q_trap" ∈ pySorted (if "q_trap" ∈ d.states then d.states else d.states ++ ["q_trap"])
          rw [if_neg htrap, mem_pySorted]
          exact List.mem_append_right _ (List.mem_singleton.mpr rfl)
        · show "q_trap" ∉ d.accept_states
          intro h
          exact htrap (hwf.2.2 _ h)
      show decide ("q_trap" ∈ (invert d).accept_states) = !false
      rw [decide_eq_true hmem]
      rfl
    · rw [hsome, hcr]
      have hfc : f ∈ (completeCore d).states := by
        show f ∈ pySorted (if "q_trap" ∈ d.states then d.states else d.states ++ ["q_trap"])
        rw [if_neg htrap, mem_pySorted]
        exact List.mem_append_left _ hfst
      have hmem : f ∈ (invert d).accept_states ↔ f ∉ d.accept_states := by
        rw [mem_invert_accept, hcd]
        exact ⟨fun h => h.2, fun h => ⟨hfc, h⟩⟩
      by_cases hacc : f ∈ d.accept_states
      · have h1 : f ∉ (invert d).accept_states := fun h => (hmem.mp h) hacc
        show decide (f ∈ (invert d).accept_states) = !decide (f ∈ d.accept_states)
        rw [decide_eq_false h1, decide_eq_true hacc]
        rfl
      · show decide (f ∈ (invert d).accept_states) = !decide (f ∈ d.accept_states)
        rw [decide_eq_true (hmem.mpr hacc), decide_eq_false hacc]
        rfl
  · have hm' : hasMissing d = false := by
      cases h : hasMissing d
      · rfl
      · exact absurd h hm
    have hcd : complete_dfa d = d := if_neg hm
    rw [hcd]
    obtain ⟨f, hrunf, hfst⟩ := run_total_of_not_missing d hwf hm' s hs d.start_state hwf.1
    rw [hrunf]
    have hmem : f ∈ (invert d).accept_states ↔ f ∉ d.accept_states := by
      rw [mem_invert_accept, hcd]
      exact ⟨fun h => h.2, fun h => ⟨hfst, h⟩⟩
    by_cases hacc : f ∈ d.accept_states
    · have h1 : f ∉ (invert d).accept_states := fun h => (hmem.mp h) hacc
      show decide (f ∈ (invert d).accept_states) = !decide (f ∈ d.accept_states)
      rw [decide_eq_false h1, decide_eq_true hacc]
      rfl
    · show decide (f ∈ (invert d).accept_states) = !decide (f ∈ d.accept_states)
      rw [decide_eq_true (hmem.mpr hacc), decide_eq_false hacc]
      rfl

/-- The witness DFA for C2 (amended): incomplete, accepts only the empty
string over {0}. -/
def c2wit : DFA :=
  { reasoning := ""
    states := ["q0"]
    alphabet := ["0"]
    transitions := []
    start_state := "q0"
    accept_states := ["q0"] }

/-- Witness for C2 (amended): its inversion accepts "0", which the original
rejects. -/
theorem invert_accepts_amended_witness :
    (invert c2wit).accepts ["0"] = !(c2wit.accepts ["0"]) :=
  invert_accepts_amended c2wit ⟨by decide, by decide, by decide⟩ (by decide) ["0"] (by decide)

/-! ### Generic worklist loop

Both BFS loops of `core/optimizer.py` (`find_reachable_states` and
`find_productive_states`) have the same deque shape: pop the front, skip it
when already visited, otherwise record it and append its yet-unvisited
neighbours.  `worklist nbrs` is that loop with the neighbour computation
abstracted; it is driven by explicit fuel (the Python loops terminate because
the visited set only grows, and the fuel bounds below are proven sufficient).
-/

def worklist (nbrs : String → List String) : Nat → List String → List String → List String
  | 0, visited, _ => visited
  | fuel + 1, visited, [] => visited
  | fuel + 1, visited, cur :: queue =>
    if cur ∈ visited then worklist nbrs fuel visited queue
    else worklist nbrs fuel (visited ++ [cur])
      (queue ++ (nbrs cur).filter fun t => decide (t ∉ visited ++ [cur]))

/-- Total number of entries of an association-list-of-lists. -/
def sumLens {β : Type} (t : List (String × List β)) : Nat :=
  (t.map fun p => p.2.length).sum

/-- Entries of `t` whose key has not been visited yet; the potential function
for the worklist fuel bound. -/
def unvisitedSum {β : Type} (t : List (String × List β)) (visited : List String) : Nat :=
  ((t.filter fun p => decide (p.1 ∉ visited)).map fun p => p.2.length).sum
theorem unvisitedSum_nil {β : Type} (t : List (String × List β)) :
    unvisitedSum t [] = sumLens t := by
  unfold unvisitedSum sumLens
  congr 1
  congr 1
  apply List.filter_eq_self.mpr
  intro p _
  simp

theorem unvisitedSum_cons {β : Type} (a : String) (b : List β) (rest : List (String × List β))
    (visited : List String) :
    unvisitedSum ((a, b) :: rest) visited =
      (if a ∈ visited then 0 else b.length) + unvisitedSum rest visited := by
  by_cases h : a ∈ visited
  · have hd : (decide ((a : String) ∉ visited)) = false := by simp [h]
    simp [unvisitedSum, List.filter_cons, hd, h]
  · have hd : (decide ((a : String) ∉ visited)) = true := by simp [h]
    simp [unvisitedSum, List.filter_cons, hd, h]

theorem unvisitedSum_mono {β : Type} (t : List (String × List β)) (visited : List String)
    (cur : String) : unvisitedSum t (visited ++ [cur]) ≤ unvisitedSum t visited := by
  induction t with
  | nil => simp [unvisitedSum]
  | cons p rest ih =>
    obtain ⟨a, b⟩ := p
    rw [unvisitedSum_cons, unvisitedSum_cons]
    by_cases h : a ∈ visited
    · have h2 : a ∈ visited ++ [cur] := List.mem_append_left _ h
      simp only [h, h2, if_pos]
      omega
    · by_cases h3 : a ∈ visited ++ [cur]
      · simp only [h, h3, if_pos, if_neg, not_false_iff]
        omega
      · simp only [h, h3, if_neg, not_false_iff]
        omega

theorem unvisitedSum_drop {β : Type} (t : List (String × List β)) (visited : List String)
    {cur : String} {l : List β} (hl : alookup t cur = some l) (hcur : cur ∉ visited) :
    unvisitedSum t (visited ++ [cur]) + l.length ≤ unvisitedSum t visited := by
  induction t with
  | nil => cases hl
  | cons p rest ih =>
    obtain ⟨a, b⟩ := p
    by_cases ha : a = cur
    · subst ha
      simp only [alookup, if_pos] at hl
      cases hl
      rw [unvisitedSum_cons, unvisitedSum_cons]
      have h2 : a ∈ visited ++ [a] := List.mem_append_right _ (List.mem_singleton.mpr rfl)
      simp only [h2, if_pos, hcur, if_neg, not_false_iff]
      have := unvisitedSum_mono rest visited a
      omega
    · simp only [alookup, ha, if_false] at hl
      rw [unvisitedSum_cons, unvisitedSum_cons]
      have hiff : a ∈ visited ++ [cur] ↔ a ∈ visited := by
        constructor
        · intro hh
          rcases List.mem_append.mp hh with hh | hh
          · exact hh
          · exact absurd (List.mem_singleton.mp hh) ha
        · exact fun hh => List.mem_append_left _ hh
      have := ih hl
      by_cases hv : a ∈ visited
      · rw [if_pos (hiff.mpr hv), if_pos hv]
        omega
      · rw [if_neg (fun hh => hv (hiff.mp hh)), if_neg hv]
        omega

theorem worklist_closed_pred (nbrs : String → List String) (P : String → Prop)
    (hstep : ∀ q, P q → ∀ t ∈ nbrs q, P t) :
    ∀ fuel visited queue, (∀ x ∈ visited, P x) → (∀ x ∈ queue, P x) →
      ∀ x ∈ worklist nbrs fuel visited queue, P x := by
  intro fuel
  induction fuel with
  | zero =>
    intro visited queue hv _ x hx
    exact hv x hx
  | succ fuel ih =>
    intro visited queue hv hq
    cases queue with
    | nil =>
      intro x hx
      exact hv x hx
    | cons cur rest =>
      have hred : worklist nbrs (fuel + 1) visited (cur :: rest) =
          if cur ∈ visited then worklist nbrs fuel visited rest
          else worklist nbrs fuel (visited ++ [cur])
            (rest ++ (nbrs cur).filter fun t => decide (t ∉ visited ++ [cur])) := rfl
      rw [hred]
      by_cases hc : cur ∈ visited
      · rw [if_pos hc]
        exact ih visited rest hv (fun x hx => hq x (List.mem_cons_of_mem _ hx))
      · rw [if_neg hc]
        have hcurP : P cur := hq cur (List.mem_cons_self _ _)
        apply ih
        · intro x hx
          rcases List.mem_append.mp hx with hx | hx
          · exact hv x hx
          · rw [List.mem_singleton.mp hx]
            exact hcurP
        · intro x hx
          rcases List.mem_append.mp hx with hx | hx
          · exact hq x (List.mem_cons_of_mem _ hx)
          · exact hstep cur hcurP x (List.mem_of_mem_filter hx)

theorem worklist_spec (nbrs : String → List String) (Φ : List String → Nat)
    (hΦ : ∀ visited cur, cur ∉ visited → Φ (visited ++ [cur]) + (nbrs cur).length ≤ Φ visited) :
    ∀ fuel visited queue,
      queue.length + Φ visited ≤ fuel →
      (∀ q ∈ visited, ∀ t ∈ nbrs q, t ∈ visited ∨ t ∈ queue) →
      (∀ x ∈ visited, x ∈ worklist nbrs fuel visited queue) ∧
      (∀ x ∈ queue, x ∈ worklist nbrs fuel visited queue) ∧
      (∀ q ∈ worklist nbrs fuel visited queue, ∀ t ∈ nbrs q,
        t ∈ worklist nbrs fuel visited queue) := by
  intro fuel
  induction fuel with
  | zero =>
    intro visited queue hfuel hinv
    have hq : queue = [] := List.eq_nil_of_length_eq_zero (by omega)
    subst hq
    refine ⟨fun x hx => hx, fun x hx => absurd hx (List.not_mem_nil x), ?_⟩
    intro q hq t ht
    rcases hinv q hq t ht with h | h
    · exact h
    · exact absurd h (List.not_mem_nil t)
  | succ fuel ih =>
    intro visited queue hfuel hinv
    cases queue with
    | nil =>
      refine ⟨fun x hx => hx, fun x hx => absurd hx (List.not_mem_nil x), ?_⟩
      intro q hq t ht
      rcases hinv q hq t ht with h | h
      · exact h
      · exact absurd h (List.not_mem_nil t)
    | cons cur rest =>
      have hred : worklist nbrs (fuel + 1) visited (cur :: rest) =
          if cur ∈ visited then worklist nbrs fuel visited rest
          else worklist nbrs fuel (visited ++ [cur])
            (rest ++ (nbrs cur).filter fun t => decide (t ∉ visited ++ [cur])) := rfl
      rw [hred]
      by_cases hc : cur ∈ visited
      · rw [if_pos hc]
        have hfuel' : rest.length + Φ visited ≤ fuel := by
          simp only [List.length_cons] at hfuel
          omega
        have hinv' : ∀ q ∈ visited, ∀ t ∈ nbrs q, t ∈ visited ∨ t ∈ rest := by
          intro q hq t ht
          rcases hinv q hq t ht with h | h
          · exact Or.inl h
          · rcases List.mem_cons.mp h with h | h
            · exact Or.inl (h ▸ hc)
            · exact Or.inr h
        obtain ⟨s1, s2, s3⟩ := ih visited rest hfuel' hinv'
        exact ⟨s1, fun x hx => (List.mem_cons.mp hx).elim (fun h => s1 x (h ▸ hc))
          (fun h => s2 x h), s3⟩
      · rw [if_neg hc]
        have hfuel' : (rest ++ (nbrs cur).filter fun t => decide (t ∉ visited ++ [cur])).length +
            Φ (visited ++ [cur]) ≤ fuel := by
          have h1 := hΦ visited cur hc
          have h2 : ((nbrs cur).filter fun t => decide (t ∉ visited ++ [cur])).length ≤
              (nbrs cur).length := List.length_filter_le _ _
          simp only [List.length_append, List.length_cons] at hfuel ⊢
          omega
        have hinv' : ∀ q ∈ visited ++ [cur], ∀ t ∈ nbrs q,
            t ∈ visited ++ [cur] ∨
              t ∈ rest ++ (nbrs cur).filter fun t => decide (t ∉ visited ++ [cur]) := by
          intro q hq t ht
          rcases List.mem_append.mp hq with hq | hq
          · rcases hinv q hq t ht with h | h
            · exact Or.inl (List.mem_append_left _ h)
            · rcases List.mem_cons.mp h with h | h
              · exact Or.inl (h ▸ List.mem_append_right _ (List.mem_singleton.mpr rfl))
              · exact Or.inr (List.mem_append_left _ h)
          · rw [List.mem_singleton.mp hq] at ht
            by_cases hv : t ∈ visited ++ [cur]
            · exact Or.inl hv
            · refine Or.inr (List.mem_append_right _ ?_)
              exact List.mem_filter.mpr ⟨ht, by simpa using hv⟩
        obtain ⟨s1, s2, s3⟩ := ih (visited ++ [cur]) _ hfuel' hinv'
        refine ⟨fun x hx => s1 x (List.mem_append_left _ hx), ?_, s3⟩
        intro x hx
        rcases List.mem_cons.mp hx with hx | hx
        · exact s1 x (hx ▸ List.mem_append_right _ (List.mem_singleton.mpr rfl))
        · exact s2 x (List.mem_append_left _ hx)

/-! ### `DFAOptimizer` (`core/optimizer.py`) -/

/-- The neighbour function of `find_reachable_states`: targets of the current
state's transition row that are declared states (the loop's
`next_state in dfa.states` guard); `worklist` applies the loop's
`next_state not in reachable` guard. -/
def optNbrs (d : DFA) (cur : String) : List String :=
  match alookup d.transitions cur with
  | none => []
  | some row => (row.map fun e => e.2).filter fun t => decide (t ∈ d.states)

/-- `DFAOptimizer.find_reachable_states`: BFS from the start state. -/
def find_reachable_states (d : DFA) : List String :=
  worklist (optNbrs d) (sumLens d.transitions + 2) [] [d.start_state]

/-- The reverse-edge graph of `find_productive_states`.  Python stores the
predecessor sets as Python sets and only membership in them is consumed
downstream, so they are modelled as duplicate-free insertion-ordered lists. -/
def revStep (src : String) (g : List (String × List String)) (e : String × String) :
    List (String × List String) :=
  match alookup g e.2 with
  | some l => if src ∈ l then g else aset g e.2 (l ++ [src])
  | none => g

def revInner (src : String) (row : Row) (g : List (String × List String)) :
    List (String × List String) :=
  row.foldl (revStep src) g

def buildReverse (d : DFA) : List (String × List String) :=
  let base := d.states.foldl (fun g st => aset g st ([] : List String)) []
  d.transitions.foldl (fun g p => revInner p.1 p.2 g) base

/-- `DFAOptimizer.find_productive_states`: reverse BFS from the accept
states. -/
def find_productive_states (d : DFA) : List String :=
  let rev := buildReverse d
  worklist (fun cur => (alookup rev cur).getD [])
    (d.accept_states.length + sumLens rev + 1) [] d.accept_states

/-- `DFAOptimizer.find_useful_states`: reachable ∩ productive.  Python forms
a set intersection; only membership is consumed downstream, so the
intersection is modelled in reachable order. -/
def find_useful_states (d : DFA) : List String :=
  (find_reachable_states d).filter fun q => decide (q ∈ find_productive_states d)

/-- The `useful_states` variable of `cleanup` after the empty-fallback
(`cleanup` Step 1): reachable ∩ productive, or the reachable states when that
intersection is empty. -/
def usefulOf (d : DFA) : List String :=
  if find_useful_states d = [] then find_reachable_states d else find_useful_states d

/-- `cleanup` Step 2: does any retained state have a transition entry whose
target will be dropped? -/
def dead_state_needed (d : DFA) : Bool :=
  (usefulOf d).any fun st =>
    match alookup d.transitions st with
    | none => false
    | some row => row.any fun e => decide (e.2 ∉ usefulOf d)

/-- `cleanup` Step 3: the final state set; the Python set `add` of the dead
state deduplicates, modelled by the membership guard. -/
def finalStatesOf (d : DFA) (keep : Bool) : List String :=
  if keep && dead_state_needed d && decide ("q_dead" ∉ usefulOf d) then
    usefulOf d ++ ["q_dead"]
  else usefulOf d

/-- The single value `cleanup` Step 4 assigns to `cleaned_transitions[st][sym]`
(one dict assignment per state/symbol pair, by the branch structure of the
Python loop). -/
def cleanupTarget (d : DFA) (keep : Bool) (st sym : String) : String :=
  if st = "q_dead" then st
  else
    match alookup d.transitions st with
    | some row =>
      match alookup row sym with
      | some dest =>
        if dest ∈ finalStatesOf d keep then dest
        else if keep then "q_dead" else st
      | none =>
        if keep then (if dead_state_needed d then "q_dead" else st) else st
    | none => if keep && dead_state_needed d then "q_dead" else st

/-- One cleaned transition row: the alphabet symbols in order. -/
def cleanupRow (d : DFA) (keep : Bool) (st : String) : Row :=
  d.alphabet.foldl (fun r sym => aset r sym (cleanupTarget d keep st sym)) []

/-- The non-degenerate branch of `DFAOptimizer.cleanup` (`optimizer.py` lines
147-253).  The Python row loop iterates the `final_states` set in unspecified
set order; only key lookups of the resulting dict are consumed, so it is
modelled in sorted order. -/
def cleanupCore (d : DFA) (keep : Bool) : DFA :=
  let final_states := finalStatesOf d keep
  { reasoning :=
      if final_states.length < d.states.length then
        d.reasoning ++ " [Optimized: -" ++ Nat.repr (d.states.length - final_states.length) ++
          " states]"
      else d.reasoning
    states := pySorted final_states
    alphabet := d.alphabet
    transitions := (pySorted final_states).foldl (fun acc st => aset acc st (cleanupRow d keep st)) []
    start_state :=
      if d.start_state ∈ final_states then d.start_state
      else
        match pySorted final_states with
        | [] => d.start_state
        | s :: _ => s
    accept_states := d.accept_states.filter fun s => decide (s ∈ final_states) }

/-- `DFAOptimizer.cleanup` (`core/optimizer.py` lines 147-253). -/
def cleanup (d : DFA) (keep_completeness : Bool) : DFA :=
  if d.states = [] then d else cleanupCore d keep_completeness

/-- The counterexample DFA for C5: one useful state whose only transition row
is empty (an incomplete DFA), accepting only the empty string. -/
def c5cex : DFA :=
  { reasoning := ""
    states := ["q0"]
    alphabet := ["0"]
    transitions := [("q0", [])]
    start_state := "q0"
    accept_states := ["q0"] }

/-- C5, counterexample.  The claim "cleanup(A) (with keep_completeness=True)
returns a DFA with the same accept/reject outcome for every string over A's
alphabet" fails on the DFA ({q0}, {0}, transitions {q0: {}}, start q0,
accept {q0}): q0's missing transition on "0" is rewritten to a self-loop
(`dead_state_needed` is false, so the keep-completeness branch routes the
missing symbol back to the state itself), so cleanup(A) accepts "0" while A
rejects it. -/
theorem cleanup_claim_counterexample :
    (∀ c ∈ [("0" : String)], c ∈ c5cex.alphabet) ∧
    (cleanup c5cex true).accepts ["0"] ≠ c5cex.accepts ["0"] := by
  constructor
  · decide
  · decide

theorem reach_spec (d : DFA) :
    d.start_state ∈ find_reachable_states d ∧
    ∀ q ∈ find_reachable_states d, ∀ t ∈ optNbrs d q, t ∈ find_reachable_states d := by
  have hΦ : ∀ visited cur, cur ∉ visited →
      unvisitedSum d.transitions (visited ++ [cur]) + (optNbrs d cur).length ≤
        unvisitedSum d.transitions visited := by
    intro visited cur hc
    unfold optNbrs
    cases hrow : alookup d.transitions cur with
    | none =>
      simpa using unvisitedSum_mono d.transitions visited cur
    | some row =>
      have h1 := unvisitedSum_drop d.transitions visited hrow hc
      have h2 : ((row.map fun e => e.2).filter fun t => decide (t ∈ d.states)).length ≤
          row.length := by
        calc ((row.map fun e => e.2).filter fun t => decide (t ∈ d.states)).length
            ≤ (row.map fun e => e.2).length := List.length_filter_le _ _
          _ = row.length := List.length_map _ _
      show unvisitedSum d.transitions (visited ++ [cur]) +
        ((row.map fun e => e.2).filter fun t => decide (t ∈ d.states)).length ≤
        unvisitedSum d.transitions visited
      omega
  have hfuel : ([d.start_state] : List String).length + unvisitedSum d.transitions [] ≤
      sumLens d.transitions + 2 := by
    rw [unvisitedSum_nil]
    simp only [List.length_singleton]
    omega
  have hinv : ∀ q ∈ ([] : List String), ∀ t ∈ optNbrs d q,
      t ∈ ([] : List String) ∨ t ∈ [d.start_state] :=
    fun q hq => absurd hq (List.not_mem_nil q)
  obtain ⟨-, s2, s3⟩ :=
    worklist_spec (optNbrs d) (unvisitedSum d.transitions) hΦ _ [] [d.start_state] hfuel hinv
  exact ⟨s2 _ (List.mem_singleton.mpr rfl), s3⟩

theorem mem_optNbrs {d : DFA} {q t c : String} {row : Row}
    (hrow : alookup d.transitions q = some row) (he : (c, t) ∈ row) (ht : t ∈ d.states) :
    t ∈ optNbrs d q := by
  unfold optNbrs
  rw [hrow]
  refine List.mem_filter.mpr ⟨?_, by simpa using ht⟩
  exact List.mem_map.mpr ⟨(c, t), he, rfl⟩

theorem reach_subset_states (d : DFA) (hstart : d.start_state ∈ d.states) :
    ∀ x ∈ find_reachable_states d, x ∈ d.states := by
  apply worklist_closed_pred (optNbrs d) (fun x => x ∈ d.states)
  · intro q _ t ht
    unfold optNbrs at ht
    cases hrow : alookup d.transitions q with
    | none =>
      rw [hrow] at ht
      cases ht
    | some row =>
      rw [hrow] at ht
      have := (List.mem_filter.mp ht).2
      simpa using this
  · intro x hx
    cases hx
  · intro x hx
    rw [List.mem_singleton.mp hx]
    exact hstart

/-- Forward edges of the reachability BFS: a transition-row entry whose
target is a declared state. -/
def optEdge (d : DFA) (q t : String) : Prop :=
  t ∈ d.states ∧ ∃ row, alookup d.transitions q = some row ∧ ∃ c, (c, t) ∈ row

theorem reach_sound (d : DFA) :
    ∀ x ∈ find_reachable_states d,
      Relation.ReflTransGen (optEdge d) d.start_state x := by
  apply worklist_closed_pred (optNbrs d) (Relation.ReflTransGen (optEdge d) d.start_state)
  · intro q hq t ht
    unfold optNbrs at ht
    cases hrow : alookup d.transitions q with
    | none =>
      rw [hrow] at ht
      cases ht
    | some row =>
      rw [hrow] at ht
      have h1 := List.mem_filter.mp ht
      obtain ⟨e, hemem, het⟩ := List.mem_map.mp h1.1
      refine hq.tail ⟨by simpa using h1.2, row, hrow, e.1, ?_⟩
      rw [show ((e.1, t) : String × String) = e from ?_]
      · exact hemem
      · calc (e.1, t) = (e.1, e.2) := by rw [het]
          _ = e := rfl
  · intro x hx
    cases hx
  · intro x hx
    rw [List.mem_singleton.mp hx]

theorem productive_spec (d : DFA) :
    (∀ a ∈ d.accept_states, a ∈ find_productive_states d) ∧
    ∀ q ∈ find_productive_states d, ∀ t ∈ (alookup (buildReverse d) q).getD [],
      t ∈ find_productive_states d := by
  have hΦ : ∀ visited cur, cur ∉ visited →
      unvisitedSum (buildReverse d) (visited ++ [cur]) +
        ((alookup (buildReverse d) cur).getD []).length ≤
        unvisitedSum (buildReverse d) visited := by
    intro visited cur hc
    cases hrow : alookup (buildReverse d) cur with
    | none =>
      simpa using unvisitedSum_mono (buildReverse d) visited cur
    | some l =>
      have h1 := unvisitedSum_drop (buildReverse d) visited hrow hc
      simpa using h1
  have hfuel : (d.accept_states).length + unvisitedSum (buildReverse d) [] ≤
      d.accept_states.length + sumLens (buildReverse d) + 1 := by
    rw [unvisitedSum_nil]
    omega
  have hinv : ∀ q ∈ ([] : List String), ∀ t ∈ (alookup (buildReverse d) q).getD [],
      t ∈ ([] : List String) ∨ t ∈ d.accept_states :=
    fun q hq => absurd hq (List.not_mem_nil q)
  obtain ⟨-, s2, s3⟩ :=
    worklist_spec (fun cur => (alookup (buildReverse d) cur).getD [])
      (unvisitedSum (buildReverse d)) hΦ _ [] d.accept_states hfuel hinv
  exact ⟨s2, s3⟩

/-- The reverse graph's values only grow during construction (a Python set
`add` never removes members), and no keys are added or removed. -/
def ValGrow (g g' : List (String × List String)) : Prop :=
  ∀ k l, alookup g k = some l → ∃ l', alookup g' k = some l' ∧ ∀ x ∈ l, x ∈ l'

theorem valGrow_refl (g : List (String × List String)) : ValGrow g g :=
  fun _ l h => ⟨l, h, fun _ hx => hx⟩

theorem valGrow_trans {g1 g2 g3 : List (String × List String)} (h12 : ValGrow g1 g2)
    (h23 : ValGrow g2 g3) : ValGrow g1 g3 := by
  intro k l h
  obtain ⟨l2, h2, hsub2⟩ := h12 k l h
  obtain ⟨l3, h3, hsub3⟩ := h23 k l2 h2
  exact ⟨l3, h3, fun x hx => hsub3 x (hsub2 x hx)⟩

theorem valGrow_revStep (src : String) (g : List (String × List String)) (e : String × String) :
    ValGrow g (revStep src g e) := by
  unfold revStep
  cases hl : alookup g e.2 with
  | none => exact valGrow_refl g
  | some l =>
    by_cases hm : src ∈ l
    · simp only [hm, if_pos]
      exact valGrow_refl g
    · simp only [hm, if_false]
      intro k lk hk
      by_cases hke : k = e.2
      · subst hke
        rw [hl] at hk
        cases hk
        exact ⟨l ++ [src], alookup_aset_self g e.2 (l ++ [src]),
          fun x hx => List.mem_append_left _ hx⟩
      · exact ⟨lk, by rw [alookup_aset_ne _ _ hke]; exact hk, fun _ hx => hx⟩

theorem valGrow_revInner (src : String) (row : Row) (g : List (String × List String)) :
    ValGrow g (revInner src row g) := by
  induction row generalizing g with
  | nil => exact valGrow_refl g
  | cons e rest ih =>
    exact valGrow_trans (valGrow_revStep src g e) (ih (revStep src g e))

theorem valGrow_buildFold (ts : Trans) (g : List (String × List String)) :
    ValGrow g (ts.foldl (fun g p => revInner p.1 p.2 g) g) := by
  induction ts generalizing g with
  | nil => exact valGrow_refl g
  | cons p rest ih =>
    exact valGrow_trans (valGrow_revInner p.1 p.2 g) (ih (revInner p.1 p.2 g))

theorem revInner_adds (src : String) (row : Row) (g : List (String × List String))
    {c dest : String} {l : List String} (he : (c, dest) ∈ row) (hl : alookup g dest = some l) :
    ∃ l', alookup (revInner src row g) dest = some l' ∧ src ∈ l' := by
  induction row generalizing g l with
  | nil => cases he
  | cons e rest ih =>
    rcases List.mem_cons.mp he with heq | hrest
    · have hstep : ∃ l2, alookup (revStep src g e) dest = some l2 ∧ src ∈ l2 := by
        have hdest : e.2 = dest := by rw [← heq]
        unfold revStep
        rw [hdest, hl]
        by_cases hm : src ∈ l
        · simp only [hm, if_pos]
          exact ⟨l, hl, hm⟩
        · simp only [hm, if_false]
          exact ⟨l ++ [src], alookup_aset_self _ _ _,
            List.mem_append_right _ (List.mem_singleton.mpr rfl)⟩
      obtain ⟨l2, hl2, hsrc⟩ := hstep
      obtain ⟨l3, hl3, hsub⟩ := valGrow_revInner src rest (revStep src g e) dest l2 hl2
      exact ⟨l3, hl3, hsub src hsrc⟩
    · obtain ⟨l2, hl2, -⟩ := valGrow_revStep src g e dest l hl
      exact ih (revStep src g e) hrest hl2


theorem revFold_mem (ts : Trans) {src : String} {row : Row} {c dest : String}
    (hrow : (src, row) ∈ ts) (he : (c, dest) ∈ row) :
    ∀ g0 l0, alookup g0 dest = some l0 →
      src ∈ (alookup (ts.foldl (fun g p => revInner p.1 p.2 g) g0) dest).getD [] := by
  induction ts with
  | nil => cases hrow
  | cons p rest ih =>
    intro g0 l0 hl0
    simp only [List.foldl_cons]
    rcases List.mem_cons.mp hrow with heq | hrest
    · have hps : p.1 = src := by rw [← heq]
      have hpr : p.2 = row := by rw [← heq]
      obtain ⟨l1, hl1, hsrc⟩ := revInner_adds p.1 p.2 g0 (hpr ▸ he) hl0
      obtain ⟨l2, hl2, hsub⟩ := valGrow_buildFold rest (revInner p.1 p.2 g0) dest l1 hl1
      rw [hl2]
      exact hps ▸ hsub p.1 hsrc
    · obtain ⟨l1, hl1, -⟩ := valGrow_revInner p.1 p.2 g0 dest l0 hl0
      exact ih hrest (revInner p.1 p.2 g0) l1 hl1

theorem buildReverse_mem (d : DFA) {src : String} {row : Row} {c dest : String}
    (hrow : (src, row) ∈ d.transitions) (he : (c, dest) ∈ row) (hd : dest ∈ d.states) :
    src ∈ (alookup (buildReverse d) dest).getD [] := by
  have hbase : alookup
      (d.states.foldl (fun g st => aset g st ([] : List String)) []) dest = some [] := by
    rw [alookup_build_fold (fun _ => ([] : List String)) d.states [] dest, if_pos hd]
  exact revFold_mem d.transitions hrow he _ [] hbase

/-- Completeness of a DFA in the sense of the spec glossary: every state has
a transition row defining every alphabet symbol (and, with `WellFormed`,
every target is a state). -/
def Complete (d : DFA) : Prop :=
  ∀ q ∈ d.states, (alookup d.transitions q).isSome ∧
    ∀ c ∈ d.alphabet, (alookup (getRow d.transitions q) c).isSome

theorem complete_step (d : DFA) (hwf : WellFormed d) (hcomp : Complete d) {q c : String}
    (hq : q ∈ d.states) (hc : c ∈ d.alphabet) :
    ∃ row t, alookup d.transitions q = some row ∧ alookup row c = some t ∧ t ∈ d.states := by
  obtain ⟨h1, h2⟩ := hcomp q hq
  cases hrow : alookup d.transitions q with
  | none =>
    rw [hrow] at h1
    cases h1
  | some row =>
    have h3 := h2 c hc
    unfold getRow at h3
    rw [hrow, Option.getD_some] at h3
    cases ht : alookup row c with
    | none =>
      rw [ht] at h3
      cases h3
    | some t =>
      exact ⟨row, t, rfl, ht, hwf.2.1 _ (alookup_some_mem hrow) _ (alookup_some_mem ht)⟩

theorem productive_backclosed_mem (d : DFA) {q t ch : String} {row : Row}
    (hrow : (q, row) ∈ d.transitions) (he : (ch, t) ∈ row) (ht : t ∈ d.states)
    (htP : t ∈ find_productive_states d) : q ∈ find_productive_states d :=
  (productive_spec d).2 t htP q (buildReverse_mem d hrow he ht)

theorem reach_closed (d : DFA) {q t c : String} {row : Row}
    (hq : q ∈ find_reachable_states d) (hrow : alookup d.transitions q = some row)
    (he : alookup row c = some t) (ht : t ∈ d.states) : t ∈ find_reachable_states d :=
  (reach_spec d).2 q hq t (mem_optNbrs hrow (alookup_some_mem he) ht)

theorem mem_useful_iff (d : DFA) (x : String) :
    x ∈ find_useful_states d ↔
      x ∈ find_reachable_states d ∧ x ∈ find_productive_states d := by
  unfold find_useful_states
  rw [List.mem_filter]
  simp

theorem nonproductive_run (d : DFA) (hwf : WellFormed d) (hcomp : Complete d)
    (s : List String) (hs : ∀ c ∈ s, c ∈ d.alphabet) :
    ∀ u, u ∈ d.states → u ∉ find_productive_states d →
      ∃ f, d.runFrom u s = some f ∧ f ∈ d.states ∧ f ∉ find_productive_states d := by
  induction s with
  | nil => exact fun u hu hnp => ⟨u, rfl, hu, hnp⟩
  | cons c rest ih =>
    intro u hu hnp
    have hc : c ∈ d.alphabet := hs c (List.mem_cons_self _ _)
    obtain ⟨row, t, hrow, ht, hts⟩ := complete_step d hwf hcomp hu hc
    have hstep : d.step u c = some t := by
      unfold DFA.step
      rw [if_pos hc, hrow]
      exact ht
    have htnp : t ∉ find_productive_states d := fun htp =>
      hnp (productive_backclosed_mem d (alookup_some_mem hrow) (alookup_some_mem ht) hts htp)
    have h1 : d.runFrom u (c :: rest) = d.runFrom t rest := by
      simp only [DFA.runFrom, hstep]
    rw [h1]
    exact ih (fun x hx => hs x (List.mem_cons_of_mem _ hx)) t hts htnp

theorem start_productive_of_useful_nonempty (d : DFA)
    (hne : find_useful_states d ≠ []) : d.start_state ∈ find_productive_states d := by
  obtain ⟨u, hu⟩ : ∃ u, u ∈ find_useful_states d := by
    cases h : find_useful_states d with
    | nil => exact absurd h hne
    | cons a l => exact ⟨a, h ▸ List.mem_cons_self a l⟩
  obtain ⟨huR, huP⟩ := (mem_useful_iff d u).mp hu
  have hpath := reach_sound d u huR
  refine Relation.ReflTransGen.head_induction_on hpath huP ?_
  intro a c h' _ hcP
  obtain ⟨hcs, row, hrow, ch, he⟩ := h'
  exact productive_backclosed_mem d (alookup_some_mem hrow) he hcs hcP

theorem usefulOf_subset_reach (d : DFA) : ∀ x ∈ usefulOf d, x ∈ find_reachable_states d := by
  intro x hx
  unfold usefulOf at hx
  by_cases h : find_useful_states d = []
  · rw [if_pos h] at hx
    exact hx
  · rw [if_neg h] at hx
    exact ((mem_useful_iff d x).mp hx).1

theorem usefulOf_subset_states (d : DFA) (hwf : WellFormed d) :
    ∀ x ∈ usefulOf d, x ∈ d.states :=
  fun x hx => reach_subset_states d hwf.1 x (usefulOf_subset_reach d x hx)

theorem start_mem_usefulOf (d : DFA) : d.start_state ∈ usefulOf d := by
  unfold usefulOf
  by_cases h : find_useful_states d = []
  · rw [if_pos h]
    exact (reach_spec d).1
  · rw [if_neg h]
    exact (mem_useful_iff d _).mpr ⟨(reach_spec d).1, start_productive_of_useful_nonempty d h⟩

theorem deadNeeded_of_escape (d : DFA) {q t ch : String} {row : Row} (hq : q ∈ usefulOf d)
    (hrow : alookup d.transitions q = some row) (he : (ch, t) ∈ row)
    (ht : t ∉ usefulOf d) : dead_state_needed d = true := by
  unfold dead_state_needed
  rw [List.any_eq_true]
  refine ⟨q, hq, ?_⟩
  rw [hrow]
  rw [List.any_eq_true]
  exact ⟨(ch, t), he, by simpa using ht⟩

theorem finalStates_eq (d : DFA) (hwf : WellFormed d) (hdead : "q_dead" ∉ d.states) :
    finalStatesOf d true =
      if dead_state_needed d then usefulOf d ++ ["q_dead"] else usefulOf d := by
  unfold finalStatesOf
  have hdu : "q_dead" ∉ usefulOf d := fun h => hdead (usefulOf_subset_states d hwf _ h)
  cases hdn : dead_state_needed d with
  | true => simp [hdu]
  | false => simp

theorem mem_finalStates_of_useful (d : DFA) {x : String} (hx : x ∈ usefulOf d) :
    x ∈ finalStatesOf d true := by
  unfold finalStatesOf
  by_cases h : (true && dead_state_needed d && decide ("q_dead" ∉ usefulOf d)) = true
  · rw [if_pos h]
    exact List.mem_append_left _ hx
  · rw [if_neg h]
    exact hx

theorem mem_useful_of_finalStates (d : DFA) (hwf : WellFormed d)
    (hdead : "q_dead" ∉ d.states) {x : String} (hx : x ∈ finalStatesOf d true)
    (hxs : x ∈ d.states) : x ∈ usefulOf d := by
  rw [finalStates_eq d hwf hdead] at hx
  cases hdn : dead_state_needed d with
  | true =>
    rw [hdn, if_pos rfl] at hx
    rcases List.mem_append.mp hx with h | h
    · exact h
    · exact absurd (List.mem_singleton.mp h ▸ hxs) hdead
  | false =>
    rw [hdn] at hx
    simpa using hx

theorem dead_mem_finalStates (d : DFA) (hwf : WellFormed d) (hdead : "q_dead" ∉ d.states)
    (hdn : dead_state_needed d = true) : "q_dead" ∈ finalStatesOf d true := by
  rw [finalStates_eq d hwf hdead, hdn, if_pos rfl]
  exact List.mem_append_right _ (List.mem_singleton.mpr rfl)

theorem cleanupCore_trans (d : DFA) (keep : Bool) (st : String) :
    alookup (cleanupCore d keep).transitions st =
      if st ∈ finalStatesOf d keep then some (cleanupRow d keep st) else none := by
  show alookup ((pySorted (finalStatesOf d keep)).foldl
    (fun acc st => aset acc st (cleanupRow d keep st)) []) st = _
  rw [alookup_build_fold (cleanupRow d keep)]
  by_cases h : st ∈ finalStatesOf d keep
  · rw [if_pos (mem_pySorted.mpr h), if_pos h]
  · rw [if_neg (fun hh => h (mem_pySorted.mp hh)), if_neg h]
    rfl

theorem cleanupRow_lookup (d : DFA) (keep : Bool) (st c : String) (hc : c ∈ d.alphabet) :
    alookup (cleanupRow d keep st) c = some (cleanupTarget d keep st c) := by
  unfold cleanupRow
  rw [alookup_build_fold (cleanupTarget d keep st), if_pos hc]

theorem cleanup_step_eq (d : DFA) (hne : d.states ≠ []) {q c : String}
    (hq : q ∈ finalStatesOf d true) (hc : c ∈ d.alphabet) :
    (cleanup d true).step q c = some (cleanupTarget d true q c) := by
  have hM : cleanup d true = cleanupCore d true := if_neg hne
  rw [hM]
  unfold DFA.step
  have halpha : (cleanupCore d true).alphabet = d.alphabet := rfl
  rw [halpha, if_pos hc, cleanupCore_trans, if_pos hq]
  show alookup (cleanupRow d true q) c = some (cleanupTarget d true q c)
  exact cleanupRow_lookup d true q c hc

theorem cleanup_dead_run (d : DFA) (hne : d.states ≠ [])
    (hd : "q_dead" ∈ finalStatesOf d true) (s : List String)
    (hs : ∀ c ∈ s, c ∈ d.alphabet) :
    (cleanup d true).runFrom "q_dead" s = some "q_dead" := by
  induction s with
  | nil => rfl
  | cons c rest ih =>
    have hc : c ∈ d.alphabet := hs c (List.mem_cons_self _ _)
    have hstep := cleanup_step_eq d hne hd hc
    have htgt : cleanupTarget d true "q_dead" c = "q_dead" := by
      unfold cleanupTarget
      rw [if_pos rfl]
    simp only [DFA.runFrom, hstep, htgt]
    exact ih fun x hx => hs x (List.mem_cons_of_mem _ hx)

theorem cleanup_sim (d : DFA) (hwf : WellFormed d) (hcomp : Complete d)
    (hdead : "q_dead" ∉ d.states) (hne : d.states ≠ []) (s : List String)
    (hs : ∀ c ∈ s, c ∈ d.alphabet) :
    ∀ q ∈ usefulOf d,
      (∃ f, d.runFrom q s = some f ∧ f ∈ usefulOf d ∧
        (cleanup d true).runFrom q s = some f) ∨
      (∃ f, d.runFrom q s = some f ∧ f ∈ d.states ∧ f ∉ find_productive_states d ∧
        (cleanup d true).runFrom q s = some "q_dead") := by
  induction s with
  | nil => exact fun q hq => Or.inl ⟨q, rfl, hq, rfl⟩
  | cons c rest ih =>
    intro q hq
    have hc : c ∈ d.alphabet := hs c (List.mem_cons_self _ _)
    have hrest : ∀ x ∈ rest, x ∈ d.alphabet := fun x hx => hs x (List.mem_cons_of_mem _ hx)
    have hqs : q ∈ d.states := usefulOf_subset_states d hwf q hq
    have hqd : q ≠ "q_dead" := fun h => hdead (h ▸ hqs)
    obtain ⟨row, t, hrow, ht, hts⟩ := complete_step d hwf hcomp hqs hc
    have hstepd : d.step q c = some t := by
      unfold DFA.step
      rw [if_pos hc, hrow]
      exact ht
    have hqF : q ∈ finalStatesOf d true := mem_finalStates_of_useful d hq
    have hstepM := cleanup_step_eq d hne hqF hc
    have htgt : cleanupTarget d true q c =
        (if t ∈ finalStatesOf d true then t else "q_dead") := by
      unfold cleanupTarget
      rw [if_neg hqd, hrow]
      show (match alookup row c with
        | some dest =>
          if dest ∈ finalStatesOf d true then dest
          else if true = true then "q_dead" else q
        | none =>
          if true = true then (if dead_state_needed d = true then "q_dead" else q)
          else q) = _
      rw [ht]
      show (if t ∈ finalStatesOf d true then t
        else if true = true then "q_dead" else q) = _
      by_cases htF2 : t ∈ finalStatesOf d true
      · rw [if_pos htF2, if_pos htF2]
      · rw [if_neg htF2, if_neg htF2, if_pos rfl]
    have h1 : d.runFrom q (c :: rest) = d.runFrom t rest := by
      simp only [DFA.runFrom, hstepd]
    by_cases htF : t ∈ finalStatesOf d true
    · have htU : t ∈ usefulOf d := mem_useful_of_finalStates d hwf hdead htF hts
      have h2 : (cleanup d true).runFrom q (c :: rest) = (cleanup d true).runFrom t rest := by
        rw [htgt, if_pos htF] at hstepM
        simp only [DFA.runFrom, hstepM]
      rw [h1, h2]
      exact ih hrest t htU
    · have htU : t ∉ usefulOf d := fun h => htF (mem_finalStates_of_useful d h)
      have hdn : dead_state_needed d = true :=
        deadNeeded_of_escape d hq hrow (alookup_some_mem ht) htU
      have htnp : t ∉ find_productive_states d := by
        intro htp
        apply htU
        unfold usefulOf
        have htR : t ∈ find_reachable_states d :=
          reach_closed d (usefulOf_subset_reach d q hq) hrow ht hts
        by_cases hU0 : find_useful_states d = []
        · rw [if_pos hU0]
          exact htR
        · rw [if_neg hU0]
          exact (mem_useful_iff d t).mpr ⟨htR, htp⟩
      have h2 : (cleanup d true).runFrom q (c :: rest) =
          (cleanup d true).runFrom "q_dead" rest := by
        rw [htgt, if_neg htF] at hstepM
        simp only [DFA.runFrom, hstepM]
      rw [h1, h2, cleanup_dead_run d hne (dead_mem_finalStates d hwf hdead hdn) rest hrest]
      obtain ⟨f, hf1, hf2, hf3⟩ := nonproductive_run d hwf hcomp rest hrest t hts htnp
      exact Or.inr ⟨f, hf1, hf2, hf3, rfl⟩

/-- C5 (amended).  For every complete DFA satisfying the documented
invariants (start ∈ states, transition rows defined for every state and
symbol with targets ∈ states, accept ⊆ states) and with no state named
`q_dead` (the optimizer's trap name), and every string over the alphabet,
`cleanup(A, keep_completeness=True)` preserves the accept/reject outcome.
Dangling transitions into dropped states are redirected to the `q_dead`
trap, which never changes an outcome.  (The unamended claim fails for
incomplete DFAs: a missing transition can be rewritten to a self-loop, see
the counterexample.) -/
theorem cleanup_accepts_amended (d : DFA) (hwf : WellFormed d) (hcomp : Complete d)
    (hdead : "q_dead" ∉ d.states) (s : List String) (hs : ∀ c ∈ s, c ∈ d.alphabet) :
    (cleanup d true).accepts s = d.accepts s := by
  have hne : d.states ≠ [] := by
    intro h
    have h1 := hwf.1
    rw [h] at h1
    exact (List.not_mem_nil _) h1
  have hM : cleanup d true = cleanupCore d true := if_neg hne
  have hstartF : d.start_state ∈ finalStatesOf d true :=
    mem_finalStates_of_useful d (start_mem_usefulOf d)
  have hMstart : (cleanup d true).start_state = d.start_state := by
    rw [hM]
    show (if d.start_state ∈ finalStatesOf d true then d.start_state else _) = d.start_state
    rw [if_pos hstartF]
  have hMacc : ∀ f, f ∈ (cleanup d true).accept_states ↔
      f ∈ d.accept_states ∧ f ∈ finalStatesOf d true := by
    intro f
    rw [hM]
    show f ∈ d.accept_states.filter (fun x => decide (x ∈ finalStatesOf d true)) ↔ _
    rw [List.mem_filter]
    simp
  rw [DFA.accepts, DFA.accepts, acceptsFrom_eq_runFrom, acceptsFrom_eq_runFrom, hMstart]
  rcases cleanup_sim d hwf hcomp hdead hne s hs d.start_state (start_mem_usefulOf d) with
    ⟨f, hdf, hfU, hMf⟩ | ⟨f, hdf, hfs, hfnp, hMdead⟩
  · rw [hdf, hMf]
    show decide (f ∈ (cleanup d true).accept_states) = decide (f ∈ d.accept_states)
    by_cases hacc : f ∈ d.accept_states
    · rw [decide_eq_true hacc, decide_eq_true ((hMacc f).mpr
        ⟨hacc, mem_finalStates_of_useful d hfU⟩)]
    · rw [decide_eq_false hacc, decide_eq_false (fun h => hacc ((hMacc f).mp h).1)]
  · rw [hdf, hMdead]
    show decide ("q_dead" ∈ (cleanup d true).accept_states) = decide (f ∈ d.accept_states)
    have h1 : "q_dead" ∉ (cleanup d true).accept_states := by
      intro h
      exact hdead (hwf.2.2 _ ((hMacc _).mp h).1)
    have h2 : f ∉ d.accept_states := fun h =>
      hfnp ((productive_spec d).1 f h)
    rw [decide_eq_false h1, decide_eq_false h2]

/-- The witness DFA for C5 (amended): complete over {0}, with an unreachable
state x that cleanup removes. -/
def c5wit : DFA :=
  { reasoning := ""
    states := ["a", "x"]
    alphabet := ["0"]
    transitions := [("a", [("0", "a")]), ("x", [("0", "x")])]
    start_state := "a"
    accept_states := ["a"] }

/-- Witness for C5 (amended): the cleaned DFA agrees with the original on
the string "0". -/
theorem cleanup_accepts_amended_witness :
    (cleanup c5wit true).accepts ["0"] = c5wit.accepts ["0"] :=
  cleanup_accepts_amended c5wit ⟨by decide, by decide, by decide⟩
    (by unfold Complete getRow; decide) (by decide) ["0"] (by decide)

/-! ### Decimal numerals: `Nat.repr` is injective (for the `q{i}` state names) -/

theorem toDigitsCore_succ (fuel n : Nat) (ds : List Char) :
    Nat.toDigitsCore 10 (fuel+1) n ds =
      if n / 10 = 0 then Nat.digitChar (n % 10) :: ds
      else Nat.toDigitsCore 10 fuel (n / 10) (Nat.digitChar (n % 10) :: ds) := by
  rfl

theorem toDigitsCore_eq_digits : ∀ (fuel n : Nat) (ds : List Char), 0 < n → n / 10 < fuel →
    Nat.toDigitsCore 10 fuel n ds = ((Nat.digits 10 n).map Nat.digitChar).reverse ++ ds := by
  intro fuel
  induction fuel with
  | zero => intro n ds _ h; omega
  | succ fuel ih =>
    intro n ds hn hfuel
    rw [toDigitsCore_succ]
    by_cases h0 : n / 10 = 0
    · rw [if_pos h0, Nat.digits_def' (by norm_num : (1:Nat) < 10) hn, h0, Nat.digits_zero]
      simp
    · rw [if_neg h0]
      have hn' : 0 < n / 10 := Nat.pos_of_ne_zero h0
      have hf' : n / 10 / 10 < fuel := by
        have h1 : n / 10 / 10 < n / 10 := Nat.div_lt_self hn' (by norm_num)
        omega
      rw [ih (n/10) (Nat.digitChar (n % 10) :: ds) hn' hf']
      rw [Nat.digits_def' (by norm_num : (1:Nat) < 10) hn]
      simp

theorem toDigits_eq (n : Nat) (hn : 0 < n) :
    Nat.toDigits 10 n = ((Nat.digits 10 n).map Nat.digitChar).reverse := by
  show Nat.toDigitsCore 10 (n+1) n [] = _
  rw [toDigitsCore_eq_digits (n+1) n [] hn (by have := Nat.div_le_self n 10; omega)]
  simp

theorem digitChar_inj {a b : Nat} (ha : a < 10) (hb : b < 10)
    (h : Nat.digitChar a = Nat.digitChar b) : a = b := by
  have key : ∀ x y : Fin 10, Nat.digitChar x.val = Nat.digitChar y.val → x = y := by decide
  have h2 := key ⟨a, ha⟩ ⟨b, hb⟩ h
  exact congrArg Fin.val h2

theorem map_digitChar_inj : ∀ (l1 l2 : List Nat), (∀ x ∈ l1, x < 10) → (∀ x ∈ l2, x < 10) →
    l1.map Nat.digitChar = l2.map Nat.digitChar → l1 = l2 := by
  intro l1
  induction l1 with
  | nil =>
    intro l2 _ _ h
    cases l2 with
    | nil => rfl
    | cons b t => simp at h
  | cons a t ih =>
    intro l2 h1 h2 h
    cases l2 with
    | nil => simp at h
    | cons b t2 =>
      simp only [List.map_cons, List.cons.injEq] at h
      have hab := digitChar_inj (h1 a (by simp)) (h2 b (by simp)) h.1
      have ht := ih t2 (fun x hx => h1 x (by simp [hx])) (fun x hx => h2 x (by simp [hx])) h.2
      rw [hab, ht]

theorem asString_inj {l1 l2 : List Char} (h : l1.asString = l2.asString) : l1 = l2 := by
  have h2 : (⟨l1⟩ : String) = ⟨l2⟩ := h
  cases h2
  rfl

theorem toDigits_ne_zero_char {b : Nat} (hb : 0 < b) : Nat.toDigits 10 b ≠ ['0'] := by
  intro hcon
  rw [toDigits_eq b hb] at hcon
  have hmap : (Nat.digits 10 b).map Nat.digitChar = ['0'] := by
    have := congrArg List.reverse hcon
    simpa using this
  cases hdig : Nat.digits 10 b with
  | nil => rw [hdig] at hmap; simp at hmap
  | cons d t =>
    rw [hdig] at hmap
    cases t with
    | cons d2 t2 => simp at hmap
    | nil =>
      simp only [List.map_cons, List.map_nil, List.cons.injEq] at hmap
      have hd10 : d < 10 := Nat.digits_lt_base (by norm_num) (by rw [hdig]; simp)
      have hd0 : d = 0 := digitChar_inj hd10 (by norm_num) hmap.1
      have hofd := Nat.ofDigits_digits 10 b
      rw [hdig, hd0] at hofd
      simp [Nat.ofDigits] at hofd
      omega

theorem natRepr_inj {a b : Nat} (h : Nat.repr a = Nat.repr b) : a = b := by
  have h' : (Nat.toDigits 10 a).asString = (Nat.toDigits 10 b).asString := h
  have hd : Nat.toDigits 10 a = Nat.toDigits 10 b := asString_inj h'
  rcases Nat.eq_zero_or_pos a with ha | ha
  · rcases Nat.eq_zero_or_pos b with hb | hb
    · omega
    · exfalso
      subst ha
      exact toDigits_ne_zero_char hb hd.symm
  · rcases Nat.eq_zero_or_pos b with hb | hb
    · exfalso
      subst hb
      exact toDigits_ne_zero_char ha hd
    · rw [toDigits_eq a ha, toDigits_eq b hb] at hd
      have hmap := List.reverse_inj.mp hd
      have hdig := map_digitChar_inj _ _
        (fun x hx => Nat.digits_lt_base (by norm_num) hx)
        (fun x hx => Nat.digits_lt_base (by norm_num) hx) hmap
      have h1 := Nat.ofDigits_digits 10 a
      have h2 := Nat.ofDigits_digits 10 b
      rw [hdig, h2] at h1
      exact h1.symm

/-- The state name `f"q{i}"` used by the atomic DFA builders. -/
def qname (n : Nat) : String := "q" ++ Nat.repr n

theorem qname_inj {a b : Nat} (h : qname a = qname b) : a = b := by
  apply natRepr_inj
  have hd : ("q" ++ Nat.repr a).data = ("q" ++ Nat.repr b).data := by
    unfold qname at h
    rw [h]
  rw [String.data_append, String.data_append] at hd
  have h2 : (Nat.repr a).data = (Nat.repr b).data := List.append_cancel_left hd
  cases hra : Nat.repr a with
  | mk l1 =>
    cases hrb : Nat.repr b with
    | mk l2 =>
      rw [hra, hrb] at h2
      simp only at h2
      rw [h2]

/-! ### Suffix toolkit -/

theorem suffix_of_suffix_le {a b c : List String} (h1 : a <:+ c) (h2 : b <:+ c)
    (hl : a.length ≤ b.length) : a <:+ b := by
  have p1 : a.reverse <+: c.reverse := List.reverse_prefix.mpr h1
  have p2 : b.reverse <+: c.reverse := List.reverse_prefix.mpr h2
  have p3 := List.prefix_of_prefix_length_le p1 p2 (by simpa using hl)
  exact List.reverse_prefix.mp p3

theorem concat_suffix_concat {a b : List String} {x y : String} :
    a ++ [x] <:+ b ++ [y] ↔ x = y ∧ a <:+ b := by
  constructor
  · intro h
    have p : (a ++ [x]).reverse <+: (b ++ [y]).reverse := List.reverse_prefix.mpr h
    simp only [List.reverse_append, List.reverse_singleton, List.singleton_append,
      List.cons_prefix_cons] at p
    exact ⟨p.1, List.reverse_prefix.mp p.2⟩
  · rintro ⟨rfl, t, ht⟩
    exact ⟨t, by rw [← List.append_assoc, ht]⟩

theorem take_succ_getD {l : List String} {k : Nat} (h : k < l.length) :
    l.take (k+1) = l.take k ++ [l.getD k ""] := by
  rw [List.take_succ, List.getElem?_eq_getElem h]
  simp [List.getD_eq_getElem?_getD, List.getElem?_eq_getElem h]

/-! ### The KMP machinery of `build_substring_dfa` (`agents.py` lines 206-283) -/

/-- The `while k > 0 and pattern[k] != pattern[i]` fallback loop of the
failure-function construction, with explicit fuel. -/
def piFall (P : List String) (pi : List Nat) (c : String) : Nat → Nat → Nat
  | 0, k => k
  | fuel+1, k =>
    if 0 < k ∧ P.getD k "" ≠ c then piFall P pi c fuel (pi.getD (k-1) 0) else k

/-- One iteration of the `for i in range(1, m)` failure-function loop:
state is the pair (pi, k). -/
def buildPiStep (P : List String) (st : List Nat × Nat) (i : Nat) : List Nat × Nat :=
  let k1 := piFall P st.1 (P.getD i "") st.2 st.2
  let k2 := if P.getD k1 "" = P.getD i "" then k1 + 1 else k1
  (st.1.set i k2, k2)

/-- The KMP failure function `pi` of `build_substring_dfa`: `pi = [0]*m`,
then `for i in range(1, m)` (which is the list `[1, ..., m-1]`). -/
def buildPi (P : List String) : List Nat :=
  ((List.range' 1 (P.length - 1)).foldl (buildPiStep P) (List.replicate P.length 0, 0)).1

/-- The `while j > 0 and (j >= m or pattern[j] != c)` fallback loop of
`next_len`, with explicit fuel. -/
def nlFall (P : List String) (pi : List Nat) (c : String) : Nat → Nat → Nat
  | 0, j => j
  | fuel+1, j =>
    if 0 < j ∧ (P.length ≤ j ∨ P.getD j "" ≠ c) then nlFall P pi c fuel (pi.getD (j-1) 0)
    else j

/-- `next_len(j, c)` of `build_substring_dfa`. -/
def next_len (P : List String) (pi : List Nat) (j : Nat) (c : String) : Nat :=
  let j1 := nlFall P pi c j j
  if j1 < P.length ∧ P.getD j1 "" = c then j1 + 1 else j1

/-- The single target `build_substring_dfa` assigns to `transitions[q{j}][sym]`. -/
def bsdTarget (P : List String) (pi : List Nat) (mat : Bool) (m j : Nat) (sym : String) :
    String :=
  if j = m then (if mat then qname (next_len P pi j sym) else qname j)
  else qname (next_len P pi j sym)

/-- One transition row of `build_substring_dfa` (filled symbol by symbol). -/
def bsdRow (alphabet P : List String) (pi : List Nat) (mat : Bool) (m j : Nat) : Row :=
  alphabet.foldl (fun row sym => aset row sym (bsdTarget P pi mat m j sym)) []

/-- `build_substring_dfa` of `core/agents.py` (lines 206-283).  The pattern is
given as its list of single-character symbols (Python scans `pattern[i]`
character by character).  Both flag combinations build `m+1` states
`q0..qm`; only the `j == m` row and the accept set depend on the flags. -/
def build_substring_dfa (alphabet pattern : List String)
    (match_at_end_only sink_on_full : Bool) : DFA :=
  let m := pattern.length
  let pi := buildPi pattern
  let states := (List.range (m+1)).map qname
  { reasoning := ""
    states := states
    alphabet := alphabet
    transitions := (List.range (m+1)).foldl
      (fun t j => aset t (qname j) (bsdRow alphabet pattern pi match_at_end_only m j))
      (states.map (fun s => (s, ([] : Row))))
    start_state := qname 0
    accept_states := if match_at_end_only then [qname m]
      else if sink_on_full then (List.range m).map qname
      else [qname m] }

/-! ### Border chains -/

/-- The longest proper border of `P.take j` (length of the longest proper
prefix of `P.take j` that is also its suffix); the value the failure
function stores at `pi[j-1]`. -/
def maxB (P : List String) (j : Nat) : Nat :=
  Nat.findGreatest (fun k => P.take k <:+ P.take j) (j-1)

/-- The length of the longest prefix of `P` that is a suffix of `s`: the KMP
automaton state after reading `s`. -/
def goodSt (P s : List String) : Nat :=
  Nat.findGreatest (fun k => P.take k <:+ s) P.length

/-- `t` is reachable from `j` by iterating the failure-function fallback
`j := pi[j-1]`. -/
inductive InChain (pi : List Nat) (j : Nat) : Nat → Prop where
  | refl : InChain pi j j
  | step {t : Nat} : InChain pi j t → 0 < t → InChain pi j (pi.getD (t-1) 0)

/-- Every entry of the failure table is at most its index. -/
def PiBnd (pi : List Nat) : Prop := ∀ i, pi.getD i 0 ≤ i

/-- The first `B` entries of `pi` hold the longest proper border lengths. -/
def PiCorrect (P : List String) (pi : List Nat) (B : Nat) : Prop :=
  ∀ u, u < B → pi.getD u 0 = maxB P (u+1)

theorem chain_le {pi : List Nat} (hb : PiBnd pi) {j t : Nat} (h : InChain pi j t) : t ≤ j := by
  induction h with
  | refl => exact Nat.le_refl _
  | @step t' _ ht ih =>
    have := hb (t' - 1)
    omega

theorem chain_trans {pi : List Nat} {j t u : Nat} (h1 : InChain pi j t)
    (h2 : InChain pi t u) : InChain pi j u := by
  induction h2 with
  | refl => exact h1
  | step _ ht ih => exact InChain.step ih ht

theorem chain_dest {pi : List Nat} {j t : Nat} (h : InChain pi j t) (hj : 0 < j) :
    t = j ∨ InChain pi (pi.getD (j-1) 0) t := by
  induction h with
  | refl => exact Or.inl rfl
  | @step t' _ ht ih =>
    rcases ih with rfl | ih2
    · exact Or.inr InChain.refl
    · exact Or.inr (InChain.step ih2 ht)

theorem maxB_le (P : List String) (j : Nat) : maxB P j ≤ j - 1 :=
  Nat.findGreatest_le _

theorem maxB_lt (P : List String) {j : Nat} (hj : 0 < j) : maxB P j < j := by
  have := maxB_le P j
  omega

theorem maxB_border (P : List String) (j : Nat) : P.take (maxB P j) <:+ P.take j := by
  have h0 : P.take 0 <:+ P.take j := by simp
  unfold maxB
  exact Nat.findGreatest_spec (P := fun k => P.take k <:+ P.take j) (Nat.zero_le _) h0

theorem maxB_max (P : List String) {j k : Nat} (hk : k < j) (hs : P.take k <:+ P.take j) :
    k ≤ maxB P j := Nat.le_findGreatest (by omega) hs

theorem goodSt_le (P s : List String) : goodSt P s ≤ P.length :=
  Nat.findGreatest_le _

theorem goodSt_suffix (P s : List String) : P.take (goodSt P s) <:+ s := by
  have h0 : P.take 0 <:+ s := by simp
  unfold goodSt
  exact Nat.findGreatest_spec (P := fun k => P.take k <:+ s) (Nat.zero_le _) h0

theorem goodSt_max (P s : List String) {k : Nat} (hk : k ≤ P.length)
    (hs : P.take k <:+ s) : k ≤ goodSt P s := Nat.le_findGreatest hk hs

theorem goodSt_nil (P : List String) : goodSt P [] = 0 := by
  rcases Nat.eq_zero_or_pos (goodSt P []) with h | h
  · exact h
  · exfalso
    have hs := goodSt_suffix P []
    rw [List.suffix_nil] at hs
    have hlen : (P.take (goodSt P [])).length = goodSt P [] := by
      rw [List.length_take]
      have := goodSt_le P []
      omega
    rw [hs] at hlen
    simp at hlen
    omega

theorem chain_border {P : List String} {pi : List Nat} {B : Nat}
    (hc : PiCorrect P pi B) (hb : PiBnd pi) {j t : Nat} (hjB : j ≤ B)
    (h : InChain pi j t) : P.take t <:+ P.take j := by
  induction h with
  | refl => exact List.suffix_refl _
  | @step t' h2 ht ih =>
    have ht'j : t' ≤ j := chain_le hb h2
    have heq : pi.getD (t'-1) 0 = maxB P t' := by
      have hx := hc (t'-1) (by omega)
      rwa [Nat.sub_add_cancel ht] at hx
    rw [heq]
    exact (maxB_border P t').trans ih

theorem border_chain {P : List String} {pi : List Nat} {B : Nat} (hc : PiCorrect P pi B) :
    ∀ j, j ≤ B → ∀ t, t ≤ j → P.take t <:+ P.take j → InChain pi j t := by
  intro j
  induction j using Nat.strong_induction_on with
  | _ j ih =>
    intro hjB t htj hsuf
    rcases Nat.eq_or_lt_of_le htj with rfl | htlt
    · exact InChain.refl
    · have hj : 0 < j := by omega
      have hmb : t ≤ maxB P j := maxB_max P htlt hsuf
      have hbj : maxB P j < j := maxB_lt P hj
      have hsub : P.take t <:+ P.take (maxB P j) := by
        apply suffix_of_suffix_le hsuf (maxB_border P j)
        rw [List.length_take, List.length_take]
        omega
      have hch : InChain pi (maxB P j) t := ih (maxB P j) hbj (by omega) t hmb hsub
      have hstep : InChain pi j (pi.getD (j-1) 0) := InChain.step InChain.refl hj
      have heq : pi.getD (j-1) 0 = maxB P j := by
        have hx := hc (j-1) (by omega)
        rwa [Nat.sub_add_cancel hj] at hx
      rw [heq] at hstep
      exact chain_trans hstep hch

/-! ### The fallback walks stop at the longest matching border -/

theorem piFall_succ (P : List String) (pi : List Nat) (c : String) (fuel k : Nat) :
    piFall P pi c (fuel+1) k =
      if 0 < k ∧ P.getD k "" ≠ c then piFall P pi c fuel (pi.getD (k-1) 0) else k := rfl

theorem nlFall_succ (P : List String) (pi : List Nat) (c : String) (fuel j : Nat) :
    nlFall P pi c (fuel+1) j =
      if 0 < j ∧ (P.length ≤ j ∨ P.getD j "" ≠ c) then nlFall P pi c fuel (pi.getD (j-1) 0)
      else j := rfl

/-- Exit condition of the failure-function `while` loop. -/
def piStop (P : List String) (c : String) (t : Nat) : Prop := t = 0 ∨ P.getD t "" = c

/-- Exit condition of the `next_len` `while` loop. -/
def nlStop (P : List String) (c : String) (t : Nat) : Prop :=
  t = 0 ∨ (t < P.length ∧ P.getD t "" = c)

theorem piFall_spec (P : List String) (pi : List Nat) (c : String) (hb : PiBnd pi) :
    ∀ (fuel j : Nat), j ≤ fuel →
      InChain pi j (piFall P pi c fuel j) ∧ piStop P c (piFall P pi c fuel j) ∧
      ∀ t, InChain pi j t → piStop P c t → t ≤ piFall P pi c fuel j := by
  intro fuel
  induction fuel with
  | zero =>
    intro j hj
    have hj0 : j = 0 := Nat.le_zero.mp hj
    subst hj0
    exact ⟨InChain.refl, Or.inl rfl, fun t hch _ => chain_le hb hch⟩
  | succ fuel ih =>
    intro j hj
    by_cases hcond : 0 < j ∧ P.getD j "" ≠ c
    · rw [piFall_succ, if_pos hcond]
      have hj' : pi.getD (j-1) 0 ≤ fuel := by
        have := hb (j-1)
        omega
      obtain ⟨hch, hstop, hmax⟩ := ih (pi.getD (j-1) 0) hj'
      refine ⟨chain_trans (InChain.step InChain.refl hcond.1) hch, hstop, ?_⟩
      intro t hcht hstopt
      rcases chain_dest hcht hcond.1 with rfl | hch2
      · rcases hstopt with h0 | hpe
        · omega
        · exact absurd hpe hcond.2
      · exact hmax t hch2 hstopt
    · rw [piFall_succ, if_neg hcond]
      push_neg at hcond
      refine ⟨InChain.refl, ?_, fun t hcht _ => chain_le hb hcht⟩
      by_cases h0 : j = 0
      · exact Or.inl h0
      · exact Or.inr (hcond (Nat.pos_of_ne_zero h0))

theorem nlFall_spec (P : List String) (pi : List Nat) (c : String) (hb : PiBnd pi) :
    ∀ (fuel j : Nat), j ≤ fuel →
      InChain pi j (nlFall P pi c fuel j) ∧ nlStop P c (nlFall P pi c fuel j) ∧
      ∀ t, InChain pi j t → nlStop P c t → t ≤ nlFall P pi c fuel j := by
  intro fuel
  induction fuel with
  | zero =>
    intro j hj
    have hj0 : j = 0 := Nat.le_zero.mp hj
    subst hj0
    exact ⟨InChain.refl, Or.inl rfl, fun t hch _ => chain_le hb hch⟩
  | succ fuel ih =>
    intro j hj
    by_cases hcond : 0 < j ∧ (P.length ≤ j ∨ P.getD j "" ≠ c)
    · rw [nlFall_succ, if_pos hcond]
      have hj' : pi.getD (j-1) 0 ≤ fuel := by
        have := hb (j-1)
        omega
      obtain ⟨hch, hstop, hmax⟩ := ih (pi.getD (j-1) 0) hj'
      refine ⟨chain_trans (InChain.step InChain.refl hcond.1) hch, hstop, ?_⟩
      intro t hcht hstopt
      rcases chain_dest hcht hcond.1 with rfl | hch2
      · rcases hstopt with h0 | hpe
        · omega
        · rcases hcond.2 with hlen | hne
          · omega
          · exact absurd hpe.2 hne
      · exact hmax t hch2 hstopt
    · rw [nlFall_succ, if_neg hcond]
      push_neg at hcond
      refine ⟨InChain.refl, ?_, fun t hcht _ => chain_le hb hcht⟩
      by_cases h0 : j = 0
      · exact Or.inl h0
      · exact Or.inr (hcond (Nat.pos_of_ne_zero h0))

theorem next_len_def (P : List String) (pi : List Nat) (j : Nat) (c : String) :
    next_len P pi j c =
      if nlFall P pi c j j < P.length ∧ P.getD (nlFall P pi c j j) "" = c
      then nlFall P pi c j j + 1 else nlFall P pi c j j := rfl

/-- The crux of `next_len` correctness: starting from the automaton state of
`s` (the longest prefix of `P` that is a suffix of `s`), `next_len` computes
the automaton state of `s ++ [c]`. -/
theorem next_len_eq_goodSt_append (P : List String) (pi : List Nat) (s : List String)
    (c : String) (hb : PiBnd pi) (hc : PiCorrect P pi P.length) :
    next_len P pi (goodSt P s) c = goodSt P (s ++ [c]) := by
  have hjm : goodSt P s ≤ P.length := goodSt_le P s
  obtain ⟨hch, hstop, hmax⟩ := nlFall_spec P pi c hb (goodSt P s) (goodSt P s) (Nat.le_refl _)
  rw [next_len_def]
  set j := goodSt P s with hjdef
  set r := nlFall P pi c j j with hrdef
  have hrj : r ≤ j := chain_le hb hch
  have cand_iff : ∀ k, k < P.length →
      (P.take (k+1) <:+ s ++ [c] ↔ (P.take k <:+ s ∧ P.getD k "" = c)) := by
    intro k hk
    rw [take_succ_getD hk, concat_suffix_concat]
    tauto
  have mem_chain : ∀ k, P.take k <:+ s → k ≤ j → InChain pi j k := by
    intro k hks hkj
    apply border_chain hc j hjm k hkj
    apply suffix_of_suffix_le hks (goodSt_suffix P s)
    rw [List.length_take, List.length_take]
    omega
  have chain_suffix : ∀ k, InChain pi j k → P.take k <:+ s :=
    fun k hk => (chain_border hc hb hjm hk).trans (goodSt_suffix P s)
  by_cases hval : r < P.length ∧ P.getD r "" = c
  · rw [if_pos hval]
    symm
    unfold goodSt
    rw [Nat.findGreatest_eq_iff]
    refine ⟨by omega, ?_, ?_⟩
    · intro _
      rw [cand_iff r hval.1]
      exact ⟨chain_suffix r hch, hval.2⟩
    · intro n hn hnm hcand
      obtain ⟨k, rfl⟩ : ∃ k, n = k + 1 := ⟨n - 1, by omega⟩
      rw [cand_iff k (by omega)] at hcand
      have hkj : k ≤ j := goodSt_max P s (by omega) hcand.1
      have hchk : InChain pi j k := mem_chain k hcand.1 hkj
      have hkr : k ≤ r := hmax k hchk (Or.inr ⟨by omega, hcand.2⟩)
      omega
  · rw [if_neg hval]
    have hr0 : r = 0 := by
      rcases hstop with h0 | hv
      · exact h0
      · exact absurd hv hval
    rw [hr0]
    symm
    unfold goodSt
    rw [Nat.findGreatest_eq_iff]
    refine ⟨Nat.zero_le _, fun hne => absurd rfl hne, ?_⟩
    intro n hn hnm hcand
    obtain ⟨k, rfl⟩ : ∃ k, n = k + 1 := ⟨n - 1, by omega⟩
    rw [cand_iff k (by omega)] at hcand
    have hkj : k ≤ j := goodSt_max P s (by omega) hcand.1
    have hchk : InChain pi j k := mem_chain k hcand.1 hkj
    have hkr : k ≤ r := hmax k hchk (Or.inr ⟨by omega, hcand.2⟩)
    apply hval
    have hk0 : k = 0 := by omega
    rw [hr0, ← hk0]
    exact ⟨by omega, hcand.2⟩

/-- The crux of the failure-function construction: one iteration of the
`for i in range(1, m)` loop computes the longest proper border of
`P.take (i+1)` from that of `P.take i`. -/
theorem piStep_maxB (P : List String) (pi : List Nat) (i : Nat)
    (h1 : 1 ≤ i) (him : i < P.length) (hb : PiBnd pi) (hc : PiCorrect P pi i) :
    (if P.getD (piFall P pi (P.getD i "") (maxB P i) (maxB P i)) "" = P.getD i ""
     then piFall P pi (P.getD i "") (maxB P i) (maxB P i) + 1
     else piFall P pi (P.getD i "") (maxB P i) (maxB P i)) = maxB P (i+1) := by
  obtain ⟨hch, hstop, hmax⟩ :=
    piFall_spec P pi (P.getD i "") hb (maxB P i) (maxB P i) (Nat.le_refl _)
  set r := piFall P pi (P.getD i "") (maxB P i) (maxB P i) with hrdef
  have hrb : r ≤ maxB P i := chain_le hb hch
  have hbi : maxB P i < i := maxB_lt P h1
  have cand_iff : ∀ k, k < i →
      (P.take (k+1) <:+ P.take (i+1) ↔ (P.take k <:+ P.take i ∧ P.getD k "" = P.getD i "")) := by
    intro k hk
    rw [take_succ_getD (by omega : k < P.length), take_succ_getD him, concat_suffix_concat]
    tauto
  have mem_chain : ∀ k, k < i → P.take k <:+ P.take i → InChain pi (maxB P i) k := by
    intro k hk hsuf
    have hkb : k ≤ maxB P i := maxB_max P hk hsuf
    apply border_chain hc (maxB P i) (by omega) k hkb
    apply suffix_of_suffix_le hsuf (maxB_border P i)
    rw [List.length_take, List.length_take]
    omega
  have chain_suffix : ∀ k, InChain pi (maxB P i) k → P.take k <:+ P.take i :=
    fun k hk => (chain_border hc hb (by omega) hk).trans (maxB_border P i)
  by_cases hval : P.getD r "" = P.getD i ""
  · rw [if_pos hval]
    symm
    unfold maxB
    rw [Nat.findGreatest_eq_iff]
    refine ⟨by omega, ?_, ?_⟩
    · intro _
      rw [cand_iff r (by omega)]
      exact ⟨chain_suffix r hch, hval⟩
    · intro n hn hni hcand
      obtain ⟨k, rfl⟩ : ∃ k, n = k + 1 := ⟨n - 1, by omega⟩
      rw [cand_iff k (by omega)] at hcand
      have hchk : InChain pi (maxB P i) k := mem_chain k (by omega) hcand.1
      have hkr : k ≤ r := hmax k hchk (Or.inr hcand.2)
      omega
  · rw [if_neg hval]
    have hr0 : r = 0 := by
      rcases hstop with h0 | hv
      · exact h0
      · exact absurd hv hval
    rw [hr0]
    symm
    unfold maxB
    rw [Nat.findGreatest_eq_iff]
    refine ⟨Nat.zero_le _, fun hne => absurd rfl hne, ?_⟩
    intro n hn hni hcand
    obtain ⟨k, rfl⟩ : ∃ k, n = k + 1 := ⟨n - 1, by omega⟩
    rw [cand_iff k (by omega)] at hcand
    have hchk : InChain pi (maxB P i) k := mem_chain k (by omega) hcand.1
    have hkr : k ≤ r := hmax k hchk (Or.inr hcand.2)
    apply hval
    have hk0 : k = 0 := by omega
    rw [hr0, ← hk0]
    exact hcand.2

/-! ### Correctness of the failure-function construction -/

theorem getD_replicate_zero (m i : Nat) : (List.replicate m (0:Nat)).getD i 0 = 0 := by
  rcases Nat.lt_or_ge i m with h | h
  · simp [List.getD_eq_getElem?_getD, List.getElem?_replicate, h]
  · exact List.getD_eq_default _ _ (by simpa using h)

theorem buildPi_inv (P : List String) :
    ∀ n, n ≤ P.length - 1 →
      ((List.range' 1 n).foldl (buildPiStep P) (List.replicate P.length 0, 0)).1.length
          = P.length ∧
      ((List.range' 1 n).foldl (buildPiStep P) (List.replicate P.length 0, 0)).2
          = maxB P (n+1) ∧
      (∀ u, u ≤ n →
        ((List.range' 1 n).foldl (buildPiStep P) (List.replicate P.length 0, 0)).1.getD u 0
          = maxB P (u+1)) ∧
      (∀ u, n < u →
        ((List.range' 1 n).foldl (buildPiStep P) (List.replicate P.length 0, 0)).1.getD u 0
          = 0) := by
  intro n
  induction n with
  | zero =>
    intro _
    refine ⟨by simp, ?_, ?_, ?_⟩
    · unfold maxB
      exact (Nat.findGreatest_zero).symm
    · intro u hu
      have hu0 : u = 0 := Nat.le_zero.mp hu
      subst hu0
      simp only [List.range'_zero, List.foldl_nil]
      rw [getD_replicate_zero]
      unfold maxB
      exact (Nat.findGreatest_zero).symm
    · intro u _
      simp only [List.range'_zero, List.foldl_nil]
      exact getD_replicate_zero _ _
  | succ n ih =>
    intro hn1
    obtain ⟨hlen, hk, hcorr, hzero⟩ := ih (by omega)
    rw [List.range'_concat, List.foldl_append]
    simp only [List.foldl_cons, List.foldl_nil]
    rw [show 1 + 1 * n = n + 1 from by omega]
    set st := (List.range' 1 n).foldl (buildPiStep P) (List.replicate P.length 0, 0) with hst
    have hbn : PiBnd st.1 := by
      intro u
      by_cases hu : u ≤ n
      · rw [hcorr u hu]
        have := maxB_le P (u+1)
        omega
      · rw [hzero u (by omega)]
        exact Nat.zero_le u
    have hcB : PiCorrect P st.1 (n+1) := fun u hu => hcorr u (by omega)
    have hstep := piStep_maxB P st.1 (n+1) (by omega) (by omega) hbn hcB
    have hk2 : (buildPiStep P st (n+1)).2 = maxB P (n+1+1) := by
      show (if P.getD (piFall P st.1 (P.getD (n+1) "") st.2 st.2) "" = P.getD (n+1) ""
            then piFall P st.1 (P.getD (n+1) "") st.2 st.2 + 1
            else piFall P st.1 (P.getD (n+1) "") st.2 st.2) = _
      rw [hk]
      exact hstep
    have hfst : (buildPiStep P st (n+1)).1 = st.1.set (n+1) (buildPiStep P st (n+1)).2 := rfl
    refine ⟨?_, hk2, ?_, ?_⟩
    · rw [hfst, List.length_set]
      exact hlen
    · intro u hu
      rw [hfst]
      by_cases hun : u = n+1
      · subst hun
        rw [List.getD_eq_getElem?_getD, List.getElem?_set_self (by rw [hlen]; omega)]
        simpa using hk2
      · rw [List.getD_eq_getElem?_getD, List.getElem?_set_ne (show n+1 ≠ u from fun hh => hun hh.symm),
          ← List.getD_eq_getElem?_getD]
        exact hcorr u (by omega)
    · intro u hu
      rw [hfst, List.getD_eq_getElem?_getD,
        List.getElem?_set_ne (show n+1 ≠ u from by omega), ← List.getD_eq_getElem?_getD]
      exact hzero u (by omega)

theorem buildPi_correct (P : List String) : PiCorrect P (buildPi P) P.length := by
  intro u hu
  unfold buildPi
  exact (buildPi_inv P (P.length - 1) (Nat.le_refl _)).2.2.1 u (by omega)

theorem buildPi_bnd (P : List String) : PiBnd (buildPi P) := by
  intro u
  unfold buildPi
  by_cases hu : u ≤ P.length - 1
  · rw [(buildPi_inv P (P.length - 1) (Nat.le_refl _)).2.2.1 u hu]
    have := maxB_le P (u+1)
    omega
  · rw [(buildPi_inv P (P.length - 1) (Nat.le_refl _)).2.2.2 u (by omega)]
    exact Nat.zero_le u

/-! ### Transition-table lookups of `build_substring_dfa` -/

theorem alookup_fold_skip {β : Type} (key : Nat → String) (g : Nat → β) :
    ∀ (l : List Nat) (t0 : List (String × β)) (x : String), (∀ i ∈ l, key i ≠ x) →
      alookup (l.foldl (fun t i => aset t (key i) (g i)) t0) x = alookup t0 x := by
  intro l
  induction l with
  | nil => intro t0 x _; rfl
  | cons a rest ih =>
    intro t0 x hne
    simp only [List.foldl_cons]
    rw [ih _ x (fun i hi => hne i (by simp [hi]))]
    exact alookup_aset_ne t0 (g a) (fun hh => hne a (by simp) hh.symm)

theorem alookup_fold_mem {β : Type} (key : Nat → String)
    (hinj : ∀ a b, key a = key b → a = b) (g : Nat → β) :
    ∀ (l : List Nat) (t0 : List (String × β)) (j : Nat), j ∈ l → l.Nodup →
      alookup (l.foldl (fun t i => aset t (key i) (g i)) t0) (key j) = some (g j) := by
  intro l
  induction l with
  | nil => intro t0 j h _; cases h
  | cons a rest ih =>
    intro t0 j hj hnd
    simp only [List.foldl_cons]
    rcases List.mem_cons.mp hj with rfl | hjr
    · have hnr : j ∉ rest := (List.nodup_cons.mp hnd).1
      rw [alookup_fold_skip key g rest _ (key j)
        (fun i hi hh => hnr (hinj i j hh ▸ hi))]
      exact alookup_aset_self t0 (key j) (g j)
    · exact ih _ j hjr (List.nodup_cons.mp hnd).2

theorem bsd_step_eq (alphabet P : List String) (j : Nat) (hj : j ≤ P.length) (c : String)
    (hc : c ∈ alphabet) :
    (build_substring_dfa alphabet P true false).step (qname j) c =
      some (qname (next_len P (buildPi P) j c)) := by
  have halph : (build_substring_dfa alphabet P true false).alphabet = alphabet := rfl
  have htr : alookup (build_substring_dfa alphabet P true false).transitions (qname j)
      = some (bsdRow alphabet P (buildPi P) true P.length j) := by
    show alookup ((List.range (P.length+1)).foldl
      (fun t i => aset t (qname i) (bsdRow alphabet P (buildPi P) true P.length i))
      ((((List.range (P.length+1)).map qname)).map (fun s => (s, ([] : Row))))) (qname j) = _
    exact alookup_fold_mem qname (fun a b hh => qname_inj hh) _ (List.range (P.length+1)) _ j
      (List.mem_range.mpr (by omega)) (List.nodup_range _)
  have hrow : alookup (bsdRow alphabet P (buildPi P) true P.length j) c
      = some (bsdTarget P (buildPi P) true P.length j c) := by
    show alookup (alphabet.foldl
      (fun row sym => aset row sym (bsdTarget P (buildPi P) true P.length j sym)) []) c = _
    rw [alookup_build_fold]
    simp [hc]
  have htgt : bsdTarget P (buildPi P) true P.length j c = qname (next_len P (buildPi P) j c) := by
    unfold bsdTarget
    by_cases hjm : j = P.length
    · rw [if_pos hjm, if_pos rfl]
    · rw [if_neg hjm]
  rw [step_eq_getRow _ _ _ (by rw [halph]; exact hc)]
  unfold getRow
  rw [htr]
  show alookup (bsdRow alphabet P (buildPi P) true P.length j) c = _
  rw [hrow, htgt]

theorem runFrom_append (d : DFA) (q : String) (s t : List String) :
    d.runFrom q (s ++ t) =
      match d.runFrom q s with
      | none => none
      | some f => d.runFrom f t := by
  induction s generalizing q with
  | nil => rfl
  | cons c rest ih =>
    simp only [List.cons_append, DFA.runFrom]
    cases hs : d.step q c with
    | none => rfl
    | some nxt => exact ih nxt

theorem bsd_run (alphabet P s : List String) (hs : ∀ c ∈ s, c ∈ alphabet) :
    (build_substring_dfa alphabet P true false).runFrom (qname 0) s
      = some (qname (goodSt P s)) := by
  induction s using List.reverseRecOn with
  | nil =>
    rw [goodSt_nil]
    rfl
  | append_singleton s c ih =>
    have hs' : ∀ x ∈ s, x ∈ alphabet := fun x hx => hs x (by simp [hx])
    have hc : c ∈ alphabet := hs c (by simp)
    rw [runFrom_append, ih hs']
    show (build_substring_dfa alphabet P true false).runFrom (qname (goodSt P s)) [c] = _
    simp only [DFA.runFrom]
    rw [bsd_step_eq alphabet P (goodSt P s) (goodSt_le P s) c hc]
    rw [next_len_eq_goodSt_append P (buildPi P) s c (buildPi_bnd P) (buildPi_correct P)]

/-- C3.  The DFA built for ENDS_WITH p (`build_substring_dfa` with
`match_at_end_only=True`) accepts a string s over the alphabet exactly when
s ends with p: the automaton keeps following the KMP transition function
over the whole input (including past a full match) and accepts exactly when
the final state is the full-match state `q{len(p)}`. -/
theorem ends_with_dfa_correct (alphabet pattern s : List String)
    (hs : ∀ c ∈ s, c ∈ alphabet) :
    (build_substring_dfa alphabet pattern true false).accepts s = true ↔ pattern <:+ s := by
  have hrun := bsd_run alphabet pattern s hs
  have hstart : (build_substring_dfa alphabet pattern true false).start_state = qname 0 := rfl
  rw [DFA.accepts, hstart, acceptsFrom_eq_runFrom, hrun]
  show decide (qname (goodSt pattern s)
    ∈ (build_substring_dfa alphabet pattern true false).accept_states) = true ↔ _
  have hacc : (build_substring_dfa alphabet pattern true false).accept_states
      = [qname pattern.length] := rfl
  rw [hacc, decide_eq_true_iff, List.mem_singleton]
  constructor
  · intro h
    have hg : goodSt pattern s = pattern.length := qname_inj h
    have hsuf := goodSt_suffix pattern s
    rw [hg, List.take_length] at hsuf
    exact hsuf
  · intro h
    have hge : pattern.length ≤ goodSt pattern s :=
      goodSt_max pattern s (Nat.le_refl _) (by rw [List.take_length]; exact h)
    have hle := goodSt_le pattern s
    have heq : goodSt pattern s = pattern.length := Nat.le_antisymm hle hge
    rw [heq]

/-- Witness for C3: over the alphabet {0,1} with pattern "01", the theorem
yields acceptance of "101" (which ends with "01") and rejection of "10"
(which does not). -/
theorem ends_with_dfa_correct_witness :
    (build_substring_dfa ["0","1"] ["0","1"] true false).accepts ["1","0","1"] = true ∧
    (build_substring_dfa ["0","1"] ["0","1"] true false).accepts ["1","0"] = false := by
  constructor
  · exact (ends_with_dfa_correct ["0","1"] ["0","1"] ["1","0","1"] (by decide)).mpr (by decide)
  · have h := ends_with_dfa_correct ["0","1"] ["0","1"] ["1","0"] (by decide)
    by_cases hb : (build_substring_dfa ["0","1"] ["0","1"] true false).accepts ["1","0"] = true
    · exact absurd (h.mp hb) (by decide)
    · simpa using hb

/-! ### `ProductConstructionEngine.minimize` (`product.py` lines 5-117) -/

/-- All transition-table targets (with multiplicity): the pool of states the
minimization BFS can ever enqueue. -/
def allTargets (d : DFA) : List String :=
  (d.transitions.map (fun p => p.2.map (fun e => e.2))).join

/-- One `if nxt and nxt not in reachable` check of the minimization BFS: the
reachable set and the queue grow together (Python marks states visited at
enqueue time). -/
def minStep (d : DFA) (cur : String) (vq : List String × List String) (char : String) :
    List String × List String :=
  let nxt := (alookup (getRow d.transitions cur) char).getD ""
  if nxt ≠ "" ∧ nxt ∉ vq.1 then (vq.1 ++ [nxt], vq.2 ++ [nxt]) else vq

/-- The `while queue` BFS of `minimize` Step 1, with explicit fuel. -/
def minBfs (d : DFA) : Nat → List String → List String → List String
  | 0, visited, _ => visited
  | _+1, visited, [] => visited
  | fuel+1, visited, cur :: queue =>
    let st := d.alphabet.foldl (minStep d cur) (visited, queue)
    minBfs d fuel st.1 st.2

/-- `reachable` of `minimize` Step 1 (`reachable = {start}; queue = [start]`).
Every enqueued state is a fresh transition target, so `sumLens` bounds the
number of loop iterations. -/
def minReachable (d : DFA) : List String :=
  minBfs d (sumLens d.transitions + 1) [d.start_state] [d.start_state]

/-- Number of distinct transition targets not yet visited: the BFS potential
function. -/
def unvisitedTargets (d : DFA) (v : List String) : Nat :=
  (((allTargets d).dedup).filter (fun t => decide (t ∉ v))).length

theorem length_allTargets (d : DFA) : (allTargets d).length = sumLens d.transitions := by
  unfold allTargets sumLens
  rw [List.length_join]
  congr 1
  rw [List.map_map]
  congr 1
  funext p
  simp

theorem target_mem_allTargets (d : DFA) {cur char t : String}
    (h : alookup (getRow d.transitions cur) char = some t) : t ∈ allTargets d := by
  unfold getRow at h
  cases htr : alookup d.transitions cur with
  | none =>
    rw [htr] at h
    simp [alookup] at h
  | some row =>
    rw [htr] at h
    simp only [Option.getD_some] at h
    have h1 : (cur, row) ∈ d.transitions := alookup_some_mem htr
    have h2 : (char, t) ∈ row := alookup_some_mem h
    unfold allTargets
    rw [List.mem_join]
    refine ⟨row.map (fun e => e.2), ?_, ?_⟩
    · exact List.mem_map.mpr ⟨(cur, row), h1, rfl⟩
    · exact List.mem_map.mpr ⟨(char, t), h2, rfl⟩

theorem U_insert (d : DFA) {t : String} (v : List String) (ht : t ∈ allTargets d)
    (hv : t ∉ v) : unvisitedTargets d (v ++ [t]) + 1 = unvisitedTargets d v := by
  unfold unvisitedTargets
  have hnd : (allTargets d).dedup.Nodup := List.nodup_dedup _
  have htd : t ∈ (allTargets d).dedup := List.mem_dedup.mpr ht
  revert hnd htd
  generalize (allTargets d).dedup = T
  intro hnd htd
  induction T with
  | nil => cases htd
  | cons a T' ih =>
    rw [List.filter_cons, List.filter_cons]
    rcases List.mem_cons.mp htd with rfl | htT'
    · have hat : t ∉ T' := (List.nodup_cons.mp hnd).1
      have hfeq : T'.filter (fun x => decide (x ∉ v ++ [t])) =
          T'.filter (fun x => decide (x ∉ v)) := by
        apply List.filter_congr
        intro x hx
        have hxa : x ≠ t := fun hh => hat (hh ▸ hx)
        simp [List.mem_append, hxa]
      have h1 : (decide (t ∉ v ++ [t])) = false := by simp
      have h2 : (decide (t ∉ v)) = true := by simpa using hv
      rw [h1, h2, if_neg (by simp), if_pos rfl, hfeq]
      simp
    · have hat : a ≠ t := fun hh => (List.nodup_cons.mp hnd).1 (hh ▸ htT')
      have ihe := ih (List.nodup_cons.mp hnd).2 htT'
      have hcond : (decide (a ∉ v ++ [t])) = (decide (a ∉ v)) := by
        simp [List.mem_append, hat]
      rw [hcond]
      cases hd : decide (a ∉ v) with
      | false =>
        rw [if_neg (by simp [hd]), if_neg (by simp [hd])]
        exact ihe
      | true =>
        rw [if_pos rfl, if_pos rfl]
        simp only [List.length_cons]
        omega

theorem minStep_eq (d : DFA) (cur : String) (v q : List String) (char : String) :
    minStep d cur (v, q) char =
      if (alookup (getRow d.transitions cur) char).getD "" ≠ "" ∧
          (alookup (getRow d.transitions cur) char).getD "" ∉ v
      then (v ++ [(alookup (getRow d.transitions cur) char).getD ""],
            q ++ [(alookup (getRow d.transitions cur) char).getD ""])
      else (v, q) := rfl

theorem minFold_mono (d : DFA) (cur : String) :
    ∀ (chars : List String) (v q : List String) (x : String), x ∈ v →
      x ∈ (chars.foldl (minStep d cur) (v, q)).1 := by
  intro chars
  induction chars with
  | nil => intro v q x hx; exact hx
  | cons c rest ih =>
    intro v q x hx
    simp only [List.foldl_cons]
    rw [minStep_eq]
    by_cases hcond : (alookup (getRow d.transitions cur) c).getD "" ≠ "" ∧
        (alookup (getRow d.transitions cur) c).getD "" ∉ v
    · rw [if_pos hcond]
      exact ih _ _ x (by simp [hx])
    · rw [if_neg hcond]
      exact ih _ _ x hx

theorem minFold_delta (d : DFA) (cur : String) :
    ∀ (chars : List String) (v q : List String), v.Nodup →
      ∃ δ, chars.foldl (minStep d cur) (v, q) = (v ++ δ, q ++ δ) ∧ (v ++ δ).Nodup ∧
        (∀ t ∈ δ, t ≠ "" ∧ ∃ char ∈ chars, alookup (getRow d.transitions cur) char = some t) := by
  intro chars
  induction chars with
  | nil =>
    intro v q hv
    exact ⟨[], by simp, by simpa using hv, by simp⟩
  | cons c rest ih =>
    intro v q hv
    simp only [List.foldl_cons]
    rw [minStep_eq]
    by_cases hcond : (alookup (getRow d.transitions cur) c).getD "" ≠ "" ∧
        (alookup (getRow d.transitions cur) c).getD "" ∉ v
    · rw [if_pos hcond]
      have hvnd : (v ++ [(alookup (getRow d.transitions cur) c).getD ""]).Nodup := by
        rw [List.nodup_append]
        exact ⟨hv, List.nodup_singleton _, by simpa using hcond.2⟩
      obtain ⟨δ, heq, hnd, htg⟩ := ih (v ++ [(alookup (getRow d.transitions cur) c).getD ""])
        (q ++ [(alookup (getRow d.transitions cur) c).getD ""]) hvnd
      refine ⟨(alookup (getRow d.transitions cur) c).getD "" :: δ, ?_, ?_, ?_⟩
      · rw [heq]
        simp
      · simpa using hnd
      · intro t ht
        rcases List.mem_cons.mp ht with rfl | htδ
        · refine ⟨hcond.1, c, by simp, ?_⟩
          cases hl : alookup (getRow d.transitions cur) c with
          | none => rw [hl] at hcond; simp at hcond
          | some u => simp
        · obtain ⟨hne, char, hchar, hlook⟩ := htg t htδ
          exact ⟨hne, char, by simp [hchar], hlook⟩
    · rw [if_neg hcond]
      obtain ⟨δ, heq, hnd, htg⟩ := ih v q hv
      refine ⟨δ, heq, hnd, ?_⟩
      intro t ht
      obtain ⟨hne, char, hchar, hlook⟩ := htg t ht
      exact ⟨hne, char, by simp [hchar], hlook⟩

theorem minFold_cover (d : DFA) (cur : String) :
    ∀ (chars : List String) (v q : List String), v.Nodup →
      ∀ char ∈ chars, ∀ t, alookup (getRow d.transitions cur) char = some t → t ≠ "" →
        t ∈ (chars.foldl (minStep d cur) (v, q)).1 := by
  intro chars
  induction chars with
  | nil => intro v q _ char hchar; cases hchar
  | cons c rest ih =>
    intro v q hv char hchar t hlook hne
    simp only [List.foldl_cons]
    rcases List.mem_cons.mp hchar with rfl | hrest
    · rw [minStep_eq]
      have hgd : (alookup (getRow d.transitions cur) char).getD "" = t := by
        simp [hlook]
      by_cases hcond : (alookup (getRow d.transitions cur) char).getD "" ≠ "" ∧
          (alookup (getRow d.transitions cur) char).getD "" ∉ v
      · rw [if_pos hcond]
        apply minFold_mono
        rw [hgd]
        simp
      · rw [if_neg hcond]
        apply minFold_mono
        rw [hgd] at hcond
        push_neg at hcond
        exact hcond hne
    · rw [minStep_eq]
      by_cases hcond : (alookup (getRow d.transitions cur) c).getD "" ≠ "" ∧
          (alookup (getRow d.transitions cur) c).getD "" ∉ v
      · rw [if_pos hcond]
        have hvnd : (v ++ [(alookup (getRow d.transitions cur) c).getD ""]).Nodup := by
          rw [List.nodup_append]
          exact ⟨hv, List.nodup_singleton _, by simpa using hcond.2⟩
        exact ih _ _ hvnd char hrest t hlook hne
      · rw [if_neg hcond]
        exact ih _ _ hv char hrest t hlook hne

theorem minFold_phi (d : DFA) (cur : String) :
    ∀ (chars : List String) (v q : List String),
      (chars.foldl (minStep d cur) (v, q)).2.length +
          unvisitedTargets d (chars.foldl (minStep d cur) (v, q)).1 =
        q.length + unvisitedTargets d v := by
  intro chars
  induction chars with
  | nil => intro v q; rfl
  | cons c rest ih =>
    intro v q
    simp only [List.foldl_cons]
    rw [minStep_eq]
    by_cases hcond : (alookup (getRow d.transitions cur) c).getD "" ≠ "" ∧
        (alookup (getRow d.transitions cur) c).getD "" ∉ v
    · rw [if_pos hcond]
      rw [ih]
      have hmem : (alookup (getRow d.transitions cur) c).getD "" ∈ allTargets d := by
        cases hl : alookup (getRow d.transitions cur) c with
        | none => rw [hl] at hcond; simp at hcond
        | some u =>
          simp only [Option.getD_some]
          exact target_mem_allTargets d hl
      have := U_insert d v hmem hcond.2
      simp only [List.length_append, List.length_singleton]
      omega
    · rw [if_neg hcond]
      exact ih v q

theorem minBfs_spec (d : DFA) : ∀ (fuel : Nat) (visited queue : List String),
    queue.length + unvisitedTargets d visited ≤ fuel →
    visited.Nodup →
    (∀ x ∈ queue, x ∈ visited) →
    (∀ p ∈ visited, p ∉ queue → ∀ char ∈ d.alphabet, ∀ t,
        alookup (getRow d.transitions p) char = some t → t ≠ "" → t ∈ visited) →
    (∀ x ∈ visited, x ∈ minBfs d fuel visited queue) ∧
    (minBfs d fuel visited queue).Nodup ∧
    (∀ p ∈ minBfs d fuel visited queue, ∀ char ∈ d.alphabet, ∀ t,
        alookup (getRow d.transitions p) char = some t → t ≠ "" →
          t ∈ minBfs d fuel visited queue) := by
  intro fuel
  induction fuel with
  | zero =>
    intro visited queue hfuel hnd hsub hproc
    have hq : queue = [] := List.length_eq_zero.mp (by omega)
    subst hq
    exact ⟨fun x hx => hx, hnd, fun p hp char hchar t ht hne => hproc p hp (by simp) char hchar t ht hne⟩
  | succ fuel ih =>
    intro visited queue hfuel hnd hsub hproc
    cases queue with
    | nil =>
      exact ⟨fun x hx => hx, hnd, fun p hp char hchar t ht hne => hproc p hp (by simp) char hchar t ht hne⟩
    | cons cur rest =>
      have hred : minBfs d (fuel+1) visited (cur :: rest) =
          minBfs d fuel (d.alphabet.foldl (minStep d cur) (visited, rest)).1
            (d.alphabet.foldl (minStep d cur) (visited, rest)).2 := rfl
      rw [hred]
      obtain ⟨δ, heq, hnd', htg⟩ := minFold_delta d cur d.alphabet visited rest hnd
      have hphi := minFold_phi d cur d.alphabet visited rest
      have hcur : cur ∈ visited := hsub cur (by simp)
      have h1 : (d.alphabet.foldl (minStep d cur) (visited, rest)).1 = visited ++ δ := by
        rw [heq]
      have h2 : (d.alphabet.foldl (minStep d cur) (visited, rest)).2 = rest ++ δ := by
        rw [heq]
      have hfuel' : (d.alphabet.foldl (minStep d cur) (visited, rest)).2.length +
          unvisitedTargets d (d.alphabet.foldl (minStep d cur) (visited, rest)).1 ≤ fuel := by
        simp only [List.length_cons] at hfuel
        omega
      have hnd2 : (d.alphabet.foldl (minStep d cur) (visited, rest)).1.Nodup := by
        rw [h1]
        exact hnd'
      have hsub' : ∀ x ∈ (d.alphabet.foldl (minStep d cur) (visited, rest)).2,
          x ∈ (d.alphabet.foldl (minStep d cur) (visited, rest)).1 := by
        intro x hx
        rw [h2] at hx
        rw [h1]
        rcases List.mem_append.mp hx with hx | hx
        · exact List.mem_append.mpr (Or.inl (hsub x (by simp [hx])))
        · exact List.mem_append.mpr (Or.inr hx)
      have hproc' : ∀ p ∈ (d.alphabet.foldl (minStep d cur) (visited, rest)).1,
          p ∉ (d.alphabet.foldl (minStep d cur) (visited, rest)).2 → ∀ char ∈ d.alphabet,
          ∀ t, alookup (getRow d.transitions p) char = some t → t ≠ "" →
            t ∈ (d.alphabet.foldl (minStep d cur) (visited, rest)).1 := by
        intro p hp hpq char hchar t ht hne
        rw [h1] at hp
        rw [h2] at hpq
        rcases List.mem_append.mp hp with hpv | hpδ
        · by_cases hpc : p = cur
          · subst hpc
            exact minFold_cover d p d.alphabet visited rest hnd char hchar t ht hne
          · have hpq0 : p ∉ cur :: rest := by
              intro hh
              rcases List.mem_cons.mp hh with hh | hh
              · exact hpc hh
              · exact hpq (List.mem_append.mpr (Or.inl hh))
            have := hproc p hpv hpq0 char hchar t ht hne
            rw [h1]
            exact List.mem_append.mpr (Or.inl this)
        · exact absurd (List.mem_append.mpr (Or.inr hpδ)) hpq
      obtain ⟨hmono, hndr, hclose⟩ := ih _ _ hfuel' hnd2 hsub' hproc'
      refine ⟨?_, hndr, hclose⟩
      intro x hx
      apply hmono
      rw [h1]
      exact List.mem_append.mpr (Or.inl hx)

theorem minBfs_pred (d : DFA) (Q : String → Prop)
    (hQt : ∀ cur char t, alookup (getRow d.transitions cur) char = some t → t ≠ "" → Q t) :
    ∀ (fuel : Nat) (visited queue : List String), visited.Nodup → (∀ x ∈ visited, Q x) →
      ∀ x ∈ minBfs d fuel visited queue, Q x := by
  intro fuel
  induction fuel with
  | zero => intro visited queue _ hv x hx; exact hv x hx
  | succ fuel ih =>
    intro visited queue hnd hv
    cases queue with
    | nil => intro x hx; exact hv x hx
    | cons cur rest =>
      have hred : minBfs d (fuel+1) visited (cur :: rest) =
          minBfs d fuel (d.alphabet.foldl (minStep d cur) (visited, rest)).1
            (d.alphabet.foldl (minStep d cur) (visited, rest)).2 := rfl
      rw [hred]
      obtain ⟨δ, heq, hnd', htg⟩ := minFold_delta d cur d.alphabet visited rest hnd
      have h1 : (d.alphabet.foldl (minStep d cur) (visited, rest)).1 = visited ++ δ := by
        rw [heq]
      apply ih
      · rw [h1]; exact hnd'
      · intro x hx
        rw [h1] at hx
        rcases List.mem_append.mp hx with hx | hx
        · exact hv x hx
        · obtain ⟨hne, char, _, hlook⟩ := htg x hx
          exact hQt cur char x hlook hne

theorem minReachable_start (d : DFA) : d.start_state ∈ minReachable d := by
  unfold minReachable
  have hU : unvisitedTargets d [d.start_state] ≤ sumLens d.transitions := by
    unfold unvisitedTargets
    calc ((allTargets d).dedup.filter (fun t => decide (t ∉ [d.start_state]))).length
        ≤ (allTargets d).dedup.length := List.length_filter_le _ _
      _ ≤ (allTargets d).length := (List.dedup_sublist _).length_le
      _ = sumLens d.transitions := length_allTargets d
  have h := minBfs_spec d (sumLens d.transitions + 1) [d.start_state] [d.start_state]
    (by simp; omega) (List.nodup_singleton _) (fun x hx => hx)
    (fun p hp hnp => absurd hp hnp)
  exact h.1 d.start_state (by simp)

theorem minReachable_nodup (d : DFA) : (minReachable d).Nodup := by
  unfold minReachable
  have hU : unvisitedTargets d [d.start_state] ≤ sumLens d.transitions := by
    unfold unvisitedTargets
    calc ((allTargets d).dedup.filter (fun t => decide (t ∉ [d.start_state]))).length
        ≤ (allTargets d).dedup.length := List.length_filter_le _ _
      _ ≤ (allTargets d).length := (List.dedup_sublist _).length_le
      _ = sumLens d.transitions := length_allTargets d
  have h := minBfs_spec d (sumLens d.transitions + 1) [d.start_state] [d.start_state]
    (by simp; omega) (List.nodup_singleton _) (fun x hx => hx)
    (fun p hp hnp => absurd hp hnp)
  exact h.2.1

theorem minReachable_closed (d : DFA) {q char t : String} (hq : q ∈ minReachable d)
    (hchar : char ∈ d.alphabet) (ht : alookup (getRow d.transitions q) char = some t)
    (hne : t ≠ "") : t ∈ minReachable d := by
  unfold minReachable at *
  have hU : unvisitedTargets d [d.start_state] ≤ sumLens d.transitions := by
    unfold unvisitedTargets
    calc ((allTargets d).dedup.filter (fun t => decide (t ∉ [d.start_state]))).length
        ≤ (allTargets d).dedup.length := List.length_filter_le _ _
      _ ≤ (allTargets d).length := (List.dedup_sublist _).length_le
      _ = sumLens d.transitions := length_allTargets d
  have h := minBfs_spec d (sumLens d.transitions + 1) [d.start_state] [d.start_state]
    (by simp; omega) (List.nodup_singleton _) (fun x hx => hx)
    (fun p hp hnp => absurd hp hnp)
  exact h.2.2 q hq char hchar t ht hne

theorem minReachable_sub_states (d : DFA) (hwf : WellFormed d) :
    ∀ x ∈ minReachable d, x ∈ d.states := by
  unfold minReachable
  apply minBfs_pred d (fun x => x ∈ d.states)
  · intro cur char t hlook _
    exact target_mem_states d hwf hlook
  · exact List.nodup_singleton _
  · intro x hx
    rw [List.mem_singleton.mp hx]
    exact hwf.1

/-! ### `minimize` Steps 2-3: partitions and refinement -/

/-- `accept_set = set(dfa.accept_states) & reachable`, in BFS order (only
membership and the sorted listing are consumed). -/
def minAcceptSet (d : DFA) : List String :=
  (minReachable d).filter (fun x => decide (x ∈ d.accept_states))

/-- `relevant_states = sorted(list(reachable))`. -/
def minRelevant (d : DFA) : List String := pySorted (minReachable d)

/-- `reject_set = set(relevant_states) - accept_set`, in BFS order. -/
def minRejectSet (d : DFA) : List String :=
  (minReachable d).filter (fun x => decide (x ∉ minAcceptSet d))

/-- The initial partition list: the sorted accept set then the sorted reject
set, skipping empty blocks. -/
def minParts0 (d : DFA) : List (List String) :=
  (if pySorted (minAcceptSet d) ≠ [] then [pySorted (minAcceptSet d)] else []) ++
  (if pySorted (minRejectSet d) ≠ [] then [pySorted (minRejectSet d)] else [])

/-- `get_partition_idx`: index of the first block containing the state, with
the block itself (`none` models the -1 case). -/
def partOfAux : List (List String) → String → Nat → Option (Nat × List String)
  | [], _, _ => none
  | p :: rest, x, i => if x ∈ p then some (i, p) else partOfAux rest x (i+1)

def partOf (ps : List (List String)) (x : String) : Option (Nat × List String) :=
  partOfAux ps x 0

def partIdx (ps : List (List String)) (x : String) : Int :=
  match partOf ps x with
  | some ip => (ip.1 : Int)
  | none => -1

/-- The behaviour key of a state: for each symbol, the partition index of the
(truthy) successor, `-1` when the transition is missing or falsy. -/
def minBehavior (d : DFA) (ps : List (List String)) (s : String) : List Int :=
  d.alphabet.map (fun char =>
    if (alookup (getRow d.transitions s) char).getD "" ≠ ""
    then partIdx ps ((alookup (getRow d.transitions s) char).getD "") else -1)

/-- `split[behavior_key].append(s)` on an insertion-ordered dict. -/
def addToGroup (key : List Int) (s : String) :
    List (List Int × List String) → List (List Int × List String)
  | [] => [(key, [s])]
  | (k, g) :: rest =>
    if k = key then (k, g ++ [s]) :: rest else (k, g) :: addToGroup key s rest

/-- The `split` dict of one block, keyed by behaviour. -/
def splitGroups (d : DFA) (ps : List (List String)) (p : List String) :
    List (List Int × List String) :=
  p.foldl (fun acc s => addToGroup (minBehavior d ps s) s acc) []

/-- The sorted groups a block splits into. -/
def splitPart (d : DFA) (ps : List (List String)) (p : List String) : List (List String) :=
  (splitGroups d ps p).map (fun kg => pySorted kg.2)

/-- One pass of the `while changed` refinement loop over the block list,
returning the new blocks and the `changed` flag. -/
def refinePassGo (d : DFA) (ps0 : List (List String)) :
    List (List String) → List (List String) × Bool
  | [] => ([], false)
  | p :: rest =>
    let r := refinePassGo d ps0 rest
    if p.length ≤ 1 then (p :: r.1, r.2)
    else if 1 < (splitPart d ps0 p).length then (splitPart d ps0 p ++ r.1, true)
    else (p :: r.1, r.2)

def refinePass (d : DFA) (ps : List (List String)) : List (List String) × Bool :=
  refinePassGo d ps ps

/-- The `while changed` loop, with fuel (each changing pass strictly grows the
number of blocks, which the number of relevant states bounds). -/
def refineLoop (d : DFA) : Nat → List (List String) → List (List String)
  | 0, ps => ps
  | fuel+1, ps =>
    if (refinePass d ps).2 then refineLoop d fuel (refinePass d ps).1 else (refinePass d ps).1

/-- The final partition list of `minimize` Step 3. -/
def minParts (d : DFA) : List (List String) :=
  refineLoop d ((minRelevant d).length + 1) (minParts0 d)

/-- Total number of states in a block list. -/
def partsSize (ps : List (List String)) : Nat := (ps.map List.length).sum

theorem addToGroup_mem_iff (key : List Int) (s : String) :
    ∀ (gs : List (List Int × List String)) (x : String),
      (∃ kg ∈ addToGroup key s gs, x ∈ kg.2) ↔ (∃ kg ∈ gs, x ∈ kg.2) ∨ x = s := by
  intro gs
  induction gs with
  | nil =>
    intro x
    simp [addToGroup]
  | cons kg0 rest ih =>
    intro x
    obtain ⟨k, g⟩ := kg0
    unfold addToGroup
    by_cases hk : k = key
    · rw [if_pos hk]
      constructor
      · rintro ⟨kg, hkg, hx⟩
        rcases List.mem_cons.mp hkg with heq | hkg
        · rw [heq] at hx
          simp only [List.mem_append, List.mem_singleton] at hx
          rcases hx with hx | hx
          · exact Or.inl ⟨(k, g), by simp, hx⟩
          · exact Or.inr hx
        · exact Or.inl ⟨kg, by simp [hkg], hx⟩
      · rintro (⟨kg, hkg, hx⟩ | heq)
        · rcases List.mem_cons.mp hkg with heq | hkg
          · refine ⟨(k, g ++ [s]), by simp, ?_⟩
            rw [heq] at hx
            simp [hx]
          · exact ⟨kg, by simp [hkg], hx⟩
        · exact ⟨(k, g ++ [s]), by simp, by simp [heq]⟩
    · rw [if_neg hk]
      constructor
      · rintro ⟨kg, hkg, hx⟩
        rcases List.mem_cons.mp hkg with heq | hkg
        · exact Or.inl ⟨(k, g), by simp, heq ▸ hx⟩
        · rcases (ih x).mp ⟨kg, hkg, hx⟩ with ⟨kg2, h2, hx2⟩ | hx2
          · exact Or.inl ⟨kg2, by simp [h2], hx2⟩
          · exact Or.inr hx2
      · rintro (⟨kg, hkg, hx⟩ | heq)
        · rcases List.mem_cons.mp hkg with heq | hkg
          · exact ⟨(k, g), by simp, heq ▸ hx⟩
          · obtain ⟨kg2, h2, hx2⟩ := (ih x).mpr (Or.inl ⟨kg, hkg, hx⟩)
            exact ⟨kg2, by simp [h2], hx2⟩
        · obtain ⟨kg2, h2, hx2⟩ := (ih x).mpr (Or.inr heq)
          exact ⟨kg2, by simp [h2], hx2⟩

theorem splitGroups_mem_iff (d : DFA) (ps : List (List String)) :
    ∀ (l : List String) (acc : List (List Int × List String)) (x : String),
      (∃ kg ∈ l.foldl (fun acc s => addToGroup (minBehavior d ps s) s acc) acc, x ∈ kg.2) ↔
        (∃ kg ∈ acc, x ∈ kg.2) ∨ x ∈ l := by
  intro l
  induction l with
  | nil => intro acc x; simp
  | cons s rest ih =>
    intro acc x
    simp only [List.foldl_cons]
    rw [ih]
    rw [addToGroup_mem_iff]
    constructor
    · rintro ((h | rfl) | h)
      · exact Or.inl h
      · exact Or.inr (by simp)
      · exact Or.inr (by simp [h])
    · rintro (h | h)
      · exact Or.inl (Or.inl h)
      · rcases List.mem_cons.mp h with rfl | h
        · exact Or.inl (Or.inr rfl)
        · exact Or.inr h

theorem splitPart_mem_iff (d : DFA) (ps : List (List String)) (p : List String) (x : String) :
    (∃ g ∈ splitPart d ps p, x ∈ g) ↔ x ∈ p := by
  unfold splitPart
  constructor
  · rintro ⟨g, hg, hx⟩
    obtain ⟨kg, hkg, rfl⟩ := List.mem_map.mp hg
    have := (splitGroups_mem_iff d ps p [] x).mp ⟨kg, hkg, mem_pySorted.mp hx⟩
    simpa using this
  · intro hx
    obtain ⟨kg, hkg, hxk⟩ := (splitGroups_mem_iff d ps p [] x).mpr (Or.inr hx)
    exact ⟨pySorted kg.2, List.mem_map.mpr ⟨kg, hkg, rfl⟩, mem_pySorted.mpr hxk⟩

theorem addToGroup_nonempty (key : List Int) (s : String) :
    ∀ (gs : List (List Int × List String)), (∀ kg ∈ gs, kg.2 ≠ []) →
      ∀ kg ∈ addToGroup key s gs, kg.2 ≠ [] := by
  intro gs
  induction gs with
  | nil =>
    intro _ kg hkg
    unfold addToGroup at hkg
    rcases List.mem_singleton.mp hkg with rfl
    simp
  | cons kg0 rest ih =>
    intro hne kg hkg
    obtain ⟨k, g⟩ := kg0
    unfold addToGroup at hkg
    by_cases hk : k = key
    · rw [if_pos hk] at hkg
      rcases List.mem_cons.mp hkg with heq | hkg
      · rw [heq]; simp
      · exact hne kg (by simp [hkg])
    · rw [if_neg hk] at hkg
      rcases List.mem_cons.mp hkg with heq | hkg
      · rw [heq]; exact hne (k, g) (by simp)
      · exact ih (fun kg2 h2 => hne kg2 (by simp [h2])) kg hkg

theorem addToGroup_keyed (B : String → List Int) (s : String) :
    ∀ (gs : List (List Int × List String)), (∀ kg ∈ gs, ∀ x ∈ kg.2, B x = kg.1) →
      ∀ kg ∈ addToGroup (B s) s gs, ∀ x ∈ kg.2, B x = kg.1 := by
  intro gs
  induction gs with
  | nil =>
    intro _ kg hkg x hx
    unfold addToGroup at hkg
    rcases List.mem_singleton.mp hkg with rfl
    simp only [List.mem_singleton] at hx
    rw [hx]
  | cons kg0 rest ih =>
    intro hinv kg hkg x hx
    obtain ⟨k, g⟩ := kg0
    unfold addToGroup at hkg
    by_cases hk : k = B s
    · rw [if_pos hk] at hkg
      rcases List.mem_cons.mp hkg with heq | hkg
      · rw [heq] at hx ⊢
        simp only [List.mem_append, List.mem_singleton] at hx
        rcases hx with hx | hx
        · exact hinv (k, g) (by simp) x hx
        · rw [hx, hk]
      · exact hinv kg (by simp [hkg]) x hx
    · rw [if_neg hk] at hkg
      rcases List.mem_cons.mp hkg with heq | hkg
      · rw [heq] at hx ⊢
        exact hinv (k, g) (by simp) x hx
      · exact ih (fun kg2 h2 => hinv kg2 (by simp [h2])) kg hkg x hx

theorem addToGroup_keys_nodup (key : List Int) (s : String) :
    ∀ (gs : List (List Int × List String)), (gs.map Prod.fst).Nodup →
      ((addToGroup key s gs).map Prod.fst).Nodup := by
  intro gs
  induction gs with
  | nil =>
    intro _
    simp [addToGroup]
  | cons kg0 rest ih =>
    intro hnd
    obtain ⟨k, g⟩ := kg0
    unfold addToGroup
    by_cases hk : k = key
    · rw [if_pos hk]
      simpa using hnd
    · rw [if_neg hk]
      simp only [List.map_cons, List.nodup_cons] at hnd ⊢
      constructor
      · intro hmem
        have : ∀ (gs2 : List (List Int × List String)), k ∉ gs2.map Prod.fst →
            k ∈ (addToGroup key s gs2).map Prod.fst → False := by
          intro gs2
          induction gs2 with
          | nil =>
            intro _ hmem2
            unfold addToGroup at hmem2
            simp only [List.map_cons, List.map_nil, List.mem_singleton] at hmem2
            exact hk hmem2
          | cons kg2 rest2 ih2 =>
            intro hnm hmem2
            obtain ⟨k2, g2⟩ := kg2
            unfold addToGroup at hmem2
            by_cases hk2 : k2 = key
            · rw [if_pos hk2] at hmem2
              simp only [List.map_cons, List.mem_cons] at hmem2 hnm
              rcases hmem2 with h | h
              · exact hnm (Or.inl h)
              · exact hnm (Or.inr h)
            · rw [if_neg hk2] at hmem2
              simp only [List.map_cons, List.mem_cons] at hmem2 hnm
              push_neg at hnm
              rcases hmem2 with h | h
              · exact hnm.1 h
              · exact ih2 hnm.2 h
        exact this rest hnd.1 hmem
      · exact ih hnd.2

theorem splitGroups_inv (d : DFA) (ps : List (List String)) (p : List String) :
    (∀ kg ∈ splitGroups d ps p, kg.2 ≠ []) ∧
    (∀ kg ∈ splitGroups d ps p, ∀ x ∈ kg.2, minBehavior d ps x = kg.1) ∧
    ((splitGroups d ps p).map Prod.fst).Nodup := by
  unfold splitGroups
  suffices h : ∀ (l : List String) (acc : List (List Int × List String)),
      (∀ kg ∈ acc, kg.2 ≠ []) → (∀ kg ∈ acc, ∀ x ∈ kg.2, minBehavior d ps x = kg.1) →
      ((acc.map Prod.fst).Nodup) →
      (∀ kg ∈ l.foldl (fun acc s => addToGroup (minBehavior d ps s) s acc) acc, kg.2 ≠ []) ∧
      (∀ kg ∈ l.foldl (fun acc s => addToGroup (minBehavior d ps s) s acc) acc,
        ∀ x ∈ kg.2, minBehavior d ps x = kg.1) ∧
      (((l.foldl (fun acc s => addToGroup (minBehavior d ps s) s acc) acc).map Prod.fst).Nodup) by
    exact h p [] (by simp) (by simp) (by simp)
  intro l
  induction l with
  | nil => intro acc h1 h2 h3; exact ⟨h1, h2, h3⟩
  | cons s rest ih =>
    intro acc h1 h2 h3
    simp only [List.foldl_cons]
    exact ih _ (addToGroup_nonempty _ s acc h1)
      (addToGroup_keyed (minBehavior d ps) s acc h2)
      (addToGroup_keys_nodup _ s acc h3)

theorem splitPart_nonempty (d : DFA) (ps : List (List String)) (p : List String) :
    ∀ g ∈ splitPart d ps p, g ≠ [] := by
  intro g hg
  obtain ⟨kg, hkg, rfl⟩ := List.mem_map.mp hg
  have hne := (splitGroups_inv d ps p).1 kg hkg
  intro hcon
  apply hne
  have := congrArg List.length hcon
  rw [length_pySorted] at this
  exact List.length_eq_zero.mp this

theorem splitPart_subset (d : DFA) (ps : List (List String)) (p : List String) :
    ∀ g ∈ splitPart d ps p, ∀ x ∈ g, x ∈ p := by
  intro g hg x hx
  exact (splitPart_mem_iff d ps p x).mp ⟨g, hg, hx⟩

theorem splitPart_disjoint (d : DFA) (ps : List (List String)) (p : List String) :
    List.Pairwise (fun a b => ∀ x, x ∈ a → x ∉ b) (splitPart d ps p) := by
  unfold splitPart
  rw [List.pairwise_map]
  have hinv := (splitGroups_inv d ps p).2.1
  have hkeys := (splitGroups_inv d ps p).2.2
  have hkp : List.Pairwise (fun (a b : List Int × List String) => a.1 ≠ b.1)
      (splitGroups d ps p) := List.pairwise_map.mp hkeys
  refine hkp.imp_of_mem ?_
  intro a b ha hb hne x hxa hxb
  have h1 := hinv a ha x (mem_pySorted.mp hxa)
  have h2 := hinv b hb x (mem_pySorted.mp hxb)
  exact hne (h1 ▸ h2)

theorem splitPart_single_behavior (d : DFA) (ps : List (List String)) (p : List String)
    (hlen : (splitPart d ps p).length ≤ 1) :
    ∀ x ∈ p, ∀ y ∈ p, minBehavior d ps x = minBehavior d ps y := by
  intro x hx y hy
  obtain ⟨gx, hgx, hxg⟩ := (splitPart_mem_iff d ps p x).mpr hx
  obtain ⟨gy, hgy, hyg⟩ := (splitPart_mem_iff d ps p y).mpr hy
  unfold splitPart at hgx hgy
  obtain ⟨kgx, hkgx, rfl⟩ := List.mem_map.mp hgx
  obtain ⟨kgy, hkgy, rfl⟩ := List.mem_map.mp hgy
  have hinv := (splitGroups_inv d ps p).2.1
  have h1 := hinv kgx hkgx x (mem_pySorted.mp hxg)
  have h2 := hinv kgy hkgy y (mem_pySorted.mp hyg)
  have hsame : kgx = kgy := by
    cases hgs : splitGroups d ps p with
    | nil => rw [hgs] at hkgx; cases hkgx
    | cons kg0 rest =>
      cases rest with
      | nil =>
        rw [hgs] at hkgx hkgy
        rw [List.mem_singleton.mp hkgx, List.mem_singleton.mp hkgy]
      | cons kg1 rest2 =>
        exfalso
        unfold splitPart at hlen
        rw [hgs] at hlen
        simp at hlen
  rw [h1, h2, hsame]

theorem length_filter_split {α : Type} (p : α → Prop) [DecidablePred p] :
    ∀ l : List α, (l.filter (fun x => decide (p x))).length +
      (l.filter (fun x => decide (¬ p x))).length = l.length := by
  intro l
  induction l with
  | nil => rfl
  | cons a t ih =>
    rw [List.filter_cons, List.filter_cons]
    by_cases h : p a
    · rw [if_pos (by simpa using h), if_neg (by simpa using h)]
      simp only [List.length_cons]
      omega
    · rw [if_neg (by simpa using h), if_pos (by simpa using h)]
      simp only [List.length_cons]
      omega

theorem addToGroup_size (key : List Int) (s : String) :
    ∀ gs : List (List Int × List String),
      ((addToGroup key s gs).map (fun kg => kg.2.length)).sum =
        (gs.map (fun kg => kg.2.length)).sum + 1 := by
  intro gs
  induction gs with
  | nil => simp [addToGroup]
  | cons kg0 rest ih =>
    obtain ⟨k, g⟩ := kg0
    unfold addToGroup
    by_cases hk : k = key
    · rw [if_pos hk]
      simp only [List.map_cons, List.sum_cons, List.length_append, List.length_singleton]
      omega
    · rw [if_neg hk]
      simp only [List.map_cons, List.sum_cons, ih]
      omega

theorem splitPart_size (d : DFA) (ps : List (List String)) (p : List String) :
    partsSize (splitPart d ps p) = p.length := by
  unfold splitPart partsSize
  rw [List.map_map]
  have hlen : (List.map (List.length ∘ fun kg => pySorted kg.2) (splitGroups d ps p)) =
      (List.map (fun kg => kg.2.length) (splitGroups d ps p)) := by
    apply List.map_congr_left
    intro kg _
    simp [length_pySorted]
  rw [hlen]
  unfold splitGroups
  suffices h : ∀ (l : List String) (acc : List (List Int × List String)),
      ((l.foldl (fun acc s => addToGroup (minBehavior d ps s) s acc) acc).map
        (fun kg => kg.2.length)).sum = (acc.map (fun kg => kg.2.length)).sum + l.length by
    have := h p []
    simpa using this
  intro l
  induction l with
  | nil => intro acc; simp
  | cons s rest ih =>
    intro acc
    simp only [List.foldl_cons, List.length_cons]
    rw [ih, addToGroup_size]
    omega

theorem refinePassGo_cons (d : DFA) (ps0 : List (List String)) (p : List String)
    (rest : List (List String)) :
    refinePassGo d ps0 (p :: rest) =
      if p.length ≤ 1 then (p :: (refinePassGo d ps0 rest).1, (refinePassGo d ps0 rest).2)
      else if 1 < (splitPart d ps0 p).length
        then (splitPart d ps0 p ++ (refinePassGo d ps0 rest).1, true)
      else (p :: (refinePassGo d ps0 rest).1, (refinePassGo d ps0 rest).2) := rfl

theorem refinePassGo_unchanged (d : DFA) (ps0 : List (List String)) :
    ∀ l, (refinePassGo d ps0 l).2 = false → (refinePassGo d ps0 l).1 = l := by
  intro l
  induction l with
  | nil => intro _; rfl
  | cons p rest ih =>
    intro hch
    rw [refinePassGo_cons] at hch ⊢
    by_cases h1 : p.length ≤ 1
    · rw [if_pos h1] at hch ⊢
      simp only at hch ⊢
      rw [ih hch]
    · rw [if_neg h1] at hch ⊢
      by_cases h2 : 1 < (splitPart d ps0 p).length
      · rw [if_pos h2] at hch
        simp at hch
      · rw [if_neg h2] at hch ⊢
        simp only at hch ⊢
        rw [ih hch]

theorem refinePassGo_nosplit (d : DFA) (ps0 : List (List String)) :
    ∀ l, (refinePassGo d ps0 l).2 = false →
      ∀ p ∈ l, 1 < p.length → (splitPart d ps0 p).length ≤ 1 := by
  intro l
  induction l with
  | nil => intro _ p hp; cases hp
  | cons q rest ih =>
    intro hch p hp hlen
    rw [refinePassGo_cons] at hch
    by_cases h1 : q.length ≤ 1
    · rw [if_pos h1] at hch
      rcases List.mem_cons.mp hp with rfl | hp
      · omega
      · exact ih hch p hp hlen
    · rw [if_neg h1] at hch
      by_cases h2 : 1 < (splitPart d ps0 q).length
      · rw [if_pos h2] at hch
        simp at hch
      · rw [if_neg h2] at hch
        rcases List.mem_cons.mp hp with rfl | hp
        · omega
        · exact ih hch p hp hlen

theorem refinePassGo_grows (d : DFA) (ps0 : List (List String)) :
    ∀ l, l.length ≤ (refinePassGo d ps0 l).1.length ∧
      ((refinePassGo d ps0 l).2 = true → l.length < (refinePassGo d ps0 l).1.length) := by
  intro l
  induction l with
  | nil => exact ⟨Nat.le_refl _, by intro h; cases h⟩
  | cons p rest ih =>
    rw [refinePassGo_cons]
    by_cases h1 : p.length ≤ 1
    · rw [if_pos h1]
      simp only [List.length_cons]
      exact ⟨by have := ih.1; omega, by intro h; have := ih.2 h; omega⟩
    · rw [if_neg h1]
      by_cases h2 : 1 < (splitPart d ps0 p).length
      · rw [if_pos h2]
        simp only [List.length_append, List.length_cons]
        have := ih.1
        exact ⟨by omega, fun _ => by omega⟩
      · rw [if_neg h2]
        simp only [List.length_cons]
        exact ⟨by have := ih.1; omega, by intro h; have := ih.2 h; omega⟩

theorem refinePassGo_size (d : DFA) (ps0 : List (List String)) :
    ∀ l, partsSize (refinePassGo d ps0 l).1 = partsSize l := by
  intro l
  induction l with
  | nil => rfl
  | cons p rest ih =>
    rw [refinePassGo_cons]
    by_cases h1 : p.length ≤ 1
    · rw [if_pos h1]
      unfold partsSize at ih ⊢
      simp only [List.map_cons, List.sum_cons]
      omega
    · rw [if_neg h1]
      by_cases h2 : 1 < (splitPart d ps0 p).length
      · rw [if_pos h2]
        unfold partsSize at ih ⊢
        simp only [List.map_append, List.sum_append, List.map_cons, List.sum_cons]
        have := splitPart_size d ps0 p
        unfold partsSize at this
        omega
      · rw [if_neg h2]
        unfold partsSize at ih ⊢
        simp only [List.map_cons, List.sum_cons]
        omega

theorem refinePassGo_mem_orig (d : DFA) (ps0 : List (List String)) :
    ∀ l, ∀ q ∈ (refinePassGo d ps0 l).1, ∀ x ∈ q, ∃ p ∈ l, x ∈ p := by
  intro l
  induction l with
  | nil => intro q hq; cases hq
  | cons p rest ih =>
    intro q hq x hx
    rw [refinePassGo_cons] at hq
    by_cases h1 : p.length ≤ 1
    · rw [if_pos h1] at hq
      rcases List.mem_cons.mp hq with rfl | hq
      · exact ⟨q, by simp, hx⟩
      · obtain ⟨p2, hp2, hx2⟩ := ih q hq x hx
        exact ⟨p2, by simp [hp2], hx2⟩
    · rw [if_neg h1] at hq
      by_cases h2 : 1 < (splitPart d ps0 p).length
      · rw [if_pos h2] at hq
        simp only at hq
        rcases List.mem_append.mp hq with hq | hq
        · exact ⟨p, by simp, splitPart_subset d ps0 p q hq x hx⟩
        · obtain ⟨p2, hp2, hx2⟩ := ih q hq x hx
          exact ⟨p2, by simp [hp2], hx2⟩
      · rw [if_neg h2] at hq
        rcases List.mem_cons.mp hq with rfl | hq
        · exact ⟨q, by simp, hx⟩
        · obtain ⟨p2, hp2, hx2⟩ := ih q hq x hx
          exact ⟨p2, by simp [hp2], hx2⟩

theorem refinePassGo_cover (d : DFA) (ps0 : List (List String)) :
    ∀ l, ∀ p ∈ l, ∀ x ∈ p, ∃ q ∈ (refinePassGo d ps0 l).1, x ∈ q := by
  intro l
  induction l with
  | nil => intro p hp; cases hp
  | cons p0 rest ih =>
    intro p hp x hx
    rw [refinePassGo_cons]
    by_cases h1 : p0.length ≤ 1
    · rw [if_pos h1]
      rcases List.mem_cons.mp hp with rfl | hp
      · exact ⟨p, by simp, hx⟩
      · obtain ⟨q, hq, hxq⟩ := ih p hp x hx
        exact ⟨q, by simp [hq], hxq⟩
    · rw [if_neg h1]
      by_cases h2 : 1 < (splitPart d ps0 p0).length
      · rw [if_pos h2]
        simp only
        rcases List.mem_cons.mp hp with rfl | hp
        · obtain ⟨g, hg, hxg⟩ := (splitPart_mem_iff d ps0 p x).mpr hx
          exact ⟨g, List.mem_append.mpr (Or.inl hg), hxg⟩
        · obtain ⟨q, hq, hxq⟩ := ih p hp x hx
          exact ⟨q, List.mem_append.mpr (Or.inr hq), hxq⟩
      · rw [if_neg h2]
        rcases List.mem_cons.mp hp with rfl | hp
        · exact ⟨p, by simp, hx⟩
        · obtain ⟨q, hq, hxq⟩ := ih p hp x hx
          exact ⟨q, by simp [hq], hxq⟩

theorem refinePassGo_nonempty (d : DFA) (ps0 : List (List String)) :
    ∀ l, (∀ p ∈ l, p ≠ []) → ∀ q ∈ (refinePassGo d ps0 l).1, q ≠ [] := by
  intro l
  induction l with
  | nil => intro _ q hq; cases hq
  | cons p rest ih =>
    intro hne q hq
    rw [refinePassGo_cons] at hq
    by_cases h1 : p.length ≤ 1
    · rw [if_pos h1] at hq
      rcases List.mem_cons.mp hq with rfl | hq
      · exact hne q (by simp)
      · exact ih (fun p2 h2 => hne p2 (by simp [h2])) q hq
    · rw [if_neg h1] at hq
      by_cases h2 : 1 < (splitPart d ps0 p).length
      · rw [if_pos h2] at hq
        simp only at hq
        rcases List.mem_append.mp hq with hq | hq
        · exact splitPart_nonempty d ps0 p q hq
        · exact ih (fun p2 h2 => hne p2 (by simp [h2])) q hq
      · rw [if_neg h2] at hq
        rcases List.mem_cons.mp hq with rfl | hq
        · exact hne q (by simp)
        · exact ih (fun p2 h2 => hne p2 (by simp [h2])) q hq

theorem refinePassGo_disjoint (d : DFA) (ps0 : List (List String)) :
    ∀ l, List.Pairwise (fun a b => ∀ x, x ∈ a → x ∉ b) l →
      List.Pairwise (fun a b => ∀ x, x ∈ a → x ∉ b) (refinePassGo d ps0 l).1 := by
  intro l
  induction l with
  | nil => intro _; exact List.Pairwise.nil
  | cons p rest ih =>
    intro hpw
    have hd := List.pairwise_cons.mp hpw
    have ihr := ih hd.2
    have hcross : ∀ q ∈ (refinePassGo d ps0 rest).1, ∀ x, x ∈ p → x ∉ q := by
      intro q hq x hxp hxq
      obtain ⟨p2, hp2, hx2⟩ := refinePassGo_mem_orig d ps0 rest q hq x hxq
      exact hd.1 p2 hp2 x hxp hx2
    rw [refinePassGo_cons]
    by_cases h1 : p.length ≤ 1
    · rw [if_pos h1]
      exact List.pairwise_cons.mpr ⟨hcross, ihr⟩
    · rw [if_neg h1]
      by_cases h2 : 1 < (splitPart d ps0 p).length
      · rw [if_pos h2]
        simp only
        rw [List.pairwise_append]
        refine ⟨splitPart_disjoint d ps0 p, ihr, ?_⟩
        intro a ha b hb x hxa hxb
        have hxp : x ∈ p := splitPart_subset d ps0 p a ha x hxa
        obtain ⟨p2, hp2, hx2⟩ := refinePassGo_mem_orig d ps0 rest b hb x hxb
        exact hd.1 p2 hp2 x hxp hx2
      · rw [if_neg h2]
        exact List.pairwise_cons.mpr ⟨hcross, ihr⟩

theorem refinePassGo_acceptcon (d : DFA) (ps0 : List (List String)) (A : List String) :
    ∀ l, (∀ p ∈ l, (∀ x ∈ p, x ∈ A) ∨ (∀ x ∈ p, x ∉ A)) →
      ∀ q ∈ (refinePassGo d ps0 l).1, (∀ x ∈ q, x ∈ A) ∨ (∀ x ∈ q, x ∉ A) := by
  intro l
  induction l with
  | nil => intro _ q hq; cases hq
  | cons p rest ih =>
    intro hcon q hq
    rw [refinePassGo_cons] at hq
    have hih := ih (fun p2 h2 => hcon p2 (by simp [h2]))
    by_cases h1 : p.length ≤ 1
    · rw [if_pos h1] at hq
      rcases List.mem_cons.mp hq with rfl | hq
      · exact hcon q (by simp)
      · exact hih q hq
    · rw [if_neg h1] at hq
      by_cases h2 : 1 < (splitPart d ps0 p).length
      · rw [if_pos h2] at hq
        simp only at hq
        rcases List.mem_append.mp hq with hq | hq
        · rcases hcon p (by simp) with hall | hnone
          · exact Or.inl (fun x hx => hall x (splitPart_subset d ps0 p q hq x hx))
          · exact Or.inr (fun x hx => hnone x (splitPart_subset d ps0 p q hq x hx))
        · exact hih q hq
      · rw [if_neg h2] at hq
        rcases List.mem_cons.mp hq with rfl | hq
        · exact hcon q (by simp)
        · exact hih q hq

theorem length_le_partsSize : ∀ ps : List (List String), (∀ p ∈ ps, p ≠ []) →
    ps.length ≤ partsSize ps := by
  intro ps
  induction ps with
  | nil => intro _; exact Nat.le_refl _
  | cons p rest ih =>
    intro hne
    unfold partsSize at ih ⊢
    simp only [List.map_cons, List.sum_cons, List.length_cons]
    have h1 : 1 ≤ p.length := by
      have := hne p (by simp)
      cases hp : p with
      | nil => exact absurd hp this
      | cons a t => simp
    have := ih (fun q hq => hne q (by simp [hq]))
    omega

/-- The bundled invariant of the partition list during refinement. -/
def MinPartsInv (d : DFA) (ps : List (List String)) : Prop :=
  (∀ p ∈ ps, p ≠ []) ∧
  (∀ p ∈ ps, ∀ x ∈ p, x ∈ minReachable d) ∧
  (∀ x ∈ minReachable d, ∃ p ∈ ps, x ∈ p) ∧
  List.Pairwise (fun a b => ∀ x, x ∈ a → x ∉ b) ps ∧
  (∀ p ∈ ps, (∀ x ∈ p, x ∈ minAcceptSet d) ∨ (∀ x ∈ p, x ∉ minAcceptSet d))

theorem refinePass_inv (d : DFA) (ps : List (List String)) (h : MinPartsInv d ps) :
    MinPartsInv d (refinePass d ps).1 := by
  obtain ⟨hne, hsub, hcov, hdisj, hcon⟩ := h
  refine ⟨refinePassGo_nonempty d ps ps hne, ?_, ?_, refinePassGo_disjoint d ps ps hdisj,
    refinePassGo_acceptcon d ps (minAcceptSet d) ps hcon⟩
  · intro q hq x hx
    obtain ⟨p, hp, hxp⟩ := refinePassGo_mem_orig d ps ps q hq x hx
    exact hsub p hp x hxp
  · intro x hx
    obtain ⟨p, hp, hxp⟩ := hcov x hx
    exact refinePassGo_cover d ps ps p hp x hxp

theorem refineLoop_inv (d : DFA) : ∀ (fuel : Nat) (ps : List (List String)),
    MinPartsInv d ps → MinPartsInv d (refineLoop d fuel ps) := by
  intro fuel
  induction fuel with
  | zero => intro ps h; exact h
  | succ fuel ih =>
    intro ps h
    show MinPartsInv d (if (refinePass d ps).2 then refineLoop d fuel (refinePass d ps).1
      else (refinePass d ps).1)
    by_cases hch : (refinePass d ps).2
    · rw [if_pos hch]
      exact ih _ (refinePass_inv d ps h)
    · rw [if_neg hch]
      exact refinePass_inv d ps h

theorem refineLoop_fix (d : DFA) : ∀ (fuel : Nat) (ps : List (List String)),
    (∀ p ∈ ps, p ≠ []) → partsSize ps + 1 ≤ fuel + ps.length →
    refinePass d (refineLoop d fuel ps) = (refineLoop d fuel ps, false) := by
  intro fuel
  induction fuel with
  | zero =>
    intro ps hne hlen
    have := length_le_partsSize ps hne
    omega
  | succ fuel ih =>
    intro ps hne hlen
    show refinePass d (if (refinePass d ps).2 then refineLoop d fuel (refinePass d ps).1
        else (refinePass d ps).1) =
      ((if (refinePass d ps).2 then refineLoop d fuel (refinePass d ps).1
        else (refinePass d ps).1), false)
    by_cases hch : (refinePass d ps).2
    · rw [if_pos hch]
      apply ih
      · exact refinePassGo_nonempty d ps ps hne
      · have hgrow := (refinePassGo_grows d ps ps).2 hch
        have hsize : partsSize (refinePass d ps).1 = partsSize ps :=
          refinePassGo_size d ps ps
        unfold refinePass at hgrow hsize ⊢
        omega
    · rw [if_neg hch]
      have hunch : (refinePass d ps).1 = ps := refinePassGo_unchanged d ps ps
        (Bool.not_eq_true _ ▸ (by simpa using hch))
      have hfix : refinePass d ps = (ps, false) := by
        have h2 : (refinePass d ps).2 = false := by simpa using hch
        have hp : refinePass d ps = ((refinePass d ps).1, (refinePass d ps).2) := rfl
        rw [hp, hunch, h2]
      rw [hunch, hfix]

theorem mem_minAcceptSet (d : DFA) (x : String) :
    x ∈ minAcceptSet d ↔ x ∈ minReachable d ∧ x ∈ d.accept_states := by
  unfold minAcceptSet
  rw [List.mem_filter]
  simp

theorem mem_minRejectSet (d : DFA) (x : String) :
    x ∈ minRejectSet d ↔ x ∈ minReachable d ∧ x ∉ minAcceptSet d := by
  unfold minRejectSet
  rw [List.mem_filter]
  simp

theorem mem_minParts0 (d : DFA) (p : List String) (hp : p ∈ minParts0 d) :
    (p = pySorted (minAcceptSet d) ∧ p ≠ []) ∨ (p = pySorted (minRejectSet d) ∧ p ≠ []) := by
  unfold minParts0 at hp
  rcases List.mem_append.mp hp with h | h
  · by_cases h1 : pySorted (minAcceptSet d) ≠ []
    · rw [if_pos h1] at h
      exact Or.inl ⟨List.mem_singleton.mp h, by rw [List.mem_singleton.mp h]; exact h1⟩
    · rw [if_neg h1] at h
      cases h
  · by_cases h2 : pySorted (minRejectSet d) ≠ []
    · rw [if_pos h2] at h
      exact Or.inr ⟨List.mem_singleton.mp h, by rw [List.mem_singleton.mp h]; exact h2⟩
    · rw [if_neg h2] at h
      cases h

theorem minParts0_inv (d : DFA) : MinPartsInv d (minParts0 d) := by
  refine ⟨?_, ?_, ?_, ?_, ?_⟩
  · intro p hp
    rcases mem_minParts0 d p hp with ⟨_, hne⟩ | ⟨_, hne⟩ <;> exact hne
  · intro p hp x hx
    rcases mem_minParts0 d p hp with ⟨heq, _⟩ | ⟨heq, _⟩
    · rw [heq] at hx
      exact ((mem_minAcceptSet d x).mp (mem_pySorted.mp hx)).1
    · rw [heq] at hx
      exact ((mem_minRejectSet d x).mp (mem_pySorted.mp hx)).1
  · intro x hx
    unfold minParts0
    by_cases hacc : x ∈ minAcceptSet d
    · have hmem : x ∈ pySorted (minAcceptSet d) := mem_pySorted.mpr hacc
      have hne : pySorted (minAcceptSet d) ≠ [] := by
        intro hcon
        rw [hcon] at hmem
        cases hmem
      rw [if_pos hne]
      exact ⟨pySorted (minAcceptSet d), by simp, hmem⟩
    · have hmem : x ∈ pySorted (minRejectSet d) :=
        mem_pySorted.mpr ((mem_minRejectSet d x).mpr ⟨hx, hacc⟩)
      have hne : pySorted (minRejectSet d) ≠ [] := by
        intro hcon
        rw [hcon] at hmem
        cases hmem
      rw [if_pos hne]
      refine ⟨pySorted (minRejectSet d), List.mem_append.mpr (Or.inr (by simp)), hmem⟩
  · have hdisj : ∀ x, x ∈ pySorted (minAcceptSet d) → x ∉ pySorted (minRejectSet d) := by
      intro x hx hcon
      exact ((mem_minRejectSet d x).mp (mem_pySorted.mp hcon)).2 (mem_pySorted.mp hx)
    unfold minParts0
    by_cases h1 : pySorted (minAcceptSet d) ≠ []
    · rw [if_pos h1]
      by_cases h2 : pySorted (minRejectSet d) ≠ []
      · rw [if_pos h2]
        refine List.pairwise_cons.mpr ⟨?_, List.pairwise_singleton _ _⟩
        intro b hb x hx
        rw [List.mem_singleton.mp hb]
        exact hdisj x hx
      · rw [if_neg h2]
        exact List.pairwise_singleton _ _
    · rw [if_neg h1]
      by_cases h2 : pySorted (minRejectSet d) ≠ []
      · rw [if_pos h2]
        exact List.pairwise_singleton _ _
      · rw [if_neg h2]
        exact List.Pairwise.nil
  · intro p hp
    rcases mem_minParts0 d p hp with ⟨heq, _⟩ | ⟨heq, _⟩
    · refine Or.inl (fun x hx => ?_)
      rw [heq] at hx
      exact mem_pySorted.mp hx
    · refine Or.inr (fun x hx => ?_)
      rw [heq] at hx
      exact ((mem_minRejectSet d x).mp (mem_pySorted.mp hx)).2

theorem minParts0_size (d : DFA) : partsSize (minParts0 d) = (minReachable d).length := by
  have hsplit : (minReachable d).length = (minAcceptSet d).length + (minRejectSet d).length := by
    show (minReachable d).length =
      ((minReachable d).filter (fun x => decide (x ∈ d.accept_states))).length +
      ((minReachable d).filter (fun x => decide (x ∉ minAcceptSet d))).length
    have hcongr : (minReachable d).filter (fun x => decide (x ∉ minAcceptSet d)) =
        (minReachable d).filter (fun x => decide (¬ x ∈ d.accept_states)) := by
      apply List.filter_congr
      intro x hx
      by_cases hacc : x ∈ d.accept_states
      · simp [hacc, (mem_minAcceptSet d x).mpr ⟨hx, hacc⟩]
      · simp only [decide_eq_decide]
        constructor
        · intro _; exact hacc
        · intro _ hcon
          exact hacc ((mem_minAcceptSet d x).mp hcon).2
    rw [hcongr, length_filter_split (fun x => x ∈ d.accept_states) (minReachable d)]
  unfold partsSize minParts0
  by_cases h1 : pySorted (minAcceptSet d) ≠ []
  · rw [if_pos h1]
    by_cases h2 : pySorted (minRejectSet d) ≠ []
    · rw [if_pos h2]
      simp only [List.map_append, List.sum_append, List.map_cons, List.map_nil, List.sum_cons,
        List.sum_nil, length_pySorted]
      omega
    · rw [if_neg h2]
      push_neg at h2
      have hlen2 : (minRejectSet d).length = 0 := by
        have := congrArg List.length h2
        rw [length_pySorted] at this
        simpa using this
      simp only [List.append_nil, List.map_cons, List.map_nil, List.sum_cons, List.sum_nil,
        length_pySorted]
      omega
  · rw [if_neg h1]
    push_neg at h1
    have hlen1 : (minAcceptSet d).length = 0 := by
      have := congrArg List.length h1
      rw [length_pySorted] at this
      simpa using this
    by_cases h2 : pySorted (minRejectSet d) ≠ []
    · rw [if_pos h2]
      simp only [List.nil_append, List.map_cons, List.map_nil, List.sum_cons, List.sum_nil,
        length_pySorted]
      omega
    · rw [if_neg h2]
      push_neg at h2
      have hlen2 : (minRejectSet d).length = 0 := by
        have := congrArg List.length h2
        rw [length_pySorted] at this
        simpa using this
      simp only [List.append_nil, List.map_nil, List.sum_nil]
      omega

theorem minParts_inv (d : DFA) : MinPartsInv d (minParts d) :=
  refineLoop_inv d _ _ (minParts0_inv d)

theorem minParts_fix (d : DFA) : refinePass d (minParts d) = (minParts d, false) := by
  unfold minParts
  apply refineLoop_fix
  · exact (minParts0_inv d).1
  · rw [minParts0_size]
    unfold minRelevant
    rw [length_pySorted]
    omega

theorem minParts_behavior_const (d : DFA) : ∀ p ∈ minParts d, ∀ x ∈ p, ∀ y ∈ p,
    minBehavior d (minParts d) x = minBehavior d (minParts d) y := by
  intro p hp x hx y hy
  by_cases hlen : p.length ≤ 1
  · have hxy : x = y := by
      cases hpl : p with
      | nil => rw [hpl] at hx; cases hx
      | cons a t =>
        cases ht : t with
        | nil =>
          rw [hpl, ht] at hx hy
          rw [List.mem_singleton.mp hx, List.mem_singleton.mp hy]
        | cons b t2 =>
          rw [hpl, ht] at hlen
          simp at hlen
    rw [hxy]
  · have hfix := minParts_fix d
    have hch : (refinePassGo d (minParts d) (minParts d)).2 = false := by
      have : (refinePass d (minParts d)).2 = false := by rw [hfix]
      exact this
    have hns := refinePassGo_nosplit d (minParts d) (minParts d) hch p hp (by omega)
    exact splitPart_single_behavior d (minParts d) p hns x hx y hy

theorem partOfAux_some : ∀ (ps : List (List String)) (x : String) (n i : Nat)
    (p : List String), partOfAux ps x n = some (i, p) → n ≤ i ∧ p ∈ ps ∧ x ∈ p := by
  intro ps
  induction ps with
  | nil => intro x n i p h; cases h
  | cons p0 rest ih =>
    intro x n i p h
    unfold partOfAux at h
    by_cases hx : x ∈ p0
    · rw [if_pos hx] at h
      cases h
      exact ⟨Nat.le_refl _, by simp, hx⟩
    · rw [if_neg hx] at h
      obtain ⟨hle, hmem, hxp⟩ := ih x (n+1) i p h
      exact ⟨by omega, by simp [hmem], hxp⟩

theorem partOfAux_none : ∀ (ps : List (List String)) (x : String) (n : Nat),
    partOfAux ps x n = none ↔ ∀ p ∈ ps, x ∉ p := by
  intro ps
  induction ps with
  | nil => intro x n; simp [partOfAux]
  | cons p0 rest ih =>
    intro x n
    unfold partOfAux
    by_cases hx : x ∈ p0
    · rw [if_pos hx]
      simp only [reduceCtorEq, false_iff]
      push_neg
      exact ⟨p0, by simp, hx⟩
    · rw [if_neg hx]
      rw [ih x (n+1)]
      constructor
      · intro h p hp
        rcases List.mem_cons.mp hp with rfl | hp
        · exact hx
        · exact h p hp
      · intro h p hp
        exact h p (by simp [hp])

theorem partOfAux_same_part : ∀ (ps : List (List String)), 
    List.Pairwise (fun a b => ∀ x, x ∈ a → x ∉ b) ps →
    ∀ (q : List String), q ∈ ps → ∀ (x y : String), x ∈ q → y ∈ q →
    ∀ n, partOfAux ps x n = partOfAux ps y n := by
  intro ps
  induction ps with
  | nil => intro _ q hq; cases hq
  | cons p0 rest ih =>
    intro hpw q hq x y hx hy n
    have hd := List.pairwise_cons.mp hpw
    unfold partOfAux
    rcases List.mem_cons.mp hq with rfl | hq
    · rw [if_pos hx, if_pos hy]
    · have hxn : x ∉ p0 := by
        intro hcon
        exact hd.1 q hq x hcon hx
      have hyn : y ∉ p0 := by
        intro hcon
        exact hd.1 q hq y hcon hy
      rw [if_neg hxn, if_neg hyn]
      exact ih hd.2 q hq x y hx hy (n+1)

theorem partOfAux_mem : ∀ (ps : List (List String)),
    List.Pairwise (fun a b => ∀ x, x ∈ a → x ∉ b) ps →
    ∀ (q : List String), q ∈ ps → ∀ (x : String), x ∈ q →
    ∀ n, ∃ i, partOfAux ps x n = some (i, q) := by
  intro ps
  induction ps with
  | nil => intro _ q hq; cases hq
  | cons p0 rest ih =>
    intro hpw q hq x hx n
    have hd := List.pairwise_cons.mp hpw
    unfold partOfAux
    rcases List.mem_cons.mp hq with rfl | hq
    · rw [if_pos hx]
      exact ⟨n, rfl⟩
    · have hxn : x ∉ p0 := by
        intro hcon
        exact hd.1 q hq x hcon hx
      rw [if_neg hxn]
      exact ih hd.2 q hq x hx (n+1)

theorem partOfAux_index_unique : ∀ (ps : List (List String)) (x y : String) (n i : Nat)
    (q q' : List String), partOfAux ps x n = some (i, q) → partOfAux ps y n = some (i, q') →
      q = q' := by
  intro ps
  induction ps with
  | nil => intro x y n i q q' h; cases h
  | cons p0 rest ih =>
    intro x y n i q q' hx hy
    unfold partOfAux at hx hy
    by_cases hxm : x ∈ p0
    · rw [if_pos hxm] at hx
      cases hx
      by_cases hym : y ∈ p0
      · rw [if_pos hym] at hy
        cases hy
        rfl
      · rw [if_neg hym] at hy
        have := (partOfAux_some rest y (n+1) n q' hy).1
        omega
    · rw [if_neg hxm] at hx
      by_cases hym : y ∈ p0
      · rw [if_pos hym] at hy
        cases hy
        have := (partOfAux_some rest x (n+1) n q hx).1
        omega
      · rw [if_neg hym] at hy
        exact ih x y (n+1) i q q' hx hy

/-! ### `minimize` Step 4: reconstruction -/

/-- `dfa.start_state.startswith("q")`. -/
def startsWithQ (s : String) : Bool :=
  match s.data with
  | [] => false
  | c :: _ => decide (c = 'q')

/-- The `is_dead` flag of a block: its representative is non-accepting and
none of its (truthy) transitions leaves the block. -/
def isDeadPart (d : DFA) (ps : List (List String)) (i : Nat) (p : List String) : Bool :=
  if p.headD "" ∈ minAcceptSet d then false
  else !(d.alphabet.any (fun char =>
    decide ((alookup (getRow d.transitions (p.headD "")) char).getD "" ≠ "" ∧
      partIdx ps ((alookup (getRow d.transitions (p.headD "")) char).getD "") ≠ (i : Int))))

/-- `new_name` of the block at index `i`: `"dead"` for a dead sink (when
there are other blocks), else `f"s{i}"`, overridden by a preserved
`q`-prefixed start-state name. -/
def newName (d : DFA) (ps : List (List String)) (i : Nat) (p : List String) : String :=
  if d.start_state ∈ p ∧ startsWithQ d.start_state = true then d.start_state
  else if isDeadPart d ps i p = true ∧ 1 < ps.length then "dead"
  else "s" ++ Nat.repr i

/-- `state_map[x]`: the new name of the block containing `x` (`""` when `x`
is in no block, matching the dict's initial absence). -/
def stateMapF (d : DFA) (ps : List (List String)) (x : String) : String :=
  match partOf ps x with
  | some ip => newName d ps ip.1 ip.2
  | none => ""

def minNamesAux (d : DFA) (ps0 : List (List String)) :
    List (List String) → Nat → List String
  | [], _ => []
  | p :: rest, i => newName d ps0 i p :: minNamesAux d ps0 rest (i+1)

/-- `new_states`, in block order. -/
def minNewStates (d : DFA) (ps : List (List String)) : List String := minNamesAux d ps ps 0

def minAcceptAux (d : DFA) (ps0 : List (List String)) :
    List (List String) → Nat → List String
  | [], _ => []
  | p :: rest, i =>
    if p.headD "" ∈ minAcceptSet d then newName d ps0 i p :: minAcceptAux d ps0 rest (i+1)
    else minAcceptAux d ps0 rest (i+1)

/-- `new_accept_states`, in block order. -/
def minNewAccept (d : DFA) (ps : List (List String)) : List String := minAcceptAux d ps ps 0

/-- One rebuilt transition row: the representative's truthy transitions,
mapped through `state_map`, written on top of whatever the name's row
already holds. -/
def minRowFor (d : DFA) (ps0 : List (List String)) (p : List String) (row0 : Row) : Row :=
  d.alphabet.foldl (fun row char =>
    if (alookup (getRow d.transitions (p.headD "")) char).getD "" ≠ ""
    then aset row char
      (stateMapF d ps0 ((alookup (getRow d.transitions (p.headD "")) char).getD ""))
    else row) row0

def minTransAux (d : DFA) (ps0 : List (List String)) : List (List String) → Trans → Trans
  | [], t => t
  | p :: rest, t =>
    minTransAux d ps0 rest
      (aset t (stateMapF d ps0 (p.headD ""))
        (minRowFor d ps0 p (getRow t (stateMapF d ps0 (p.headD "")))))

/-- `new_transitions`: every new name starts with an empty row, then each
block writes its representative's mapped row under its name. -/
def minTrans (d : DFA) (ps : List (List String)) : Trans :=
  minTransAux d ps ps ((minNewStates d ps).map (fun s => (s, ([] : Row))))

/-- The non-degenerate branch of `ProductConstructionEngine.minimize`. -/
def minimizeCore (d : DFA) : DFA :=
  { reasoning := d.reasoning ++ " (minimized)"
    states := pySorted (minNewStates d (minParts d))
    alphabet := d.alphabet
    transitions := minTrans d (minParts d)
    start_state := stateMapF d (minParts d) d.start_state
    accept_states := pySorted (minNewAccept d (minParts d)) }

/-- `ProductConstructionEngine.minimize` (`product.py` lines 5-117). -/
def minimize (d : DFA) : DFA := if d.states = [] then d else minimizeCore d

/-- The counterexample DFA for C4: a single declared state whose transition
dangles to an undeclared accepting name, which the minimization BFS happily
visits. -/
def c4cex : DFA :=
  { reasoning := ""
    states := ["q0"]
    alphabet := ["0"]
    transitions := [("q0", [("0", "g1")])]
    start_state := "q0"
    accept_states := ["g1"] }

theorem c4_sanity : (minimize c4cex).states = ["q0", "s0"] := by decide

/-! ### Properties of the reconstruction names -/

theorem str_append_repr_inj (pre : String) {a b : Nat}
    (h : pre ++ Nat.repr a = pre ++ Nat.repr b) : a = b := by
  apply natRepr_inj
  have hd : (pre ++ Nat.repr a).data = (pre ++ Nat.repr b).data := by rw [h]
  rw [String.data_append, String.data_append] at hd
  have h2 : (Nat.repr a).data = (Nat.repr b).data := List.append_cancel_left hd
  cases hra : Nat.repr a with
  | mk l1 =>
    cases hrb : Nat.repr b with
    | mk l2 =>
      rw [hra, hrb] at h2
      simp only at h2
      rw [h2]

theorem repr_head_digit (n : Nat) : ∃ c rest, (Nat.repr n).data = c :: rest ∧ c ≠ 'q' ∧
    c ≠ 's' ∧ c ≠ 'd' := by
  rcases Nat.eq_zero_or_pos n with h0 | hpos
  · subst h0
    exact ⟨'0', [], rfl, by decide, by decide, by decide⟩
  · have hrepr : Nat.repr n = ((Nat.digits 10 n).map Nat.digitChar).reverse.asString := by
      show (Nat.toDigits 10 n).asString = _
      rw [toDigits_eq n hpos]
    cases hd : ((Nat.digits 10 n).map Nat.digitChar).reverse with
    | nil =>
      exfalso
      have : Nat.digits 10 n ≠ [] := Nat.digits_ne_nil_iff_ne_zero.mpr (by omega)
      apply this
      have := congrArg List.reverse hd
      simp only [List.reverse_reverse, List.reverse_nil] at this
      cases hdig : Nat.digits 10 n with
      | nil => rfl
      | cons a t =>
        rw [hdig] at this
        simp at this
    | cons c rest =>
      refine ⟨c, rest, ?_, ?_, ?_, ?_⟩
      · rw [hrepr, hd]
        rfl
      all_goals
        have hcm : c ∈ (Nat.digits 10 n).map Nat.digitChar := by
          have hc2 : c ∈ ((Nat.digits 10 n).map Nat.digitChar).reverse := by rw [hd]; simp
          simpa using hc2
        obtain ⟨dval, hdval, rfl⟩ := List.mem_map.mp hcm
        have hlt : dval < 10 := Nat.digits_lt_base (by norm_num) hdval
        have hkey : ∀ v : Fin 10, Nat.digitChar v.val ≠ 'q' ∧ Nat.digitChar v.val ≠ 's' ∧
            Nat.digitChar v.val ≠ 'd' := by decide
        have hres := hkey ⟨dval, hlt⟩
        tauto

theorem sName_head (i : Nat) : ∃ rest, ("s" ++ Nat.repr i).data = 's' :: rest := by
  obtain ⟨c, r, hdata, _, _, _⟩ := repr_head_digit i
  refine ⟨c :: r, ?_⟩
  rw [String.data_append, hdata]
  rfl

theorem startsWithQ_ne_dead {nm : String} (h : startsWithQ nm = true) : nm ≠ "dead" := by
  intro hcon
  rw [hcon] at h
  simp [startsWithQ] at h

theorem startsWithQ_ne_sName {nm : String} (h : startsWithQ nm = true) (i : Nat) :
    nm ≠ "s" ++ Nat.repr i := by
  intro hcon
  obtain ⟨rest, hdata⟩ := sName_head i
  rw [hcon] at h
  unfold startsWithQ at h
  rw [hdata] at h
  simp at h

theorem sName_ne_dead (i : Nat) : "s" ++ Nat.repr i ≠ "dead" := by
  intro hcon
  obtain ⟨rest, hdata⟩ := sName_head i
  have := congrArg String.data hcon
  rw [hdata] at this
  simp at this

theorem sName_ne_empty (i : Nat) : "s" ++ Nat.repr i ≠ "" := by
  intro hcon
  obtain ⟨rest, hdata⟩ := sName_head i
  have := congrArg String.data hcon
  rw [hdata] at this
  simp at this

/-- Conditional keyed row fold: lookups in `minRowFor`-style folds. -/
theorem alookup_condfold (f : String → String) (P : String → Bool) :
    ∀ (chars : List String) (row0 : Row) (k : String),
      alookup (chars.foldl (fun row c => if P c then aset row c (f c) else row) row0) k =
        if k ∈ chars ∧ P k = true then some (f k) else alookup row0 k := by
  intro chars
  induction chars with
  | nil =>
    intro row0 k
    simp
  | cons c rest ih =>
    intro row0 k
    simp only [List.foldl_cons]
    rw [ih]
    by_cases hk : k ∈ rest ∧ P k = true
    · rw [if_pos hk, if_pos ⟨by simp [hk.1], hk.2⟩]
    · rw [if_neg hk]
      by_cases hkc : k = c
      · subst hkc
        by_cases hp : P k = true
        · rw [if_pos hp, alookup_aset_self, if_pos ⟨by simp, hp⟩]
        · rw [if_neg hp, if_neg (fun hcon => hp hcon.2)]
      · have hnm : ¬ (k ∈ c :: rest ∧ P k = true) := by
          intro hcon
          rcases List.mem_cons.mp hcon.1 with h | h
          · exact hkc h
          · exact hk ⟨h, hcon.2⟩
        by_cases hp : P c = true
        · rw [if_pos hp, alookup_aset_ne _ _ hkc, if_neg hnm]
        · rw [if_neg hp, if_neg hnm]

theorem getRow_mapnil (names : List String) (k : String) :
    getRow (names.map (fun s => (s, ([] : Row)))) k = [] := by
  unfold getRow
  induction names with
  | nil => rfl
  | cons a rest ih =>
    simp only [List.map_cons, alookup]
    by_cases h : a = k
    · rw [if_pos h]
      rfl
    · rw [if_neg h]
      exact ih

theorem alookup_aset_cases {β : Type} {t : List (String × β)} {k c : String} {v w : β}
    (h : alookup (aset t k v) c = some w) : (c = k ∧ w = v) ∨ alookup t c = some w := by
  by_cases hc : c = k
  · subst hc
    rw [alookup_aset_self] at h
    exact Or.inl ⟨rfl, (Option.some.inj h).symm⟩
  · rw [alookup_aset_ne _ _ hc] at h
    exact Or.inr h

theorem newName_unique (d : DFA) (ps : List (List String))
    (hdisj : List.Pairwise (fun a b => ∀ x, x ∈ a → x ∉ b) ps) {x y : String} {i j : Nat}
    {p q : List String}
    (hx : partOfAux ps x 0 = some (i, p)) (hy : partOfAux ps y 0 = some (j, q))
    (hname : newName d ps i p = newName d ps j q) (hnd : newName d ps i p ≠ "dead") :
    i = j ∧ p = q := by
  obtain ⟨_, hpmem, hxp⟩ := partOfAux_some ps x 0 i p hx
  obtain ⟨_, hqmem, hyq⟩ := partOfAux_some ps y 0 j q hy
  unfold newName at hname hnd
  by_cases hA1 : d.start_state ∈ p ∧ startsWithQ d.start_state = true
  · rw [if_pos hA1] at hname hnd
    by_cases hA2 : d.start_state ∈ q ∧ startsWithQ d.start_state = true
    · obtain ⟨k1, hk1⟩ := partOfAux_mem ps hdisj p hpmem d.start_state hA1.1 0
      obtain ⟨k2, hk2⟩ := partOfAux_mem ps hdisj q hqmem d.start_state hA2.1 0
      rw [hk1] at hk2
      have hpq : p = q := by
        have := Option.some.inj hk2
        exact congrArg Prod.snd this
      subst hpq
      have hsame := partOfAux_same_part ps hdisj p hpmem x y hxp hyq 0
      rw [hx, hy] at hsame
      have := Option.some.inj hsame
      exact ⟨congrArg Prod.fst this, rfl⟩
    · rw [if_neg hA2] at hname
      by_cases hB2 : isDeadPart d ps j q = true ∧ 1 < ps.length
      · rw [if_pos hB2] at hname
        exact absurd hname (startsWithQ_ne_dead hA1.2)
      · rw [if_neg hB2] at hname
        exact absurd hname (startsWithQ_ne_sName hA1.2 j)
  · rw [if_neg hA1] at hname hnd
    by_cases hA2 : d.start_state ∈ q ∧ startsWithQ d.start_state = true
    · rw [if_pos hA2] at hname
      by_cases hB1 : isDeadPart d ps i p = true ∧ 1 < ps.length
      · rw [if_pos hB1] at hname
        exact absurd hname.symm (startsWithQ_ne_dead hA2.2)
      · rw [if_neg hB1] at hname
        exact absurd hname.symm (startsWithQ_ne_sName hA2.2 i)
    · rw [if_neg hA2] at hname
      by_cases hB1 : isDeadPart d ps i p = true ∧ 1 < ps.length
      · rw [if_pos hB1] at hnd
        exact absurd rfl hnd
      · rw [if_neg hB1] at hname
        by_cases hB2 : isDeadPart d ps j q = true ∧ 1 < ps.length
        · rw [if_pos hB2] at hname
          exact absurd hname (sName_ne_dead i)
        · rw [if_neg hB2] at hname
          have hij : i = j := str_append_repr_inj "s" hname
          subst hij
          exact ⟨rfl, partOfAux_index_unique ps x y 0 i p q hx hy⟩

theorem stateMapF_spec (d : DFA) (ps : List (List String))
    (hdisj : List.Pairwise (fun a b => ∀ x, x ∈ a → x ∉ b) ps) {x : String}
    {p : List String} (hp : p ∈ ps) (hx : x ∈ p) :
    ∃ i, partOfAux ps x 0 = some (i, p) ∧ stateMapF d ps x = newName d ps i p := by
  obtain ⟨i, hi⟩ := partOfAux_mem ps hdisj p hp x hx 0
  refine ⟨i, hi, ?_⟩
  unfold stateMapF partOf
  rw [hi]

/-- Blocks of the traversal other than the looked-up name leave its row
untouched. -/
theorem minTransAux_skip (d : DFA) (ps0 : List (List String)) (nm : String) :
    ∀ (l : List (List String)) (t : Trans),
      (∀ q ∈ l, stateMapF d ps0 (q.headD "") ≠ nm) →
      alookup (minTransAux d ps0 l t) nm = alookup t nm := by
  intro l
  induction l with
  | nil => intro t _; rfl
  | cons p rest ih =>
    intro t hne
    show alookup (minTransAux d ps0 rest _) nm = _
    rw [ih _ (fun q hq => hne q (by simp [hq]))]
    exact alookup_aset_ne _ _ (fun hcon => hne p (by simp) hcon.symm)

/-- The unique block carrying the looked-up (non-dead) name determines its
row: the representative's mapped row over an initially empty row. -/
theorem minTransAux_unique (d : DFA) (ps0 : List (List String)) (nm : String)
    (p : List String) (hpne : p ≠ []) :
    ∀ (l : List (List String)) (t : Trans),
      List.Pairwise (fun a b => ∀ x, x ∈ a → x ∉ b) l →
      p ∈ l →
      (∀ q ∈ l, q ≠ p → stateMapF d ps0 (q.headD "") ≠ nm) →
      stateMapF d ps0 (p.headD "") = nm →
      getRow t nm = [] →
      alookup (minTransAux d ps0 l t) nm = some (minRowFor d ps0 p []) := by
  intro l
  induction l with
  | nil => intro t _ hp; cases hp
  | cons q rest ih =>
    intro t hpw hp hother hself hrow0
    have hd := List.pairwise_cons.mp hpw
    show alookup (minTransAux d ps0 rest _) nm = _
    rcases List.mem_cons.mp hp with heq | hp
    · subst heq
      have hnorest : ∀ q2 ∈ rest, stateMapF d ps0 (q2.headD "") ≠ nm := by
        intro q2 hq2
        apply hother q2 (by simp [hq2])
        intro hcon
        subst hcon
        obtain ⟨z, hz⟩ : ∃ z, z ∈ q2 := by
          cases hq : q2 with
          | nil => exact absurd hq hpne
          | cons a t2 => exact ⟨a, by simp⟩
        exact hd.1 q2 hq2 z hz hz
      rw [minTransAux_skip d ps0 nm rest _ hnorest]
      rw [hself] at *
      rw [alookup_aset_self]
      rw [hrow0]
    · have hqnp : q ≠ p := by
        intro hcon
        subst hcon
        obtain ⟨z, hz⟩ : ∃ z, z ∈ q := by
          cases hq : q with
          | nil => exact absurd hq hpne
          | cons a t2 => exact ⟨a, by simp⟩
        exact hd.1 q hp z hz hz
      have hqne : stateMapF d ps0 (q.headD "") ≠ nm := hother q (by simp) hqnp
      apply ih _ hd.2 hp (fun q2 hq2 hne2 => hother q2 (by simp [hq2]) hne2) hself
      unfold getRow
      rw [alookup_aset_ne _ _ (fun hcon => hqne hcon.symm)]
      exact hrow0

theorem headD_mem {p : List String} (h : p ≠ []) : p.headD "" ∈ p := by
  cases hp : p with
  | nil => exact absurd hp h
  | cons a t => simp

theorem alookup_pcondfold (f : String → String) (P : String → Prop) [DecidablePred P] :
    ∀ (chars : List String) (row0 : Row) (k : String),
      alookup (chars.foldl (fun row c => if P c then aset row c (f c) else row) row0) k =
        if k ∈ chars ∧ P k then some (f k) else alookup row0 k := by
  intro chars
  induction chars with
  | nil =>
    intro row0 k
    simp
  | cons c rest ih =>
    intro row0 k
    simp only [List.foldl_cons]
    rw [ih]
    by_cases hk : k ∈ rest ∧ P k
    · rw [if_pos hk, if_pos ⟨by simp [hk.1], hk.2⟩]
    · rw [if_neg hk]
      by_cases hkc : k = c
      · subst hkc
        by_cases hp : P k
        · rw [if_pos hp, alookup_aset_self, if_pos ⟨by simp, hp⟩]
        · rw [if_neg hp, if_neg (fun hcon => hp hcon.2)]
      · have hnm : ¬ (k ∈ c :: rest ∧ P k) := by
          intro hcon
          rcases List.mem_cons.mp hcon.1 with h | h
          · exact hkc h
          · exact hk ⟨h, hcon.2⟩
        by_cases hp : P c
        · rw [if_pos hp, alookup_aset_ne _ _ hkc, if_neg hnm]
        · rw [if_neg hp, if_neg hnm]

theorem minRowFor_lookup (d : DFA) (ps0 : List (List String)) (p : List String)
    (row0 : Row) (k : String) :
    alookup (minRowFor d ps0 p row0) k =
      if k ∈ d.alphabet ∧ (alookup (getRow d.transitions (p.headD "")) k).getD "" ≠ ""
      then some (stateMapF d ps0 ((alookup (getRow d.transitions (p.headD "")) k).getD ""))
      else alookup row0 k := by
  exact alookup_pcondfold
    (fun c => stateMapF d ps0 ((alookup (getRow d.transitions (p.headD "")) c).getD ""))
    (fun c => (alookup (getRow d.transitions (p.headD "")) c).getD "" ≠ "")
    d.alphabet row0 k

theorem newName_eq_dead (d : DFA) (ps : List (List String)) (i : Nat) (p : List String)
    (h : newName d ps i p = "dead") :
    isDeadPart d ps i p = true ∧ 1 < ps.length ∧
      ¬(d.start_state ∈ p ∧ startsWithQ d.start_state = true) := by
  unfold newName at h
  by_cases hA : d.start_state ∈ p ∧ startsWithQ d.start_state = true
  · rw [if_pos hA] at h
    exact absurd h (startsWithQ_ne_dead hA.2)
  · rw [if_neg hA] at h
    by_cases hB : isDeadPart d ps i p = true ∧ 1 < ps.length
    · exact ⟨hB.1, hB.2, hA⟩
    · rw [if_neg hB] at h
      exact absurd h (sName_ne_dead i)

theorem partIdx_nonneg_of_reachable (d : DFA) {t : String} (ht : t ∈ minReachable d) :
    ∃ k b, partOfAux (minParts d) t 0 = some (k, b) ∧
      partIdx (minParts d) t = (k : Int) := by
  obtain ⟨b, hb, htb⟩ := (minParts_inv d).2.2.1 t ht
  obtain ⟨k, hk⟩ := partOfAux_mem (minParts d) (minParts_inv d).2.2.2.1 b hb t htb 0
  refine ⟨k, b, hk, ?_⟩
  unfold partIdx partOf
  rw [hk]

theorem same_block_entries (d : DFA) (hwf : WellFormed d) (hempty : "" ∉ d.states)
    {x y : String} {p : List String} (hp : p ∈ minParts d) (hx : x ∈ p) (hy : y ∈ p)
    {char : String} (hchar : char ∈ d.alphabet) :
    (alookup (getRow d.transitions x) char = none → alookup (getRow d.transitions y) char = none) ∧
    (∀ tx, alookup (getRow d.transitions x) char = some tx →
      ∃ ty, alookup (getRow d.transitions y) char = some ty ∧
        partIdx (minParts d) tx = partIdx (minParts d) ty) := by
  have hxR : x ∈ minReachable d := (minParts_inv d).2.1 p hp x hx
  have hyR : y ∈ minReachable d := (minParts_inv d).2.1 p hp y hy
  have hbeh := minParts_behavior_const d p hp x hx y hy
  have hentry := List.map_inj_left.mp hbeh char hchar
  simp only at hentry
  constructor
  · intro hnx
    cases hny : alookup (getRow d.transitions y) char with
    | none => rfl
    | some ty =>
      exfalso
      have htyne : ty ≠ "" := by
        intro hcon
        apply hempty
        rw [← hcon]
        exact target_mem_states d hwf hny
      have htyR : ty ∈ minReachable d := minReachable_closed d hyR hchar hny htyne
      obtain ⟨k, b, _, hidx⟩ := partIdx_nonneg_of_reachable d htyR
      rw [hnx, hny] at hentry
      simp only [Option.getD_none, Option.getD_some, ne_eq, not_true_eq_false,
        if_false] at hentry
      rw [if_pos htyne, hidx] at hentry
      omega
  · intro tx htx
    have htxne : tx ≠ "" := by
      intro hcon
      apply hempty
      rw [← hcon]
      exact target_mem_states d hwf htx
    have htxR : tx ∈ minReachable d := minReachable_closed d hxR hchar htx htxne
    obtain ⟨k, b, _, hidx⟩ := partIdx_nonneg_of_reachable d htxR
    cases hny : alookup (getRow d.transitions y) char with
    | none =>
      exfalso
      rw [htx, hny] at hentry
      simp only [Option.getD_some, Option.getD_none] at hentry
      rw [if_pos htxne] at hentry
      simp only [ne_eq, not_true_eq_false, if_false] at hentry
      rw [hidx] at hentry
      omega
    | some ty =>
      have htyne : ty ≠ "" := by
        intro hcon
        apply hempty
        rw [← hcon]
        exact target_mem_states d hwf hny
      refine ⟨ty, rfl, ?_⟩
      rw [htx, hny] at hentry
      simp only [Option.getD_some] at hentry
      rw [if_pos htxne, if_pos htyne] at hentry
      exact hentry

theorem stateMapF_block (d : DFA) {x : String} (hx : x ∈ minReachable d) :
    ∃ i p, partOfAux (minParts d) x 0 = some (i, p) ∧ x ∈ p ∧ p ∈ minParts d ∧
      stateMapF d (minParts d) x = newName d (minParts d) i p := by
  obtain ⟨p, hp, hxp⟩ := (minParts_inv d).2.2.1 x hx
  obtain ⟨i, hi, hmap⟩ := stateMapF_spec d (minParts d) (minParts_inv d).2.2.2.1 hp hxp
  exact ⟨i, p, hi, hxp, hp, hmap⟩

theorem dead_block_members (d : DFA) {x : String} (hx : x ∈ minReachable d)
    (hdead : stateMapF d (minParts d) x = "dead") :
    ∃ i p, partOfAux (minParts d) x 0 = some (i, p) ∧ x ∈ p ∧ p ∈ minParts d ∧
      isDeadPart d (minParts d) i p = true ∧
      newName d (minParts d) i p = "dead" := by
  obtain ⟨i, p, hi, hxp, hp, hmap⟩ := stateMapF_block d hx
  rw [hmap] at hdead
  obtain ⟨hisdead, _, _⟩ := newName_eq_dead d (minParts d) i p hdead
  exact ⟨i, p, hi, hxp, hp, hisdead, hdead⟩

theorem isDeadPart_spec (d : DFA) {i : Nat} {p : List String}
    (h : isDeadPart d (minParts d) i p = true) :
    p.headD "" ∉ minAcceptSet d ∧
    ∀ char ∈ d.alphabet,
      (alookup (getRow d.transitions (p.headD "")) char).getD "" ≠ "" →
        partIdx (minParts d) ((alookup (getRow d.transitions (p.headD "")) char).getD "")
          = (i : Int) := by
  unfold isDeadPart at h
  by_cases hacc : p.headD "" ∈ minAcceptSet d
  · rw [if_pos hacc] at h
    cases h
  · rw [if_neg hacc] at h
    refine ⟨hacc, ?_⟩
    intro char hchar hne
    have hany : (d.alphabet.any (fun char =>
      decide ((alookup (getRow d.transitions (p.headD "")) char).getD "" ≠ "" ∧
        partIdx (minParts d) ((alookup (getRow d.transitions (p.headD "")) char).getD "")
          ≠ (i : Int)))) = false := by
      cases hb : (d.alphabet.any (fun char =>
        decide ((alookup (getRow d.transitions (p.headD "")) char).getD "" ≠ "" ∧
          partIdx (minParts d) ((alookup (getRow d.transitions (p.headD "")) char).getD "")
            ≠ (i : Int)))) with
      | false => rfl
      | true => rw [hb] at h; cases h
    have h3 := List.any_eq_false.mp hany char hchar
    by_contra hcon
    exact h3 (decide_eq_true ⟨hne, hcon⟩)

theorem dead_not_accept (d : DFA) {x : String} (hx : x ∈ minReachable d)
    (hdead : stateMapF d (minParts d) x = "dead") : x ∉ d.accept_states := by
  obtain ⟨i, p, hi, hxp, hp, hisdead, _⟩ := dead_block_members d hx hdead
  have hrepna := (isDeadPart_spec d hisdead).1
  have hpne : p ≠ [] := (minParts_inv d).1 p hp
  have hrep : p.headD "" ∈ p := headD_mem hpne
  rcases (minParts_inv d).2.2.2.2 p hp with hall | hnone
  · exact absurd (hall _ hrep) hrepna
  · intro hcon
    exact hnone x hxp ((mem_minAcceptSet d x).mpr ⟨hx, hcon⟩)

theorem dead_step (d : DFA) (hwf : WellFormed d) (hempty : "" ∉ d.states)
    {x t char : String} (hx : x ∈ minReachable d)
    (hdead : stateMapF d (minParts d) x = "dead") (hchar : char ∈ d.alphabet)
    (ht : alookup (getRow d.transitions x) char = some t) :
    t ∈ minReachable d ∧ stateMapF d (minParts d) t = "dead" := by
  have htne : t ≠ "" := by
    intro hcon
    apply hempty
    rw [← hcon]
    exact target_mem_states d hwf ht
  have htR : t ∈ minReachable d := minReachable_closed d hx hchar ht htne
  refine ⟨htR, ?_⟩
  obtain ⟨i, p, hi, hxp, hp, hisdead, hname⟩ := dead_block_members d hx hdead
  have hpne : p ≠ [] := (minParts_inv d).1 p hp
  have hrep : p.headD "" ∈ p := headD_mem hpne
  obtain ⟨hnone_case, hsome_case⟩ :=
    same_block_entries d hwf hempty hp hxp hrep hchar
  obtain ⟨trep, htrep, hidxeq⟩ := hsome_case t ht
  have htrepne : trep ≠ "" := by
    intro hcon
    apply hempty
    rw [← hcon]
    exact target_mem_states d hwf htrep
  have hrepd : (alookup (getRow d.transitions (p.headD "")) char).getD "" = trep := by
    rw [htrep]
    rfl
  have hidxi := (isDeadPart_spec d hisdead).2 char hchar (by rw [hrepd]; exact htrepne)
  rw [hrepd] at hidxi
  obtain ⟨k, b, hk, hidx⟩ := partIdx_nonneg_of_reachable d htR
  have hki : k = i := by
    rw [hidx] at hidxeq
    rw [hidxi] at hidxeq
    omega
  subst hki
  have hbp : b = p := partOfAux_index_unique (minParts d) t x 0 k b p hk hi
  unfold stateMapF partOf
  rw [hk, hbp]
  exact hname

theorem partOfAux_pos : ∀ (ps : List (List String)) (x : String) (m i : Nat) (p : List String),
    partOfAux ps x m = some (i, p) → ps[i - m]? = some p ∧ m ≤ i := by
  intro ps
  induction ps with
  | nil => intro x m i p h; cases h
  | cons q rest ih =>
    intro x m i p h
    unfold partOfAux at h
    by_cases hx : x ∈ q
    · rw [if_pos hx] at h
      cases h
      simp
    · rw [if_neg hx] at h
      obtain ⟨hget, hle⟩ := ih x (m+1) i p h
      have hsub : i - m = (i - (m+1)) + 1 := by omega
      rw [hsub]
      constructor
      · simpa using hget
      · omega

theorem blocks_pos_unique (ps : List (List String))
    (hdisj : List.Pairwise (fun a b => ∀ x, x ∈ a → x ∉ b) ps) {i k : Nat}
    {p : List String} (hi : ps[i]? = some p) (hk : ps[k]? = some p) (hne : p ≠ []) :
    i = k := by
  by_contra hcon
  obtain ⟨z, hz⟩ : ∃ z, z ∈ p := by
    cases hp : p with
    | nil => exact absurd hp hne
    | cons a t => exact ⟨a, by simp⟩
  have hilt : i < ps.length := by
    by_contra hge
    rw [List.getElem?_eq_none (by omega)] at hi
    cases hi
  have hklt : k < ps.length := by
    by_contra hge
    rw [List.getElem?_eq_none (by omega)] at hk
    cases hk
  have hpw := List.pairwise_iff_getElem.mp hdisj
  rcases Nat.lt_or_ge i k with hlt | hge
  · have := hpw i k hilt hklt hlt
    rw [List.getElem?_eq_getElem hilt] at hi
    rw [List.getElem?_eq_getElem hklt] at hk
    have hi2 := Option.some.inj hi
    have hk2 := Option.some.inj hk
    rw [hi2, hk2] at this
    exact this z hz hz
  · have hlt2 : k < i := by omega
    have := hpw k i hklt hilt hlt2
    rw [List.getElem?_eq_getElem hilt] at hi
    rw [List.getElem?_eq_getElem hklt] at hk
    have hi2 := Option.some.inj hi
    have hk2 := Option.some.inj hk
    rw [hi2, hk2] at this
    exact this z hz hz

theorem partOfAux_of_pos (ps : List (List String))
    (hdisj : List.Pairwise (fun a b => ∀ x, x ∈ a → x ∉ b) ps) {k : Nat} {p : List String}
    (hk : ps[k]? = some p) {y : String} (hy : y ∈ p) :
    partOfAux ps y 0 = some (k, p) := by
  have hpmem : p ∈ ps := by
    have hklt : k < ps.length := by
      by_contra hge
      rw [List.getElem?_eq_none (by omega)] at hk
      cases hk
    rw [List.getElem?_eq_getElem hklt] at hk
    rw [← Option.some.inj hk]
    exact List.getElem_mem _
  obtain ⟨i, hi⟩ := partOfAux_mem ps hdisj p hpmem y hy 0
  obtain ⟨hget, _⟩ := partOfAux_pos ps y 0 i p hi
  simp only [Nat.sub_zero] at hget
  have hne : p ≠ [] := by
    intro hcon
    rw [hcon] at hy
    cases hy
  rw [blocks_pos_unique ps hdisj hget hk hne] at hi
  exact hi

theorem alookup_mapnil (names : List String) (k : String) {row : Row}
    (h : alookup (names.map (fun s => (s, ([] : Row)))) k = some row) : row = [] := by
  induction names with
  | nil => cases h
  | cons a rest ih =>
    simp only [List.map_cons, alookup] at h
    by_cases ha : a = k
    · rw [if_pos ha] at h
      exact (Option.some.inj h).symm
    · rw [if_neg ha] at h
      exact ih h

theorem minTransAux_deadOK (d : DFA) (ps0 : List (List String)) :
    ∀ (l : List (List String)) (t : Trans),
      (∀ p ∈ l, stateMapF d ps0 (p.headD "") = "dead" →
        ∀ char ∈ d.alphabet,
          (alookup (getRow d.transitions (p.headD "")) char).getD "" ≠ "" →
          stateMapF d ps0 ((alookup (getRow d.transitions (p.headD "")) char).getD "")
            = "dead") →
      (∀ row, alookup t "dead" = some row → ∀ c v, alookup row c = some v → v = "dead") →
      ∀ row, alookup (minTransAux d ps0 l t) "dead" = some row →
        ∀ c v, alookup row c = some v → v = "dead" := by
  intro l
  induction l with
  | nil => intro t _ hinv row hrow; exact hinv row hrow
  | cons p rest ih =>
    intro t hW hinv
    show ∀ row, alookup (minTransAux d ps0 rest _) "dead" = some row → _
    apply ih _ (fun p2 h2 => hW p2 (by simp [h2]))
    intro row hrow c v hcv
    by_cases hnm : stateMapF d ps0 (p.headD "") = "dead"
    · rw [hnm, alookup_aset_self] at hrow
      have hroweq := Option.some.inj hrow
      rw [← hroweq] at hcv
      rw [minRowFor_lookup] at hcv
      by_cases hcond : c ∈ d.alphabet ∧
          (alookup (getRow d.transitions (p.headD "")) c).getD "" ≠ ""
      · rw [if_pos hcond] at hcv
        have := hW p (by simp) hnm c hcond.1 hcond.2
        rw [← Option.some.inj hcv]
        exact this
      · rw [if_neg hcond] at hcv
        unfold getRow at hcv
        cases hdead0 : alookup t "dead" with
        | none =>
          rw [hdead0] at hcv
          simp only [Option.getD_none] at hcv
          cases hcv
        | some row0 =>
          rw [hdead0] at hcv
          simp only [Option.getD_some] at hcv
          exact hinv row0 hdead0 c v hcv
    · rw [alookup_aset_ne _ _ (fun hcon => hnm hcon.symm)] at hrow
      exact hinv row hrow c v hcv

theorem dead_notin_accAux (d : DFA) :
    ∀ (l : List (List String)) (n : Nat), "dead" ∉ minAcceptAux d (minParts d) l n := by
  intro l
  induction l with
  | nil => intro n h; cases h
  | cons p rest ih =>
    intro n h
    unfold minAcceptAux at h
    by_cases hacc : p.headD "" ∈ minAcceptSet d
    · rw [if_pos hacc] at h
      rcases List.mem_cons.mp h with heq | h2
      · obtain ⟨hisdead, _, _⟩ := newName_eq_dead d (minParts d) n p heq.symm
        exact (isDeadPart_spec d hisdead).1 hacc
      · exact ih (n+1) h2
    · rw [if_neg hacc] at h
      exact ih (n+1) h

theorem minAcceptAux_mem (d : DFA) (ps0 : List (List String)) {nm : String} :
    ∀ (l : List (List String)) (n : Nat), l = ps0.drop n →
      nm ∈ minAcceptAux d ps0 l n →
      ∃ j q, ps0[j]? = some q ∧ (q.headD "") ∈ minAcceptSet d ∧
        newName d ps0 j q = nm := by
  intro l
  induction l with
  | nil => intro n _ h; cases h
  | cons p rest ih =>
    intro n hdrop h
    have hget : ps0[n]? = some p := by
      have h0 := List.getElem?_drop ps0 n 0
      rw [← hdrop] at h0
      simpa using h0.symm
    have hrest : rest = ps0.drop (n+1) := by
      have h1 : ps0.drop (n+1) = List.drop 1 (ps0.drop n) := by
        rw [List.drop_drop]
      rw [h1, ← hdrop]
      simp
    unfold minAcceptAux at h
    by_cases hacc : p.headD "" ∈ minAcceptSet d
    · rw [if_pos hacc] at h
      rcases List.mem_cons.mp h with heq | h2
      · exact ⟨n, p, hget, hacc, heq.symm⟩
      · exact ih (n+1) hrest h2
    · rw [if_neg hacc] at h
      exact ih (n+1) hrest h

theorem minAcceptAux_mem_of (d : DFA) (ps0 : List (List String)) :
    ∀ (l : List (List String)) (n : Nat), l = ps0.drop n →
      ∀ (j : Nat) (q : List String), n ≤ j → ps0[j]? = some q →
        (q.headD "") ∈ minAcceptSet d →
        newName d ps0 j q ∈ minAcceptAux d ps0 l n := by
  intro l
  induction l with
  | nil =>
    intro n hdrop j q hle hget hacc
    exfalso
    have hlen : ps0.length ≤ n := by
      have := congrArg List.length hdrop
      simp only [List.length_nil, List.length_drop] at this
      omega
    rw [List.getElem?_eq_none (by omega)] at hget
    cases hget
  | cons p rest ih =>
    intro n hdrop j q hle hget hacc
    have hgetn : ps0[n]? = some p := by
      have h0 := List.getElem?_drop ps0 n 0
      rw [← hdrop] at h0
      simpa using h0.symm
    have hrest : rest = ps0.drop (n+1) := by
      have h1 : ps0.drop (n+1) = List.drop 1 (ps0.drop n) := by
        rw [List.drop_drop]
      rw [h1, ← hdrop]
      simp
    unfold minAcceptAux
    rcases Nat.eq_or_lt_of_le hle with heq | hlt
    · subst heq
      rw [hgetn] at hget
      have hq : q = p := (Option.some.inj hget).symm
      subst hq
      rw [if_pos hacc]
      simp
    · have hmem := ih (n+1) hrest j q (by omega) hget hacc
      by_cases haccp : p.headD "" ∈ minAcceptSet d
      · rw [if_pos haccp]
        simp [hmem]
      · rw [if_neg haccp]
        exact hmem

theorem minTrans_unique_row (d : DFA) {x : String} (hx : x ∈ minReachable d)
    (hnd : stateMapF d (minParts d) x ≠ "dead") :
    ∃ i p, partOfAux (minParts d) x 0 = some (i, p) ∧ x ∈ p ∧ p ∈ minParts d ∧
      alookup (minTrans d (minParts d)) (stateMapF d (minParts d) x) =
        some (minRowFor d (minParts d) p []) := by
  obtain ⟨i, p, hi, hxp, hp, hmap⟩ := stateMapF_block d hx
  have hdisj := (minParts_inv d).2.2.2.1
  have hpne : p ≠ [] := (minParts_inv d).1 p hp
  refine ⟨i, p, hi, hxp, hp, ?_⟩
  unfold minTrans
  apply minTransAux_unique d (minParts d) _ p hpne (minParts d) _ hdisj hp
  · intro q hq hqnp hcon
    have hqne : q ≠ [] := (minParts_inv d).1 q hq
    have hrepq : q.headD "" ∈ q := headD_mem hqne
    obtain ⟨j, hj, hmapq⟩ := stateMapF_spec d (minParts d) hdisj hq hrepq
    rw [hmapq, hmap] at hcon
    have := newName_unique d (minParts d) hdisj hj hi hcon (by rw [hcon, ← hmap]; exact hnd)
    exact hqnp this.2
  · have hrepp : p.headD "" ∈ p := headD_mem hpne
    obtain ⟨j, hj, hmapp⟩ := stateMapF_spec d (minParts d) hdisj hp hrepp
    have hsame := partOfAux_same_part (minParts d) hdisj p hp (p.headD "") x hrepp hxp 0
    rw [hj, hi] at hsame
    have hji : j = i := congrArg Prod.fst (Option.some.inj hsame)
    rw [hmapp, hji, ← hmap]
  · exact getRow_mapnil _ _

theorem minCore_alphabet (d : DFA) : (minimizeCore d).alphabet = d.alphabet := rfl

theorem minCore_transitions (d : DFA) :
    (minimizeCore d).transitions = minTrans d (minParts d) := rfl

theorem minCore_accept (d : DFA) :
    (minimizeCore d).accept_states = pySorted (minNewAccept d (minParts d)) := rfl

theorem stateMapF_same_idx (d : DFA) {t t' : String} (ht : t ∈ minReachable d)
    (ht' : t' ∈ minReachable d)
    (heq : partIdx (minParts d) t = partIdx (minParts d) t') :
    stateMapF d (minParts d) t = stateMapF d (minParts d) t' := by
  obtain ⟨k, b, hk, hidx⟩ := partIdx_nonneg_of_reachable d ht
  obtain ⟨k', b', hk', hidx'⟩ := partIdx_nonneg_of_reachable d ht'
  rw [hidx, hidx'] at heq
  have hkk : k = k' := by omega
  subst hkk
  have hbb : b = b' := partOfAux_index_unique (minParts d) t t' 0 k b b' hk hk'
  subst hbb
  unfold stateMapF partOf
  rw [hk, hk']

theorem minCore_step (d : DFA) (hwf : WellFormed d) (hempty : "" ∉ d.states)
    {x char : String} (hx : x ∈ minReachable d) (hchar : char ∈ d.alphabet)
    (hnd : stateMapF d (minParts d) x ≠ "dead") :
    (minimizeCore d).step (stateMapF d (minParts d) x) char =
      match alookup (getRow d.transitions x) char with
      | some t => some (stateMapF d (minParts d) t)
      | none => none := by
  obtain ⟨i, p, hi, hxp, hp, hrowlk⟩ := minTrans_unique_row d hx hnd
  have hpne : p ≠ [] := (minParts_inv d).1 p hp
  have hrep : p.headD "" ∈ p := headD_mem hpne
  rw [step_eq_getRow _ _ _ (by rw [minCore_alphabet]; exact hchar)]
  have hgr : getRow (minimizeCore d).transitions (stateMapF d (minParts d) x) =
      minRowFor d (minParts d) p [] := by
    unfold getRow
    rw [minCore_transitions, hrowlk]
    rfl
  rw [hgr, minRowFor_lookup]
  obtain ⟨hnone_case, hsome_case⟩ := same_block_entries d hwf hempty hp hxp hrep hchar
  cases hxlk : alookup (getRow d.transitions x) char with
  | none =>
    have hrepnone := hnone_case hxlk
    rw [if_neg ?_]
    · rfl
    · intro hcon
      rw [hrepnone] at hcon
      simp at hcon
  | some t =>
    obtain ⟨trep, htrep, hidxeq⟩ := hsome_case t hxlk
    have htrepne : trep ≠ "" := by
      intro hcon
      apply hempty
      rw [← hcon]
      exact target_mem_states d hwf htrep
    have htne : t ≠ "" := by
      intro hcon
      apply hempty
      rw [← hcon]
      exact target_mem_states d hwf hxlk
    have hxR : x ∈ minReachable d := hx
    have htR : t ∈ minReachable d := minReachable_closed d hxR hchar hxlk htne
    have hrepR : p.headD "" ∈ minReachable d := (minParts_inv d).2.1 p hp _ hrep
    have htrepR : trep ∈ minReachable d := minReachable_closed d hrepR hchar htrep htrepne
    rw [if_pos ⟨hchar, by rw [htrep]; simpa using htrepne⟩]
    have hgd : (alookup (getRow d.transitions (p.headD "")) char).getD "" = trep := by
      rw [htrep]
      rfl
    rw [hgd]
    have hmapeq := stateMapF_same_idx d htrepR htR hidxeq.symm
    rw [hmapeq]

theorem minCore_accept_iff (d : DFA) (hwf : WellFormed d) (hempty : "" ∉ d.states)
    {x : String} (hx : x ∈ minReachable d)
    (hnd : stateMapF d (minParts d) x ≠ "dead") :
    stateMapF d (minParts d) x ∈ (minimizeCore d).accept_states ↔ x ∈ d.accept_states := by
  rw [minCore_accept, mem_pySorted]
  have hdisj := (minParts_inv d).2.2.2.1
  obtain ⟨i, p, hi, hxp, hp, hmap⟩ := stateMapF_block d hx
  have hpne : p ≠ [] := (minParts_inv d).1 p hp
  have hrep : p.headD "" ∈ p := headD_mem hpne
  constructor
  · intro hmem
    obtain ⟨j, q, hget, haccq, hname⟩ :=
      minAcceptAux_mem d (minParts d) (minParts d) 0 (by simp) hmem
    have hqne : q ≠ [] := by
      intro hcon
      rw [hcon] at haccq
      simp only [List.headD_nil] at haccq
      have hR := ((mem_minAcceptSet d "").mp haccq).1
      exact hempty (minReachable_sub_states d hwf _ hR)
    have hrepq : q.headD "" ∈ q := headD_mem hqne
    have hjq : partOfAux (minParts d) (q.headD "") 0 = some (j, q) :=
      partOfAux_of_pos (minParts d) hdisj hget hrepq
    rw [hmap] at hnd
    have huni := newName_unique d (minParts d) hdisj hi hjq
      (by rw [hname, hmap]) hnd
    have hqp : p = q := huni.2
    subst hqp
    rcases (minParts_inv d).2.2.2.2 p hp with hall | hnone
    · have hxA : x ∈ minAcceptSet d := hall x hxp
      exact ((mem_minAcceptSet d x).mp hxA).2
    · exact absurd haccq (hnone _ hrep)
  · intro hxacc
    have hxA : x ∈ minAcceptSet d := (mem_minAcceptSet d x).mpr ⟨hx, hxacc⟩
    have haccrep : p.headD "" ∈ minAcceptSet d := by
      rcases (minParts_inv d).2.2.2.2 p hp with hall | hnone
      · exact hall _ hrep
      · exact absurd hxA (hnone x hxp)
    obtain ⟨hget, _⟩ := partOfAux_pos (minParts d) x 0 i p hi
    simp only [Nat.sub_zero] at hget
    rw [hmap]
    exact minAcceptAux_mem_of d (minParts d) (minParts d) 0 (by simp) i p
      (Nat.zero_le _) hget haccrep

theorem minTrans_dead_entries (d : DFA) (hwf : WellFormed d) (hempty : "" ∉ d.states) :
    ∀ row, alookup (minTrans d (minParts d)) "dead" = some row →
      ∀ c v, alookup row c = some v → v = "dead" := by
  unfold minTrans
  apply minTransAux_deadOK
  · intro p hp hdead char hchar hne
    have hpne : p ≠ [] := (minParts_inv d).1 p hp
    have hrepR : p.headD "" ∈ minReachable d :=
      (minParts_inv d).2.1 p hp _ (headD_mem hpne)
    cases hlk : alookup (getRow d.transitions (p.headD "")) char with
    | none =>
      rw [hlk] at hne
      simp at hne
    | some t =>
      show stateMapF d (minParts d) ((some t).getD "") = "dead"
      exact (dead_step d hwf hempty hrepR hdead hchar hlk).2
  · intro row hrow c v hcv
    have := alookup_mapnil _ _ hrow
    rw [this] at hcv
    cases hcv

theorem minCore_dead_run (d : DFA) (hwf : WellFormed d) (hempty : "" ∉ d.states) :
    ∀ s : List String, (minimizeCore d).acceptsFrom "dead" s = false := by
  intro s
  induction s with
  | nil =>
    show decide ("dead" ∈ (minimizeCore d).accept_states) = false
    rw [minCore_accept]
    have : "dead" ∉ pySorted (minNewAccept d (minParts d)) := by
      intro hcon
      exact dead_notin_accAux d (minParts d) 0 (mem_pySorted.mp hcon)
    simpa using this
  | cons c rest ih =>
    show (match (minimizeCore d).step "dead" c with
      | none => false
      | some nxt => (minimizeCore d).acceptsFrom nxt rest) = false
    cases hstep : (minimizeCore d).step "dead" c with
    | none => rfl
    | some nxt =>
      have hc : c ∈ (minimizeCore d).alphabet := step_some_alphabet _ _ _ _ hstep
      rw [step_eq_getRow _ _ _ hc] at hstep
      have hnxt : nxt = "dead" := by
        unfold getRow at hstep
        cases hlk : alookup (minimizeCore d).transitions "dead" with
        | none =>
          rw [hlk] at hstep
          simp only [Option.getD_none] at hstep
          cases hstep
        | some row =>
          rw [hlk] at hstep
          simp only [Option.getD_some] at hstep
          rw [minCore_transitions] at hlk
          exact minTrans_dead_entries d hwf hempty row hlk c nxt hstep
      rw [hnxt]
      exact ih

theorem orig_dead_run (d : DFA) (hwf : WellFormed d) (hempty : "" ∉ d.states) :
    ∀ (s : List String) (x : String), x ∈ minReachable d →
      stateMapF d (minParts d) x = "dead" → d.acceptsFrom x s = false := by
  intro s
  induction s with
  | nil =>
    intro x hx hdead
    show decide (x ∈ d.accept_states) = false
    simpa using dead_not_accept d hx hdead
  | cons c rest ih =>
    intro x hx hdead
    show (match d.step x c with
      | none => false
      | some nxt => d.acceptsFrom nxt rest) = false
    cases hstep : d.step x c with
    | none => rfl
    | some nxt =>
      have hc : c ∈ d.alphabet := step_some_alphabet _ _ _ _ hstep
      rw [step_eq_getRow _ _ _ hc] at hstep
      obtain ⟨hnR, hndead⟩ := dead_step d hwf hempty hx hdead hc hstep
      exact ih nxt hnR hndead

theorem minCore_sim (d : DFA) (hwf : WellFormed d) (hempty : "" ∉ d.states) :
    ∀ s : List String, (∀ c ∈ s, c ∈ d.alphabet) → ∀ x, x ∈ minReachable d →
      (minimizeCore d).acceptsFrom (stateMapF d (minParts d) x) s = d.acceptsFrom x s := by
  intro s
  induction s with
  | nil =>
    intro _ x hx
    show decide (stateMapF d (minParts d) x ∈ (minimizeCore d).accept_states) =
      decide (x ∈ d.accept_states)
    by_cases hnd : stateMapF d (minParts d) x = "dead"
    · rw [hnd]
      have h1 : "dead" ∉ (minimizeCore d).accept_states := by
        rw [minCore_accept]
        intro hcon
        exact dead_notin_accAux d (minParts d) 0 (mem_pySorted.mp hcon)
      have h2 : x ∉ d.accept_states := dead_not_accept d hx hnd
      simp [h1, h2]
    · have := minCore_accept_iff d hwf hempty hx hnd
      exact decide_eq_decide.mpr this
  | cons c rest ih =>
    intro hs x hx
    have hc : c ∈ d.alphabet := hs c (by simp)
    have hrest : ∀ c2 ∈ rest, c2 ∈ d.alphabet := fun c2 h2 => hs c2 (by simp [h2])
    by_cases hnd : stateMapF d (minParts d) x = "dead"
    · rw [hnd]
      rw [minCore_dead_run d hwf hempty, orig_dead_run d hwf hempty (c :: rest) x hx hnd]
    · show (match (minimizeCore d).step (stateMapF d (minParts d) x) c with
        | none => false
        | some nxt => (minimizeCore d).acceptsFrom nxt rest) =
        (match d.step x c with
        | none => false
        | some nxt => d.acceptsFrom nxt rest)
      rw [minCore_step d hwf hempty hx hc hnd]
      rw [step_eq_getRow d x c hc]
      cases hxlk : alookup (getRow d.transitions x) c with
      | none => rfl
      | some t =>
        have htne : t ≠ "" := by
          intro hcon
          apply hempty
          rw [← hcon]
          exact target_mem_states d hwf hxlk
        have htR : t ∈ minReachable d := minReachable_closed d hx hc hxlk htne
        exact ih hrest t htR

theorem refineLoop_size (d : DFA) : ∀ (fuel : Nat) (ps : List (List String)),
    partsSize (refineLoop d fuel ps) = partsSize ps := by
  intro fuel
  induction fuel with
  | zero => intro ps; rfl
  | succ fuel ih =>
    intro ps
    show partsSize (if (refinePass d ps).2 then refineLoop d fuel (refinePass d ps).1
      else (refinePass d ps).1) = partsSize ps
    by_cases hch : (refinePass d ps).2
    · rw [if_pos hch, ih]
      exact refinePassGo_size d ps ps
    · rw [if_neg hch]
      exact refinePassGo_size d ps ps

theorem minNamesAux_length (d : DFA) (ps0 : List (List String)) :
    ∀ (l : List (List String)) (n : Nat), (minNamesAux d ps0 l n).length = l.length := by
  intro l
  induction l with
  | nil => intro n; rfl
  | cons p rest ih =>
    intro n
    show (newName d ps0 n p :: minNamesAux d ps0 rest (n+1)).length = _
    simp only [List.length_cons, ih]

theorem minimize_states_length (d : DFA) (hwf : WellFormed d) :
    (minimizeCore d).states.length ≤ d.states.length := by
  show (pySorted (minNewStates d (minParts d))).length ≤ d.states.length
  rw [length_pySorted]
  unfold minNewStates
  rw [minNamesAux_length]
  have h1 : (minParts d).length ≤ partsSize (minParts d) :=
    length_le_partsSize (minParts d) (minParts_inv d).1
  have h2 : partsSize (minParts d) = (minReachable d).length := by
    unfold minParts
    rw [refineLoop_size, minParts0_size]
  have h3 : (minReachable d).length ≤ d.states.length :=
    (List.subperm_of_subset (minReachable_nodup d)
      (fun x hx => minReachable_sub_states d hwf x hx)).length_le
  omega

/-- C4, counterexample.  The claim "the number of states of minimize(A) is at
most the number of states of A" (together with language equivalence) fails:
`minimize` explores transition targets without checking membership in
`states`, so a dangling transition inflates the partition list and the
rebuilt DFA has more states than the input. -/
theorem minimize_claim_counterexample :
    ¬((minimize c4cex).states.length ≤ c4cex.states.length) := by decide

/-- C4 (amended).  For every DFA satisfying the documented invariants
(start in states, transition targets in states, accept states among states)
and having no state named by the empty string (which the engine's string
truthiness conflates with a missing transition), `minimize` preserves the
accept/reject outcome of every string over the alphabet, and does not
increase the number of states. -/
theorem minimize_preserves_language (d : DFA) (hwf : WellFormed d)
    (hempty : "" ∉ d.states) (s : List String) (hs : ∀ c ∈ s, c ∈ d.alphabet) :
    (minimize d).accepts s = d.accepts s := by
  have hne : d.states ≠ [] := by
    intro hcon
    have := hwf.1
    rw [hcon] at this
    cases this
  unfold minimize
  rw [if_neg hne]
  show (minimizeCore d).acceptsFrom (minimizeCore d).start_state s = d.acceptsFrom d.start_state s
  have hstart : (minimizeCore d).start_state = stateMapF d (minParts d) d.start_state := rfl
  rw [hstart]
  exact minCore_sim d hwf hempty s hs d.start_state (minReachable_start d)

theorem minimize_length_le (d : DFA) (hwf : WellFormed d) :
    (minimize d).states.length ≤ d.states.length := by
  unfold minimize
  by_cases hne : d.states = []
  · rw [if_pos hne]
  · rw [if_neg hne]
    exact minimize_states_length d hwf

theorem minimize_accepts_amended (d : DFA) (hwf : WellFormed d) (hempty : "" ∉ d.states)
    (s : List String) (hs : ∀ c ∈ s, c ∈ d.alphabet) :
    (minimize d).accepts s = d.accepts s ∧
      (minimize d).states.length ≤ d.states.length :=
  ⟨minimize_preserves_language d hwf hempty s hs, minimize_length_le d hwf⟩

/-- The witness DFA for C4 (amended): two states, one reachable accept sink. -/
def c4wit : DFA :=
  { reasoning := ""
    states := ["a", "b"]
    alphabet := ["0"]
    transitions := [("a", [("0", "b")]), ("b", [("0", "b")])]
    start_state := "a"
    accept_states := ["b"] }

/-- Witness for C4 (amended): the minimized DFA agrees with the original on
the string "0" and is no larger. -/
theorem minimize_accepts_amended_witness :
    (minimize c4wit).accepts ["0"] = c4wit.accepts ["0"] ∧
      (minimize c4wit).states.length ≤ c4wit.states.length :=
  minimize_accepts_amended c4wit
    (by unfold WellFormed; decide) (by decide) ["0"] (by decide)

/-! ### `ProductConstructionEngine.combine` (`product.py` lines 119-179) -/

/-- `get_name(s1, s2) = f"{s1}|{s2}"`. -/
def pairName (p : String × String) : String := p.1 ++ "|" ++ p.2

/-- `transitions.get(cur, {}).get(char, "q_dead")`. -/
def pairNext (d : DFA) (x char : String) : String :=
  (alookup (getRow d.transitions x) char).getD "q_dead"

/-- One simultaneous product step. -/
def pairStep (d1 d2 : DFA) (p : String × String) (char : String) : String × String :=
  (pairNext d1 p.1 char, pairNext d2 p.2 char)

/-- Acceptance of a product pair under the boolean operation (`False` for any
operation other than AND/OR). -/
def combAccept (d1 d2 : DFA) (op : String) (p : String × String) : Bool :=
  if op = "AND" then decide (p.1 ∈ d1.accept_states) && decide (p.2 ∈ d2.accept_states)
  else if op = "OR" then decide (p.1 ∈ d1.accept_states) || decide (p.2 ∈ d2.accept_states)
  else false

/-- One product transition row (the `for char in alphabet` loop). -/
def combRow (d1 d2 : DFA) (alphabet : List String) (p : String × String) : Row :=
  alphabet.foldl (fun row char => aset row char (pairName (pairStep d1 d2 p char))) []

/-- The per-symbol enqueue check of the product BFS (visited is marked at
enqueue time). -/
def combEnq (d1 d2 : DFA) (cur : String × String)
    (vq : List (String × String) × List (String × String)) (char : String) :
    List (String × String) × List (String × String) :=
  let nxt := pairStep d1 d2 cur char
  if nxt ∉ vq.1 then (vq.1 ++ [nxt], vq.2 ++ [nxt]) else vq

/-- The `while queue` product loop, accumulating `new_states`,
`new_accept_states` and `new_transitions`, with explicit fuel. -/
def combBfs (d1 d2 : DFA) (op : String) (alphabet : List String) :
    Nat → List String → List String → Trans → List (String × String) →
      List (String × String) → List String × List String × Trans
  | 0, sts, accs, tr, _, _ => (sts, accs, tr)
  | _+1, sts, accs, tr, _, [] => (sts, accs, tr)
  | fuel+1, sts, accs, tr, visited, cur :: queue =>
    let nm := pairName cur
    let sts2 := if nm ∈ sts then sts else sts ++ [nm]
    let accs2 := if combAccept d1 d2 op cur = true ∧ nm ∉ accs then accs ++ [nm] else accs
    let tr2 := aset tr nm (combRow d1 d2 alphabet cur)
    let vq := alphabet.foldl (combEnq d1 d2 cur) (visited, queue)
    combBfs d1 d2 op alphabet fuel sts2 accs2 tr2 vq.1 vq.2

/-- The raw (pre-minimization) product DFA. -/
def rawProduct (d1 d2 : DFA) (op : String) : DFA :=
  let alphabet := pySorted d1.alphabet
  let start := (d1.start_state, d2.start_state)
  let r := combBfs d1 d2 op alphabet
    ((sumLens d1.transitions + 1) * (sumLens d2.transitions + 1) + 1) [] [] []
    [start] [start]
  { reasoning := "Combined (" ++ d1.reasoning ++ ") " ++ op ++ " (" ++ d2.reasoning ++ ")"
    states := pySorted r.1
    alphabet := alphabet
    transitions := r.2.2
    start_state := pairName (d1.start_state, d2.start_state)
    accept_states := pySorted r.2.1 }

/-- `ProductConstructionEngine.combine`: alphabet check, product BFS, then
immediate minimization. -/
def combine (d1 d2 : DFA) (op : String) : Except String DFA :=
  if (∀ x ∈ d1.alphabet, x ∈ d2.alphabet) ∧ (∀ x ∈ d2.alphabet, x ∈ d1.alphabet) then
    .ok (minimize (rawProduct d1 d2 op))
  else
    .error "Alphabet Mismatch"

/-- The counterexample pair for C1. -/
def c1A : DFA :=
  { reasoning := ""
    states := ["a"]
    alphabet := ["0"]
    transitions := [("a", [("0", "a")])]
    start_state := "a"
    accept_states := [] }

def c1B : DFA :=
  { reasoning := ""
    states := ["b"]
    alphabet := ["0"]
    transitions := []
    start_state := "b"
    accept_states := ["q_dead"] }

theorem bar_split : ∀ (a c : List Char), '|' ∉ a → '|' ∉ c → ∀ (b e : List Char),
    a ++ '|' :: b = c ++ '|' :: e → a = c ∧ b = e := by
  intro a
  induction a with
  | nil =>
    intro c ha hc b e h
    cases c with
    | nil =>
      simp only [List.nil_append] at h
      exact ⟨rfl, List.cons.inj h |>.2⟩
    | cons ch c2 =>
      simp only [List.nil_append, List.cons_append] at h
      have := (List.cons.inj h).1
      exact absurd (by rw [← this]; simp : ('|':Char) ∈ ch :: c2) hc
  | cons ch a2 ih =>
    intro c ha hc b e h
    cases c with
    | nil =>
      simp only [List.cons_append, List.nil_append] at h
      have := (List.cons.inj h).1
      exact absurd (by rw [this]; simp : ('|':Char) ∈ ch :: a2) ha
    | cons ch2 c2 =>
      simp only [List.cons_append] at h
      obtain ⟨h1, h2⟩ := List.cons.inj h
      have ha2 : '|' ∉ a2 := fun hh => ha (by simp [hh])
      have hc2 : '|' ∉ c2 := fun hh => hc (by simp [hh])
      obtain ⟨hac, hbe⟩ := ih c2 ha2 hc2 b e h2
      exact ⟨by rw [h1, hac], hbe⟩

theorem pairName_data (p : String × String) :
    (pairName p).data = p.1.data ++ '|' :: p.2.data := by
  unfold pairName
  rw [String.data_append, String.data_append]
  simp

theorem pairName_inj {p q : String × String} (hp : '|' ∉ p.1.data) (hq : '|' ∉ q.1.data)
    (h : pairName p = pairName q) : p = q := by
  have hd := congrArg String.data h
  rw [pairName_data, pairName_data] at hd
  obtain ⟨h1, h2⟩ := bar_split p.1.data q.1.data hp hq p.2.data q.2.data hd
  obtain ⟨a1, a2⟩ := p
  obtain ⟨b1, b2⟩ := q
  simp only at h1 h2
  have e1 : a1 = b1 := by
    cases ha : a1 with
    | mk l1 =>
      cases hb : b1 with
      | mk l2 =>
        rw [ha, hb] at h1
        simp only at h1
        rw [h1]
  have e2 : a2 = b2 := by
    cases ha : a2 with
    | mk l1 =>
      cases hb : b2 with
      | mk l2 =>
        rw [ha, hb] at h2
        simp only at h2
        rw [h2]
  rw [e1, e2]

theorem pairName_ne_empty (p : String × String) : pairName p ≠ "" := by
  intro hcon
  have := congrArg String.data hcon
  rw [pairName_data] at this
  cases hd : p.1.data with
  | nil => rw [hd] at this; simp at this
  | cons a t => rw [hd] at this; simp at this

theorem qdead_nobar : '|' ∉ ("q_dead" : String).data := by decide

theorem filter_notin_append {α : Type} [DecidableEq α] :
    ∀ (T : List α), T.Nodup → ∀ (t : α), t ∈ T → ∀ (v : List α), t ∉ v →
      (T.filter (fun x => decide (x ∉ v ++ [t]))).length + 1 =
        (T.filter (fun x => decide (x ∉ v))).length := by
  intro T
  induction T with
  | nil => intro _ t ht; cases ht
  | cons a T' ih =>
    intro hnd t htd v hv
    rw [List.filter_cons, List.filter_cons]
    rcases List.mem_cons.mp htd with rfl | htT'
    · have hat : t ∉ T' := (List.nodup_cons.mp hnd).1
      have hfeq : T'.filter (fun x => decide (x ∉ v ++ [t])) =
          T'.filter (fun x => decide (x ∉ v)) := by
        apply List.filter_congr
        intro x hx
        have hxa : x ≠ t := fun hh => hat (hh ▸ hx)
        simp [List.mem_append, hxa]
      have h1 : (decide (t ∉ v ++ [t])) = false := by simp
      have h2 : (decide (t ∉ v)) = true := by simpa using hv
      rw [h1, h2, if_neg (by simp), if_pos rfl, hfeq]
      simp
    · have hat : a ≠ t := fun hh => (List.nodup_cons.mp hnd).1 (hh ▸ htT')
      have ihe := ih (List.nodup_cons.mp hnd).2 t htT' v hv
      have hcond : (decide (a ∉ v ++ [t])) = (decide (a ∉ v)) := by
        simp [List.mem_append, hat]
      rw [hcond]
      cases hd : decide (a ∉ v) with
      | false =>
        rw [if_neg (by simp [hd]), if_neg (by simp [hd])]
        exact ihe
      | true =>
        rw [if_pos rfl, if_pos rfl]
        simp only [List.length_cons]
        omega

/-- Candidate pool of the product BFS: every enqueued pair is a pair of
transition targets or dead markers. -/
def pairCand (d1 d2 : DFA) : List (String × String) :=
  ((allTargets d1 ++ ["q_dead"]).dedup).product ((allTargets d2 ++ ["q_dead"]).dedup)

def combU (d1 d2 : DFA) (v : List (String × String)) : Nat :=
  ((pairCand d1 d2).filter (fun t => decide (t ∉ v))).length

theorem pairNext_cand (d : DFA) (x char : String) :
    pairNext d x char ∈ (allTargets d ++ ["q_dead"]).dedup := by
  rw [List.mem_dedup]
  unfold pairNext
  cases h : alookup (getRow d.transitions x) char with
  | none => simp
  | some t =>
    simp only [Option.getD_some]
    exact List.mem_append.mpr (Or.inl (target_mem_allTargets d h))

theorem pairStep_cand (d1 d2 : DFA) (p : String × String) (char : String) :
    pairStep d1 d2 p char ∈ pairCand d1 d2 := by
  unfold pairStep pairCand
  exact List.pair_mem_product.mpr ⟨pairNext_cand d1 p.1 char, pairNext_cand d2 p.2 char⟩

theorem combU_insert (d1 d2 : DFA) {t : String × String} (v : List (String × String))
    (ht : t ∈ pairCand d1 d2) (hv : t ∉ v) :
    combU d1 d2 (v ++ [t]) + 1 = combU d1 d2 v := by
  unfold combU
  have hnd : (pairCand d1 d2).Nodup :=
    (List.nodup_dedup _).product (List.nodup_dedup _)
  revert hnd ht
  generalize (pairCand d1 d2) = T
  intro htd hnd
  induction T with
  | nil => cases htd
  | cons a T2 ih =>
    rw [List.filter_cons, List.filter_cons]
    rcases List.mem_cons.mp htd with rfl | htT2
    · have hat : t ∉ T2 := (List.nodup_cons.mp hnd).1
      have hfeq : T2.filter (fun x => decide (x ∉ v ++ [t])) =
          T2.filter (fun x => decide (x ∉ v)) := by
        apply List.filter_congr
        intro x hx
        have hxa : x ≠ t := fun hh => hat (hh ▸ hx)
        simp [List.mem_append, hxa]
      have h1 : (decide (t ∉ v ++ [t])) = false := by simp
      have h2 : (decide (t ∉ v)) = true := by simpa using hv
      rw [h1, h2, if_neg (by simp), if_pos rfl, hfeq]
      simp
    · have hat : a ≠ t := fun hh => (List.nodup_cons.mp hnd).1 (hh ▸ htT2)
      have ihe := ih htT2 (List.nodup_cons.mp hnd).2
      have hcond : (decide (a ∉ v ++ [t])) = (decide (a ∉ v)) := by
        simp [List.mem_append, hat]
      rw [hcond]
      cases hd : decide (a ∉ v) with
      | false =>
        rw [if_neg (by simp [hd]), if_neg (by simp [hd])]
        exact ihe
      | true =>
        rw [if_pos rfl, if_pos rfl]
        simp only [List.length_cons]
        omega

theorem combU_le (d1 d2 : DFA) (v : List (String × String)) :
    combU d1 d2 v ≤ (sumLens d1.transitions + 1) * (sumLens d2.transitions + 1) := by
  unfold combU
  calc ((pairCand d1 d2).filter (fun t => decide (t ∉ v))).length
      ≤ (pairCand d1 d2).length := List.length_filter_le _ _
    _ ≤ (sumLens d1.transitions + 1) * (sumLens d2.transitions + 1) := by
        unfold pairCand
        rw [show ((allTargets d1 ++ ["q_dead"]).dedup.product
            ((allTargets d2 ++ ["q_dead"]).dedup)) =
          (allTargets d1 ++ ["q_dead"]).dedup ×ˢ (allTargets d2 ++ ["q_dead"]).dedup from rfl]
        rw [List.length_product]
        have h1 : ((allTargets d1 ++ ["q_dead"]).dedup).length ≤ sumLens d1.transitions + 1 := by
          calc ((allTargets d1 ++ ["q_dead"]).dedup).length
              ≤ (allTargets d1 ++ ["q_dead"]).length := (List.dedup_sublist _).length_le
            _ = sumLens d1.transitions + 1 := by
                rw [List.length_append, length_allTargets]
                rfl
        have h2 : ((allTargets d2 ++ ["q_dead"]).dedup).length ≤ sumLens d2.transitions + 1 := by
          calc ((allTargets d2 ++ ["q_dead"]).dedup).length
              ≤ (allTargets d2 ++ ["q_dead"]).length := (List.dedup_sublist _).length_le
            _ = sumLens d2.transitions + 1 := by
                rw [List.length_append, length_allTargets]
                rfl
        exact Nat.mul_le_mul h1 h2

/-- Components of every product pair are declared states or the dead marker. -/
def PairOK (d1 d2 : DFA) (p : String × String) : Prop :=
  (p.1 ∈ d1.states ∨ p.1 = "q_dead") ∧ (p.2 ∈ d2.states ∨ p.2 = "q_dead")

theorem pairNext_ok (d : DFA) (hwf : WellFormed d) (x char : String) :
    pairNext d x char ∈ d.states ∨ pairNext d x char = "q_dead" := by
  unfold pairNext
  cases h : alookup (getRow d.transitions x) char with
  | none => exact Or.inr rfl
  | some t => exact Or.inl (target_mem_states d hwf h)

theorem pairStep_ok (d1 d2 : DFA) (hwf1 : WellFormed d1) (hwf2 : WellFormed d2)
    (p : String × String) (char : String) : PairOK d1 d2 (pairStep d1 d2 p char) :=
  ⟨pairNext_ok d1 hwf1 p.1 char, pairNext_ok d2 hwf2 p.2 char⟩

theorem pairOK_nobar (d1 d2 : DFA) (hbar : ∀ st ∈ d1.states, '|' ∉ st.data)
    {p : String × String} (hp : PairOK d1 d2 p) : '|' ∉ p.1.data := by
  rcases hp.1 with h | h
  · exact hbar p.1 h
  · rw [h]
    exact qdead_nobar

theorem combEnq_eq (d1 d2 : DFA) (cur : String × String)
    (v q : List (String × String)) (char : String) :
    combEnq d1 d2 cur (v, q) char =
      if pairStep d1 d2 cur char ∉ v
      then (v ++ [pairStep d1 d2 cur char], q ++ [pairStep d1 d2 cur char])
      else (v, q) := rfl

theorem combFold_mono (d1 d2 : DFA) (cur : String × String) :
    ∀ (chars : List String) (v q : List (String × String)) (x : String × String), x ∈ v →
      x ∈ (chars.foldl (combEnq d1 d2 cur) (v, q)).1 := by
  intro chars
  induction chars with
  | nil => intro v q x hx; exact hx
  | cons c rest ih =>
    intro v q x hx
    simp only [List.foldl_cons]
    rw [combEnq_eq]
    by_cases hcond : pairStep d1 d2 cur c ∉ v
    · rw [if_pos hcond]
      exact ih _ _ x (by simp [hx])
    · rw [if_neg hcond]
      exact ih _ _ x hx

theorem combFold_delta (d1 d2 : DFA) (cur : String × String) :
    ∀ (chars : List String) (v q : List (String × String)), v.Nodup →
      ∃ δ, chars.foldl (combEnq d1 d2 cur) (v, q) = (v ++ δ, q ++ δ) ∧ (v ++ δ).Nodup ∧
        (∀ t ∈ δ, ∃ char ∈ chars, t = pairStep d1 d2 cur char) := by
  intro chars
  induction chars with
  | nil =>
    intro v q hv
    exact ⟨[], by simp, by simpa using hv, by simp⟩
  | cons c rest ih =>
    intro v q hv
    simp only [List.foldl_cons]
    rw [combEnq_eq]
    by_cases hcond : pairStep d1 d2 cur c ∉ v
    · rw [if_pos hcond]
      have hvnd : (v ++ [pairStep d1 d2 cur c]).Nodup := by
        rw [List.nodup_append]
        exact ⟨hv, List.nodup_singleton _, by simpa using hcond⟩
      obtain ⟨δ, heq, hnd, htg⟩ := ih (v ++ [pairStep d1 d2 cur c])
        (q ++ [pairStep d1 d2 cur c]) hvnd
      refine ⟨pairStep d1 d2 cur c :: δ, ?_, ?_, ?_⟩
      · rw [heq]
        simp
      · simpa using hnd
      · intro t ht
        rcases List.mem_cons.mp ht with rfl | htδ
        · exact ⟨c, by simp, rfl⟩
        · obtain ⟨char, hchar, heq2⟩ := htg t htδ
          exact ⟨char, by simp [hchar], heq2⟩
    · rw [if_neg hcond]
      obtain ⟨δ, heq, hnd, htg⟩ := ih v q hv
      refine ⟨δ, heq, hnd, ?_⟩
      intro t ht
      obtain ⟨char, hchar, heq2⟩ := htg t ht
      exact ⟨char, by simp [hchar], heq2⟩

theorem combFold_cover (d1 d2 : DFA) (cur : String × String) :
    ∀ (chars : List String) (v q : List (String × String)),
      ∀ char ∈ chars, pairStep d1 d2 cur char ∈ (chars.foldl (combEnq d1 d2 cur) (v, q)).1 := by
  intro chars
  induction chars with
  | nil => intro v q char hchar; cases hchar
  | cons c rest ih =>
    intro v q char hchar
    simp only [List.foldl_cons]
    rw [combEnq_eq]
    rcases List.mem_cons.mp hchar with rfl | hrest
    · by_cases hcond : pairStep d1 d2 cur char ∉ v
      · rw [if_pos hcond]
        exact combFold_mono d1 d2 cur rest _ _ _ (by simp)
      · rw [if_neg hcond]
        push_neg at hcond
        exact combFold_mono d1 d2 cur rest _ _ _ hcond
    · by_cases hcond : pairStep d1 d2 cur c ∉ v
      · rw [if_pos hcond]
        exact ih _ _ char hrest
      · rw [if_neg hcond]
        exact ih _ _ char hrest

theorem combFold_phi (d1 d2 : DFA) (cur : String × String) :
    ∀ (chars : List String) (v q : List (String × String)),
      (chars.foldl (combEnq d1 d2 cur) (v, q)).2.length +
          combU d1 d2 (chars.foldl (combEnq d1 d2 cur) (v, q)).1 =
        q.length + combU d1 d2 v := by
  intro chars
  induction chars with
  | nil => intro v q; rfl
  | cons c rest ih =>
    intro v q
    simp only [List.foldl_cons]
    rw [combEnq_eq]
    by_cases hcond : pairStep d1 d2 cur c ∉ v
    · rw [if_pos hcond]
      rw [ih]
      have hmem : pairStep d1 d2 cur c ∈ pairCand d1 d2 := pairStep_cand d1 d2 cur c
      have := combU_insert d1 d2 v hmem hcond
      simp only [List.length_append, List.length_singleton]
      omega
    · rw [if_neg hcond]
      exact ih v q

theorem mem_aset {β : Type} : ∀ (t : List (String × β)) (key : String) (v : β) (e : String × β),
    e ∈ aset t key v → e ∈ t ∨ e = (key, v) := by
  intro t
  induction t with
  | nil =>
    intro key v e he
    simp only [aset, List.mem_singleton] at he
    exact Or.inr he
  | cons p rest ih =>
    intro key v e he
    obtain ⟨k, w⟩ := p
    by_cases hk : k = key
    · subst hk
      simp only [aset, if_pos rfl] at he
      rcases List.mem_cons.mp he with rfl | h
      · exact Or.inr rfl
      · exact Or.inl (List.mem_cons_of_mem _ h)
    · simp only [aset, if_neg hk] at he
      rcases List.mem_cons.mp he with rfl | h
      · exact Or.inl (List.mem_cons_self _ _)
      · rcases ih key v e h with h2 | h2
        · exact Or.inl (List.mem_cons_of_mem _ h2)
        · exact Or.inr h2

theorem mem_fold_aset {β : Type} (f : String → β) :
    ∀ (chars : List String) (r0 : List (String × β)) (e : String × β),
      e ∈ chars.foldl (fun r c => aset r c (f c)) r0 → e ∈ r0 ∨ ∃ c ∈ chars, e = (c, f c) := by
  intro chars
  induction chars with
  | nil => intro r0 e he; exact Or.inl he
  | cons c rest ih =>
    intro r0 e he
    simp only [List.foldl_cons] at he
    rcases ih (aset r0 c (f c)) e he with h | h
    · rcases mem_aset r0 c (f c) e h with h2 | h2
      · exact Or.inl h2
      · exact Or.inr ⟨c, List.mem_cons_self _ _, h2⟩
    · obtain ⟨c2, hc2, he2⟩ := h
      exact Or.inr ⟨c2, List.mem_cons_of_mem _ hc2, he2⟩

theorem alookup_combRow (d1 d2 : DFA) (alphabet : List String) (p : String × String)
    (char : String) :
    alookup (combRow d1 d2 alphabet p) char =
      if char ∈ alphabet then some (pairName (pairStep d1 d2 p char)) else none := by
  unfold combRow
  rw [alookup_build_fold (fun c => pairName (pairStep d1 d2 p c)) alphabet [] char]
  split <;> rfl

theorem mem_combRow (d1 d2 : DFA) (alphabet : List String) (p : String × String)
    {e : String × String} (he : e ∈ combRow d1 d2 alphabet p) :
    ∃ c ∈ alphabet, e = (c, pairName (pairStep d1 d2 p c)) := by
  unfold combRow at he
  rcases mem_fold_aset (fun c => pairName (pairStep d1 d2 p c)) alphabet [] e he with h | h
  · cases h
  · exact h

theorem combBfs_eq (d1 d2 : DFA) (op : String) (alphabet : List String) (fuel : Nat)
    (sts accs : List String) (tr : Trans) (visited : List (String × String))
    (cur : String × String) (queue : List (String × String)) :
    combBfs d1 d2 op alphabet (fuel + 1) sts accs tr visited (cur :: queue) =
      combBfs d1 d2 op alphabet fuel
        (if pairName cur ∈ sts then sts else sts ++ [pairName cur])
        (if combAccept d1 d2 op cur = true ∧ pairName cur ∉ accs
          then accs ++ [pairName cur] else accs)
        (aset tr (pairName cur) (combRow d1 d2 alphabet cur))
        (alphabet.foldl (combEnq d1 d2 cur) (visited, queue)).1
        (alphabet.foldl (combEnq d1 d2 cur) (visited, queue)).2 := rfl

theorem combBfs_done (d1 d2 : DFA) (op : String) (alphabet : List String)
    (hbar : ∀ st ∈ d1.states, '|' ∉ st.data)
    (visited : List (String × String)) (sts accs : List String) (tr : Trans)
    (hok : ∀ p ∈ visited, PairOK d1 d2 p)
    (hsts : ∀ p ∈ visited, pairName p ∈ sts)
    (hstsS : ∀ nm ∈ sts, ∃ p, p ∈ visited ∧ pairName p = nm)
    (hacc : ∀ p ∈ visited, combAccept d1 d2 op p = true → pairName p ∈ accs)
    (haccS : ∀ nm ∈ accs, ∃ p, p ∈ visited ∧ pairName p = nm ∧ combAccept d1 d2 op p = true)
    (htr : ∀ p ∈ visited, alookup tr (pairName p) = some (combRow d1 d2 alphabet p))
    (htrS : ∀ e ∈ tr, ∃ p, p ∈ visited ∧ e.1 = pairName p ∧ e.2 = combRow d1 d2 alphabet p)
    (hcl : ∀ p ∈ visited, ∀ char ∈ alphabet, pairStep d1 d2 p char ∈ visited) :
    ∃ V : List (String × String),
      (∀ p ∈ visited, p ∈ V) ∧
      (∀ p ∈ V, PairOK d1 d2 p) ∧
      (∀ p ∈ V, ∀ char ∈ alphabet, pairStep d1 d2 p char ∈ V) ∧
      (∀ p ∈ V, pairName p ∈ sts) ∧
      (∀ nm ∈ sts, ∃ p, p ∈ V ∧ pairName p = nm) ∧
      (∀ p ∈ V, alookup tr (pairName p) = some (combRow d1 d2 alphabet p)) ∧
      (∀ e ∈ tr, ∃ p, p ∈ V ∧ e.1 = pairName p ∧ e.2 = combRow d1 d2 alphabet p) ∧
      (∀ p ∈ V, (pairName p ∈ accs ↔ combAccept d1 d2 op p = true)) ∧
      (∀ nm ∈ accs, ∃ p, p ∈ V ∧ pairName p = nm) := by
  refine ⟨visited, fun p hp => hp, hok, hcl, hsts, hstsS, htr, htrS, ?_, ?_⟩
  · intro p hp
    constructor
    · intro hmem
      obtain ⟨q, hqv, hqn, hqa⟩ := haccS (pairName p) hmem
      have heq : q = p :=
        pairName_inj (pairOK_nobar d1 d2 hbar (hok q hqv)) (pairOK_nobar d1 d2 hbar (hok p hp)) hqn
      exact heq ▸ hqa
    · exact hacc p hp
  · intro nm hnm
    obtain ⟨p, hpv, hpn, -⟩ := haccS nm hnm
    exact ⟨p, hpv, hpn⟩

theorem combBfs_spec (d1 d2 : DFA) (op : String) (alphabet : List String)
    (hwf1 : WellFormed d1) (hwf2 : WellFormed d2)
    (hbar : ∀ st ∈ d1.states, '|' ∉ st.data) :
    ∀ (fuel : Nat) (visited queue : List (String × String))
      (sts accs : List String) (tr : Trans) (r : List String × List String × Trans),
      combBfs d1 d2 op alphabet fuel sts accs tr visited queue = r →
      queue.length + combU d1 d2 visited ≤ fuel →
      visited.Nodup →
      queue.Nodup →
      (∀ p ∈ queue, p ∈ visited) →
      (∀ p ∈ visited, PairOK d1 d2 p) →
      (∀ p ∈ visited, p ∉ queue → pairName p ∈ sts) →
      (∀ nm ∈ sts, ∃ p, p ∈ visited ∧ p ∉ queue ∧ pairName p = nm) →
      (∀ p ∈ visited, p ∉ queue → combAccept d1 d2 op p = true → pairName p ∈ accs) →
      (∀ nm ∈ accs, ∃ p, p ∈ visited ∧ p ∉ queue ∧ pairName p = nm ∧
        combAccept d1 d2 op p = true) →
      (∀ p ∈ visited, p ∉ queue →
        alookup tr (pairName p) = some (combRow d1 d2 alphabet p)) →
      (∀ e ∈ tr, ∃ p, p ∈ visited ∧ p ∉ queue ∧ e.1 = pairName p ∧
        e.2 = combRow d1 d2 alphabet p) →
      (∀ p ∈ visited, p ∉ queue → ∀ char ∈ alphabet, pairStep d1 d2 p char ∈ visited) →
      ∃ V : List (String × String),
        (∀ p ∈ visited, p ∈ V) ∧
        (∀ p ∈ V, PairOK d1 d2 p) ∧
        (∀ p ∈ V, ∀ char ∈ alphabet, pairStep d1 d2 p char ∈ V) ∧
        (∀ p ∈ V, pairName p ∈ r.1) ∧
        (∀ nm ∈ r.1, ∃ p, p ∈ V ∧ pairName p = nm) ∧
        (∀ p ∈ V, alookup r.2.2 (pairName p) = some (combRow d1 d2 alphabet p)) ∧
        (∀ e ∈ r.2.2, ∃ p, p ∈ V ∧ e.1 = pairName p ∧ e.2 = combRow d1 d2 alphabet p) ∧
        (∀ p ∈ V, (pairName p ∈ r.2.1 ↔ combAccept d1 d2 op p = true)) ∧
        (∀ nm ∈ r.2.1, ∃ p, p ∈ V ∧ pairName p = nm) := by
  intro fuel
  induction fuel with
  | zero =>
    intro visited queue sts accs tr r hr hfuel hvnd hqnd hqv hok hsts hstsS hacc haccS htr
      htrS hcl
    have hq : queue = [] := by
      have : queue.length = 0 := by omega
      exact List.length_eq_zero.mp this
    subst hq
    subst hr
    exact combBfs_done d1 d2 op alphabet hbar visited sts accs tr hok
      (fun p hp => hsts p hp (List.not_mem_nil p))
      (fun nm hnm => (hstsS nm hnm).imp fun p hp => ⟨hp.1, hp.2.2⟩)
      (fun p hp => hacc p hp (List.not_mem_nil p))
      (fun nm hnm => (haccS nm hnm).imp fun p hp => ⟨hp.1, hp.2.2.1, hp.2.2.2⟩)
      (fun p hp => htr p hp (List.not_mem_nil p))
      (fun e he => (htrS e he).imp fun p hp => ⟨hp.1, hp.2.2.1, hp.2.2.2⟩)
      (fun p hp => hcl p hp (List.not_mem_nil p))
  | succ fuel ih =>
    intro visited queue sts accs tr r hr hfuel hvnd hqnd hqv hok hsts hstsS hacc haccS htr
      htrS hcl
    cases queue with
    | nil =>
      subst hr
      exact combBfs_done d1 d2 op alphabet hbar visited sts accs tr hok
        (fun p hp => hsts p hp (List.not_mem_nil p))
        (fun nm hnm => (hstsS nm hnm).imp fun p hp => ⟨hp.1, hp.2.2⟩)
        (fun p hp => hacc p hp (List.not_mem_nil p))
        (fun nm hnm => (haccS nm hnm).imp fun p hp => ⟨hp.1, hp.2.2.1, hp.2.2.2⟩)
        (fun p hp => htr p hp (List.not_mem_nil p))
        (fun e he => (htrS e he).imp fun p hp => ⟨hp.1, hp.2.2.1, hp.2.2.2⟩)
        (fun p hp => hcl p hp (List.not_mem_nil p))
    | cons cur rest =>
      have hcurv : cur ∈ visited := hqv cur (List.mem_cons_self _ _)
      have hcur_rest : cur ∉ rest := (List.nodup_cons.mp hqnd).1
      have hrest_nd : rest.Nodup := (List.nodup_cons.mp hqnd).2
      have hinj : ∀ p, PairOK d1 d2 p → ∀ q, PairOK d1 d2 q → pairName p = pairName q →
          p = q := fun p hp q hq heq =>
        pairName_inj (pairOK_nobar d1 d2 hbar hp) (pairOK_nobar d1 d2 hbar hq) heq
      have hnm_sts : pairName cur ∉ sts := by
        intro hmem
        obtain ⟨p, hpv, hpq, hpn⟩ := hstsS (pairName cur) hmem
        have heq : p = cur := hinj p (hok p hpv) cur (hok cur hcurv) hpn
        subst heq
        exact hpq (List.mem_cons_self _ _)
      have hnm_accs : pairName cur ∉ accs := by
        intro hmem
        obtain ⟨p, hpv, hpq, hpn, -⟩ := haccS (pairName cur) hmem
        have heq : p = cur := hinj p (hok p hpv) cur (hok cur hcurv) hpn
        subst heq
        exact hpq (List.mem_cons_self _ _)
      obtain ⟨δ, hδ, hδnd, hδtg⟩ := combFold_delta d1 d2 cur alphabet visited rest hvnd
      obtain ⟨-, hδnd2, hδdisj⟩ := List.nodup_append.mp hδnd
      have hδok : ∀ p ∈ δ, PairOK d1 d2 p := by
        intro p hp
        obtain ⟨char, -, heq⟩ := hδtg p hp
        exact heq ▸ pairStep_ok d1 d2 hwf1 hwf2 cur char
      have hphi := combFold_phi d1 d2 cur alphabet visited rest
      rw [hδ] at hphi
      have hcurp : cur ∈ visited ++ δ ∧ cur ∉ rest ++ δ := by
        refine ⟨List.mem_append_left _ hcurv, ?_⟩
        intro hmem
        rcases List.mem_append.mp hmem with h | h
        · exact hcur_rest h
        · exact hδdisj hcurv h
      have hpers : ∀ p, p ∈ visited → p ∉ (cur :: rest) → p ∈ visited ++ δ ∧ p ∉ rest ++ δ := by
        intro p hpv hpq
        refine ⟨List.mem_append_left _ hpv, ?_⟩
        intro hmem
        rcases List.mem_append.mp hmem with h | h
        · exact hpq (List.mem_cons_of_mem _ h)
        · exact hδdisj hpv h
      have hproc : ∀ p, p ∈ visited ++ δ → p ∉ rest ++ δ →
          (p ∈ visited ∧ p ∉ (cur :: rest) ∧ p ≠ cur) ∨ p = cur := by
        intro p hpv hpq
        rcases List.mem_append.mp hpv with hpv2 | hpδ
        · by_cases hpc : p = cur
          · exact Or.inr hpc
          · refine Or.inl ⟨hpv2, ?_, hpc⟩
            intro hpq2
            rcases List.mem_cons.mp hpq2 with h | h
            · exact hpc h
            · exact hpq (List.mem_append_left _ h)
        · exact absurd (List.mem_append_right _ hpδ) hpq
      rw [combBfs_eq, if_neg hnm_sts, hδ] at hr
      have hfuel2 : (rest ++ δ).length + combU d1 d2 (visited ++ δ) ≤ fuel := by
        rw [hphi]
        simp only [List.length_cons] at hfuel
        omega
      have hq2nd : (rest ++ δ).Nodup := by
        rw [List.nodup_append]
        exact ⟨hrest_nd, hδnd2, fun a ha hb =>
          hδdisj (hqv a (List.mem_cons_of_mem _ ha)) hb⟩
      have hq2v : ∀ p ∈ rest ++ δ, p ∈ visited ++ δ := by
        intro p hp
        rcases List.mem_append.mp hp with h | h
        · exact List.mem_append_left _ (hqv p (List.mem_cons_of_mem _ h))
        · exact List.mem_append_right _ h
      have hok2 : ∀ p ∈ visited ++ δ, PairOK d1 d2 p := by
        intro p hp
        rcases List.mem_append.mp hp with h | h
        · exact hok p h
        · exact hδok p h
      have hsts2 : ∀ p ∈ visited ++ δ, p ∉ rest ++ δ → pairName p ∈ sts ++ [pairName cur] := by
        intro p hpv hpq
        rcases hproc p hpv hpq with ⟨h1, h2, -⟩ | heq
        · exact List.mem_append_left _ (hsts p h1 h2)
        · subst heq
          exact List.mem_append_right _ (List.mem_singleton.mpr rfl)
      have hstsS2 : ∀ nm ∈ sts ++ [pairName cur], ∃ p, p ∈ visited ++ δ ∧ p ∉ rest ++ δ ∧
          pairName p = nm := by
        intro nm hnm
        rcases List.mem_append.mp hnm with h | h
        · obtain ⟨p, hpv, hpq, hpn⟩ := hstsS nm h
          obtain ⟨h1, h2⟩ := hpers p hpv hpq
          exact ⟨p, h1, h2, hpn⟩
        · exact ⟨cur, hcurp.1, hcurp.2, (List.mem_singleton.mp h).symm ▸ rfl⟩
      have hacc2 : ∀ p ∈ visited ++ δ, p ∉ rest ++ δ → combAccept d1 d2 op p = true →
          pairName p ∈ (if combAccept d1 d2 op cur = true ∧ pairName cur ∉ accs
            then accs ++ [pairName cur] else accs) := by
        intro p hpv hpq hpa
        rcases hproc p hpv hpq with ⟨h1, h2, -⟩ | heq
        · have hold := hacc p h1 h2 hpa
          by_cases hja : combAccept d1 d2 op cur = true ∧ pairName cur ∉ accs
          · rw [if_pos hja]
            exact List.mem_append_left _ hold
          · rw [if_neg hja]
            exact hold
        · subst heq
          rw [if_pos ⟨hpa, hnm_accs⟩]
          exact List.mem_append_right _ (List.mem_singleton.mpr rfl)
      have haccS2 : ∀ nm ∈ (if combAccept d1 d2 op cur = true ∧ pairName cur ∉ accs
            then accs ++ [pairName cur] else accs), ∃ p, p ∈ visited ++ δ ∧ p ∉ rest ++ δ ∧
          pairName p = nm ∧ combAccept d1 d2 op p = true := by
        intro nm hnm
        have hold : nm ∈ accs → ∃ p, p ∈ visited ++ δ ∧ p ∉ rest ++ δ ∧
            pairName p = nm ∧ combAccept d1 d2 op p = true := by
          intro h
          obtain ⟨p, hpv, hpq, hpn, hpa⟩ := haccS nm h
          obtain ⟨h1, h2⟩ := hpers p hpv hpq
          exact ⟨p, h1, h2, hpn, hpa⟩
        by_cases hja : combAccept d1 d2 op cur = true ∧ pairName cur ∉ accs
        · rw [if_pos hja] at hnm
          rcases List.mem_append.mp hnm with h | h
          · exact hold h
          · exact ⟨cur, hcurp.1, hcurp.2, (List.mem_singleton.mp h).symm ▸ rfl, hja.1⟩
        · rw [if_neg hja] at hnm
          exact hold hnm
      have htr2 : ∀ p ∈ visited ++ δ, p ∉ rest ++ δ →
          alookup (aset tr (pairName cur) (combRow d1 d2 alphabet cur)) (pairName p) =
            some (combRow d1 d2 alphabet p) := by
        intro p hpv hpq
        rcases hproc p hpv hpq with ⟨h1, h2, h3⟩ | heq
        · have hne : pairName p ≠ pairName cur := by
            intro hcon
            exact h3 (hinj p (hok p h1) cur (hok cur hcurv) hcon)
          rw [alookup_aset_ne _ _ hne]
          exact htr p h1 h2
        · subst heq
          exact alookup_aset_self _ _ _
      have htrS2 : ∀ e ∈ aset tr (pairName cur) (combRow d1 d2 alphabet cur),
          ∃ p, p ∈ visited ++ δ ∧ p ∉ rest ++ δ ∧ e.1 = pairName p ∧
            e.2 = combRow d1 d2 alphabet p := by
        intro e he
        rcases mem_aset tr (pairName cur) (combRow d1 d2 alphabet cur) e he with h | h
        · obtain ⟨p, hpv, hpq, he1, he2⟩ := htrS e h
          obtain ⟨h1, h2⟩ := hpers p hpv hpq
          exact ⟨p, h1, h2, he1, he2⟩
        · subst h
          exact ⟨cur, hcurp.1, hcurp.2, rfl, rfl⟩
      have hcl2 : ∀ p ∈ visited ++ δ, p ∉ rest ++ δ → ∀ char ∈ alphabet,
          pairStep d1 d2 p char ∈ visited ++ δ := by
        intro p hpv hpq char hchar
        rcases hproc p hpv hpq with ⟨h1, h2, -⟩ | heq
        · exact List.mem_append_left _ (hcl p h1 h2 char hchar)
        · subst heq
          have := combFold_cover d1 d2 p alphabet visited rest char hchar
          rw [hδ] at this
          exact this
      obtain ⟨V, hV1, hV2, hV3, hV4, hV5, hV6, hV7, hV8, hV9⟩ :=
        ih (visited ++ δ) (rest ++ δ) (sts ++ [pairName cur])
          (if combAccept d1 d2 op cur = true ∧ pairName cur ∉ accs
            then accs ++ [pairName cur] else accs)
          (aset tr (pairName cur) (combRow d1 d2 alphabet cur)) r hr hfuel2 hδnd hq2nd
          hq2v hok2 hsts2 hstsS2 hacc2 haccS2 htr2 htrS2 hcl2
      exact ⟨V, fun p hp => hV1 p (List.mem_append_left _ hp), hV2, hV3, hV4, hV5, hV6,
        hV7, hV8, hV9⟩

/-- The product BFS result at its `combine` call site. -/
def prodBfs (d1 d2 : DFA) (op : String) : List String × List String × Trans :=
  combBfs d1 d2 op (pySorted d1.alphabet)
    ((sumLens d1.transitions + 1) * (sumLens d2.transitions + 1) + 1) [] [] []
    [(d1.start_state, d2.start_state)] [(d1.start_state, d2.start_state)]

theorem rawProduct_states (d1 d2 : DFA) (op : String) :
    (rawProduct d1 d2 op).states = pySorted (prodBfs d1 d2 op).1 := rfl

theorem rawProduct_accept (d1 d2 : DFA) (op : String) :
    (rawProduct d1 d2 op).accept_states = pySorted (prodBfs d1 d2 op).2.1 := rfl

theorem rawProduct_trans (d1 d2 : DFA) (op : String) :
    (rawProduct d1 d2 op).transitions = (prodBfs d1 d2 op).2.2 := rfl

theorem rawProduct_start (d1 d2 : DFA) (op : String) :
    (rawProduct d1 d2 op).start_state = pairName (d1.start_state, d2.start_state) := rfl

theorem rawProduct_alphabet (d1 d2 : DFA) (op : String) :
    (rawProduct d1 d2 op).alphabet = pySorted d1.alphabet := rfl

theorem rawProduct_spec (d1 d2 : DFA) (op : String)
    (hwf1 : WellFormed d1) (hwf2 : WellFormed d2)
    (hbar : ∀ st ∈ d1.states, '|' ∉ st.data) :
    ∃ V : List (String × String),
      (d1.start_state, d2.start_state) ∈ V ∧
      (∀ p ∈ V, PairOK d1 d2 p) ∧
      (∀ p ∈ V, ∀ char ∈ pySorted d1.alphabet, pairStep d1 d2 p char ∈ V) ∧
      (∀ p ∈ V, pairName p ∈ (rawProduct d1 d2 op).states) ∧
      (∀ nm ∈ (rawProduct d1 d2 op).states, ∃ p, p ∈ V ∧ pairName p = nm) ∧
      (∀ p ∈ V, alookup (rawProduct d1 d2 op).transitions (pairName p) =
        some (combRow d1 d2 (pySorted d1.alphabet) p)) ∧
      (∀ e ∈ (rawProduct d1 d2 op).transitions, ∃ p, p ∈ V ∧ e.1 = pairName p ∧
        e.2 = combRow d1 d2 (pySorted d1.alphabet) p) ∧
      (∀ p ∈ V, (pairName p ∈ (rawProduct d1 d2 op).accept_states ↔
        combAccept d1 d2 op p = true)) ∧
      (∀ nm ∈ (rawProduct d1 d2 op).accept_states, ∃ p, p ∈ V ∧ pairName p = nm) := by
  have hstart_ok : PairOK d1 d2 (d1.start_state, d2.start_state) :=
    ⟨Or.inl hwf1.1, Or.inl hwf2.1⟩
  obtain ⟨V, hV1, hV2, hV3, hV4, hV5, hV6, hV7, hV8, hV9⟩ :=
    combBfs_spec d1 d2 op (pySorted d1.alphabet) hwf1 hwf2 hbar
      ((sumLens d1.transitions + 1) * (sumLens d2.transitions + 1) + 1)
      [(d1.start_state, d2.start_state)] [(d1.start_state, d2.start_state)] [] [] []
      (prodBfs d1 d2 op) rfl
      (by
        have := combU_le d1 d2 [(d1.start_state, d2.start_state)]
        simp only [List.length_singleton]
        omega)
      (List.nodup_singleton _) (List.nodup_singleton _)
      (fun p hp => hp)
      (fun p hp => (List.mem_singleton.mp hp) ▸ hstart_ok)
      (fun p hp hnp => absurd hp hnp)
      (fun nm hnm => absurd hnm (List.not_mem_nil nm))
      (fun p hp hnp => absurd hp hnp)
      (fun nm hnm => absurd hnm (List.not_mem_nil nm))
      (fun p hp hnp => absurd hp hnp)
      (fun e he => absurd he (List.not_mem_nil e))
      (fun p hp hnp => absurd hp hnp)
  refine ⟨V, hV1 _ (List.mem_singleton.mpr rfl), hV2, hV3, ?_, ?_, ?_, ?_, ?_, ?_⟩
  · intro p hp
    rw [rawProduct_states, mem_pySorted]
    exact hV4 p hp
  · intro nm hnm
    rw [rawProduct_states, mem_pySorted] at hnm
    exact hV5 nm hnm
  · intro p hp
    rw [rawProduct_trans]
    exact hV6 p hp
  · intro e he
    rw [rawProduct_trans] at he
    exact hV7 e he
  · intro p hp
    rw [rawProduct_accept, mem_pySorted]
    exact hV8 p hp
  · intro nm hnm
    rw [rawProduct_accept, mem_pySorted] at hnm
    exact hV9 nm hnm

theorem rawProduct_wf (d1 d2 : DFA) (op : String)
    (hwf1 : WellFormed d1) (hwf2 : WellFormed d2)
    (hbar : ∀ st ∈ d1.states, '|' ∉ st.data) :
    WellFormed (rawProduct d1 d2 op) ∧ "" ∉ (rawProduct d1 d2 op).states := by
  obtain ⟨V, hstart, hok, hcl, hsts, hstsS, htr, htrS, hacc, haccS⟩ :=
    rawProduct_spec d1 d2 op hwf1 hwf2 hbar
  refine ⟨⟨?_, ?_, ?_⟩, ?_⟩
  · rw [rawProduct_start]
    exact hsts _ hstart
  · intro e he en hen
    obtain ⟨p, hpV, he1, he2⟩ := htrS e he
    rw [he2] at hen
    obtain ⟨c, hc, hen2⟩ := mem_combRow d1 d2 (pySorted d1.alphabet) p hen
    rw [hen2]
    exact hsts _ (hcl p hpV c hc)
  · intro a ha
    obtain ⟨p, hpV, hpn⟩ := haccS a ha
    exact hpn ▸ hsts p hpV
  · intro hmem
    obtain ⟨p, -, hpn⟩ := hstsS "" hmem
    exact pairName_ne_empty p hpn

/-- The simultaneous simulation of both operands (each component follows
`transitions.get(state, \x7b\x7d).get(char, "q_dead")`). -/
def pairRun (d1 d2 : DFA) (p : String × String) (s : List String) : String × String :=
  s.foldl (pairStep d1 d2) p

/-- One component of the simultaneous simulation. -/
def sinkRun (d : DFA) (x : String) (s : List String) : String :=
  s.foldl (pairNext d) x

theorem pairRun_components (d1 d2 : DFA) :
    ∀ (s : List String) (p : String × String),
      pairRun d1 d2 p s = (sinkRun d1 p.1 s, sinkRun d2 p.2 s) := by
  intro s
  induction s with
  | nil => intro p; rfl
  | cons c rest ih =>
    intro p
    show pairRun d1 d2 (pairStep d1 d2 p c) rest = _
    rw [ih]
    rfl

theorem rawProduct_runFrom (d1 d2 : DFA) (op : String)
    (hwf1 : WellFormed d1) (hwf2 : WellFormed d2)
    (hbar : ∀ st ∈ d1.states, '|' ∉ st.data)
    (V : List (String × String))
    (hcl : ∀ p ∈ V, ∀ char ∈ pySorted d1.alphabet, pairStep d1 d2 p char ∈ V)
    (htr : ∀ p ∈ V, alookup (rawProduct d1 d2 op).transitions (pairName p) =
      some (combRow d1 d2 (pySorted d1.alphabet) p)) :
    ∀ (s : List String), (∀ c ∈ s, c ∈ d1.alphabet) → ∀ p ∈ V,
      (rawProduct d1 d2 op).runFrom (pairName p) s =
        some (pairName (pairRun d1 d2 p s)) ∧ pairRun d1 d2 p s ∈ V := by
  intro s
  induction s with
  | nil => intro hs p hp; exact ⟨rfl, hp⟩
  | cons c rest ih =>
    intro hs p hp
    have hc : c ∈ pySorted d1.alphabet := mem_pySorted.mpr (hs c (List.mem_cons_self _ _))
    have hrest : ∀ y ∈ rest, y ∈ d1.alphabet := fun y hy => hs y (List.mem_cons_of_mem _ hy)
    have hstep : (rawProduct d1 d2 op).step (pairName p) c =
        some (pairName (pairStep d1 d2 p c)) := by
      unfold DFA.step
      rw [if_pos (show c ∈ (rawProduct d1 d2 op).alphabet from rawProduct_alphabet _ _ _ ▸ hc)]
      rw [htr p hp]
      show alookup (combRow d1 d2 (pySorted d1.alphabet) p) c = _
      rw [alookup_combRow, if_pos hc]
    have hnext : pairStep d1 d2 p c ∈ V := hcl p hp c hc
    obtain ⟨h1, h2⟩ := ih hrest (pairStep d1 d2 p c) hnext
    constructor
    · show (match (rawProduct d1 d2 op).step (pairName p) c with
        | none => none
        | some nxt => (rawProduct d1 d2 op).runFrom nxt rest) = _
      rw [hstep]
      exact h1
    · exact h2

theorem rawProduct_accepts (d1 d2 : DFA) (op : String)
    (hwf1 : WellFormed d1) (hwf2 : WellFormed d2)
    (hbar : ∀ st ∈ d1.states, '|' ∉ st.data)
    (s : List String) (hs : ∀ c ∈ s, c ∈ d1.alphabet) :
    (rawProduct d1 d2 op).accepts s =
      combAccept d1 d2 op (pairRun d1 d2 (d1.start_state, d2.start_state) s) := by
  obtain ⟨V, hstart, hok, hcl, hsts, hstsS, htr, htrS, hacc, haccS⟩ :=
    rawProduct_spec d1 d2 op hwf1 hwf2 hbar
  obtain ⟨hrun, hmem⟩ := rawProduct_runFrom d1 d2 op hwf1 hwf2 hbar V hcl htr s hs
    (d1.start_state, d2.start_state) hstart
  unfold DFA.accepts
  rw [acceptsFrom_eq_runFrom, rawProduct_start, hrun]
  have hiff := hacc _ hmem
  show decide (pairName (pairRun d1 d2 (d1.start_state, d2.start_state) s) ∈
    (rawProduct d1 d2 op).accept_states) = _
  cases hfin : combAccept d1 d2 op (pairRun d1 d2 (d1.start_state, d2.start_state) s) with
  | true => simp [hiff.mpr hfin]
  | false =>
    refine decide_eq_false fun hcon => ?_
    rw [hiff.mp hcon] at hfin
    cases hfin

theorem sinkRun_dead (d : DFA) (hfresht : alookup d.transitions "q_dead" = none) :
    ∀ (s : List String), sinkRun d "q_dead" s = "q_dead" := by
  intro s
  induction s with
  | nil => rfl
  | cons c rest ih =>
    show sinkRun d (pairNext d "q_dead" c) rest = _
    have hnx : pairNext d "q_dead" c = "q_dead" := by
      unfold pairNext getRow
      rw [hfresht]
      rfl
    rw [hnx, ih]

theorem sink_accept (d : DFA) (hwf : WellFormed d) (hfresh : "q_dead" ∉ d.states)
    (hfresht : alookup d.transitions "q_dead" = none) :
    ∀ (s : List String), (∀ c ∈ s, c ∈ d.alphabet) → ∀ x ∈ d.states,
      decide (sinkRun d x s ∈ d.accept_states) = d.acceptsFrom x s := by
  intro s
  induction s with
  | nil => intro hs x hx; rfl
  | cons c rest ih =>
    intro hs x hx
    have hc : c ∈ d.alphabet := hs c (List.mem_cons_self _ _)
    have hrest : ∀ y ∈ rest, y ∈ d.alphabet := fun y hy => hs y (List.mem_cons_of_mem _ hy)
    show decide (sinkRun d (pairNext d x c) rest ∈ d.accept_states) =
      match d.step x c with
      | none => false
      | some nxt => d.acceptsFrom nxt rest
    rw [step_eq_getRow d x c hc]
    cases ht : alookup (getRow d.transitions x) c with
    | some t =>
      have hnx : pairNext d x c = t := by
        unfold pairNext
        rw [ht]
        rfl
      rw [hnx]
      exact ih hrest t (target_mem_states d hwf ht)
    | none =>
      have hnx : pairNext d x c = "q_dead" := by
        unfold pairNext
        rw [ht]
        rfl
      rw [hnx, sinkRun_dead d hfresht rest]
      have hna : "q_dead" ∉ d.accept_states := fun h => hfresh (hwf.2.2 _ h)
      simp [hna]

/-- C1.  The claim as stated is refuted: `combine` only requires the two
alphabets to be set-equal, but `c1B` (constructible, since `DFA` construction
validates only `start_state ∈ states`, cf. C10) lists the product's dead
marker `q_dead` among its accept states.  `c1B` rejects the string "0" (its
transition table is empty, so the simulation crashes to `False`), yet the
OR-product drives `c1B`'s component into `q_dead` and finds it in
`accept_states`, so `combine(c1A, c1B, "OR")` accepts "0" while
`c1A.accepts("0") or c1B.accepts("0")` is false. -/
theorem combine_claim_counterexample :
    ((combine c1A c1B "OR").toOption.map (fun D => D.accepts ["0"])) = some true ∧
      (c1A.accepts ["0"] || c1B.accepts ["0"]) = false := by decide

/-- C1 (amended).  For DFAs `d1`, `d2` satisfying the documented invariants
(start in states, transition targets in states, accept states among states),
with set-equal alphabets, no `'|'` in `d1`'s state names, and no state named
`q_dead` (nor a `q_dead` transition row) in either operand, and for `op` one
of AND/OR and any string `s` over the shared alphabet:
`combine(d1, d2, op)` succeeds and the result accepts `s` exactly when the
boolean combination of `d1.accepts s` and `d2.accepts s` under `op` holds. -/
theorem combine_accepts_amended (d1 d2 : DFA) (op : String)
    (hop : op = "AND" ∨ op = "OR")
    (hwf1 : WellFormed d1) (hwf2 : WellFormed d2)
    (h12 : ∀ x ∈ d1.alphabet, x ∈ d2.alphabet) (h21 : ∀ x ∈ d2.alphabet, x ∈ d1.alphabet)
    (hbar : ∀ st ∈ d1.states, '|' ∉ st.data)
    (hfresh1 : "q_dead" ∉ d1.states) (hfresht1 : alookup d1.transitions "q_dead" = none)
    (hfresh2 : "q_dead" ∉ d2.states) (hfresht2 : alookup d2.transitions "q_dead" = none)
    (s : List String) (hs : ∀ c ∈ s, c ∈ d1.alphabet) :
    ∃ D, combine d1 d2 op = .ok D ∧
      D.accepts s = (if op = "AND" then d1.accepts s && d2.accepts s
        else d1.accepts s || d2.accepts s) := by
  refine ⟨minimize (rawProduct d1 d2 op), ?_, ?_⟩
  · unfold combine
    rw [if_pos ⟨h12, h21⟩]
  · obtain ⟨hwfp, hempty⟩ := rawProduct_wf d1 d2 op hwf1 hwf2 hbar
    have hsP : ∀ c ∈ s, c ∈ (rawProduct d1 d2 op).alphabet := by
      intro c hcm
      rw [rawProduct_alphabet, mem_pySorted]
      exact hs c hcm
    rw [minimize_preserves_language (rawProduct d1 d2 op) hwfp hempty s hsP]
    rw [rawProduct_accepts d1 d2 op hwf1 hwf2 hbar s hs]
    rw [pairRun_components d1 d2 s (d1.start_state, d2.start_state)]
    have e1 := sink_accept d1 hwf1 hfresh1 hfresht1 s hs d1.start_state hwf1.1
    have e2 := sink_accept d2 hwf2 hfresh2 hfresht2 s
      (fun c hcm => h12 c (hs c hcm)) d2.start_state hwf2.1
    rcases hop with hop | hop
    · subst hop
      unfold combAccept
      rw [if_pos rfl, if_pos rfl]
      dsimp only
      rw [e1, e2]
      rfl
    · subst hop
      have hOA : ¬("OR" : String) = "AND" := by decide
      unfold combAccept
      rw [if_neg hOA, if_pos rfl, if_neg hOA]
      dsimp only
      rw [e1, e2]
      rfl

/-- The witness operands for C1 (amended). -/
def c1wA : DFA :=
  { reasoning := ""
    states := ["a"]
    alphabet := ["0"]
    transitions := [("a", [("0", "a")])]
    start_state := "a"
    accept_states := ["a"] }

def c1wB : DFA :=
  { reasoning := ""
    states := ["b"]
    alphabet := ["0"]
    transitions := [("b", [("0", "b")])]
    start_state := "b"
    accept_states := [] }

/-- Witness for C1 (amended): the AND-product of the all-accepting and the
all-rejecting one-state DFA rejects "0", as the conjunction does. -/
theorem combine_accepts_amended_witness :
    ∃ D, combine c1wA c1wB "AND" = .ok D ∧
      D.accepts ["0"] = (if "AND" = "AND" then c1wA.accepts ["0"] && c1wB.accepts ["0"]
        else c1wA.accepts ["0"] || c1wB.accepts ["0"]) :=
  combine_accepts_amended c1wA c1wB "AND" (Or.inl rfl)
    (by unfold WellFormed; decide) (by unfold WellFormed; decide)
    (by decide) (by decide) (by decide) (by decide) (by decide) (by decide) (by decide)
    ["0"] (by decide)

/-! ### `ArchitectAgent` (`core/agents.py`): specification trees, size guard,
atomic cache, and the read-only tree discipline -/

/-- `LogicSpec` (`core/models.py`): a specification tree node with its
operation, target, alphabet and children.  All recursions over this nested
tree carry an explicit fuel parameter (the Python recursions terminate on
finite trees; every fuelled model below agrees with the source whenever the
fuel exceeds the tree depth, and the theorems are proved for every fuel). -/
inductive LogicSpec where
  | mk (logic_type : String) (target : String) (alphabet : List String)
      (children : List LogicSpec) : LogicSpec

def LogicSpec.logic_type : LogicSpec → String
  | .mk lt _ _ _ => lt

def LogicSpec.target : LogicSpec → String
  | .mk _ t _ _ => t

def LogicSpec.alphabet : LogicSpec → List String
  | .mk _ _ a _ => a

def LogicSpec.children : LogicSpec → List LogicSpec
  | .mk _ _ _ cs => cs

/-- The accumulator loop of `estimate_states_for_spec` for AND/OR children:
`total *= max(1, estimate(c)); if total > 1_000_000: return total`. -/
def estFold (f : LogicSpec → Nat) : List LogicSpec → Nat → Nat
  | [], total => total
  | c :: rest, total =>
    let t2 := total * max 1 (f c)
    if 1000000 < t2 then t2 else estFold f rest t2

/-- `estimate_states_for_spec` (`agents.py` lines 113-154).  Python `int(t)`
(with its `except` default) is modelled as decimal parsing via
`String.toInt?`; `t.split(":")` as `String.splitOn ":"`. -/
def estimateStates : Nat → LogicSpec → Nat
  | 0, _ => 10
  | fuel+1, .mk lt t _ cs =>
    if lt = "AND" ∨ lt = "OR" then estFold (estimateStates fuel) cs 1
    else if lt = "NOT" then
      max 2 (match cs with | [] => 2 | c :: _ => estimateStates fuel c)
    else if lt = "STARTS_WITH" ∨ lt = "ENDS_WITH" ∨ lt = "CONTAINS" then
      if t ≠ "" then t.length + 1 else 3
    else if lt = "NO_CONSECUTIVE" then 3
    else if lt = "DIVISIBLE_BY" then
      match t.toInt? with
      | some k => (max 2 k).toNat
      | none => 10
    else if lt = "LENGTH_MOD" then
      match ((t.splitOn ":").getLastD "").toInt? with
      | some k => (max 2 k).toNat
      | none => 10
    else if lt = "COUNT_MOD" then
      match ((t.splitOn ":").getLastD "").toInt? with
      | some k => (max 2 k).toNat
      | none => 10
    else if lt = "PRODUCT_EVEN" then 2
    else if lt = "EVEN_COUNT" ∨ lt = "ODD_COUNT" then 2
    else 10

/-- `_propagate_alphabet_down` (`agents.py` lines 650-659): assign the
alphabet to the node and recursively to every child; the returned tree is the
post-mutation value of the argument. -/
def propagateF : Nat → LogicSpec → List String → LogicSpec
  | 0, s, _ => s
  | fuel+1, .mk lt t _ cs, A => .mk lt t A (cs.map (fun c => propagateF fuel c A))

/-- The per-child step of `flatten_children`: same-operator children with
children of their own are flattened recursively, others are kept. -/
def flatStep (f : LogicSpec → List LogicSpec) (lt : String) : List LogicSpec → List LogicSpec
  | [] => []
  | c :: rest =>
    (if c.logic_type = lt ∧ c.children.isEmpty = false then f c else [c]) ++ flatStep f lt rest

/-- `flatten_children` (`agents.py` lines 97-111). -/
def flattenF : Nat → LogicSpec → List LogicSpec
  | 0, _ => []
  | fuel+1, .mk lt _ _ cs => if cs.isEmpty then [] else flatStep (flattenF fuel) lt cs

/-- The flattened, alphabet-propagated child list that `design`'s AND/OR
branch estimates and builds (lines 904-920: propagate to the direct children,
flatten, fall back to the direct children when flattening is empty, then
re-propagate to every flattened node). -/
def designFlat (fuel : Nat) (s : LogicSpec) : List LogicSpec :=
  let A := if s.alphabet.isEmpty then ["0", "1"] else s.alphabet
  let cs1 := s.children.map (fun c => propagateF fuel c A)
  let flat0 := flattenF fuel (.mk s.logic_type s.target s.alphabet cs1)
  let flat1 := if flat0.isEmpty then cs1 else flat0
  flat1.map (fun c => propagateF fuel c A)

/-- The ValueError message of `design`'s pre-check (line 926). -/
def oversizeMsg (est maxP : Nat) : String :=
  "Product size estimate too large: " ++ Nat.repr est ++ " states (threshold=" ++
    Nat.repr maxP ++ ")"

/-- The growth-estimate loop of `design` (lines 921-926): multiply the
clamped per-child estimates and raise as soon as the running product exceeds
`max_product_states`. -/
def estLoop (fuel maxP : Nat) : List LogicSpec → Nat → Except String Nat
  | [], total => .ok total
  | c :: rest, total =>
    let t2 := total * max 1 (estimateStates fuel c)
    if maxP < t2 then .error (oversizeMsg t2 maxP) else estLoop fuel maxP rest t2

/-- The child-building loop of `design` (lines 928-932), with the recursive
`self.design` call abstracted as `build`. -/
def buildAll (build : LogicSpec → Except String DFA) :
    List LogicSpec → Except String (List (LogicSpec × DFA))
  | [] => .ok []
  | c :: rest =>
    match build c with
    | .error e => .error e
    | .ok d =>
      match buildAll build rest with
      | .error e => .error e
      | .ok l => .ok ((c, d) :: l)

/-- Stable insertion by a numeric key, modelling Python `list.sort(key=...)`
(equal keys keep their original order). -/
def insertByLen {α : Type} (key : α → Nat) (a : α) : List α → List α
  | [] => [a]
  | b :: rest => if key a ≤ key b then a :: b :: rest else b :: insertByLen key a rest

def pySortedBy {α : Type} (key : α → Nat) : List α → List α
  | [] => []
  | a :: rest => insertByLen key a (pySortedBy key rest)

/-- The pairwise combine loop of `design` (lines 938-943) with its
intermediate-size check, calling the modelled `combine`. -/
def combineLoop (maxP : Nat) (op : String) : DFA → List (LogicSpec × DFA) → Except String DFA
  | cur, [] => .ok cur
  | cur, (_, nxt) :: rest =>
    if maxP < cur.states.length * nxt.states.length then
      .error ("Intermediate product would exceed safe size (" ++
        Nat.repr (cur.states.length * nxt.states.length) ++ " > " ++ Nat.repr maxP ++ ").")
    else
      match combine cur nxt op with
      | .error e => .error e
      | .ok cur2 => combineLoop maxP op cur2 rest

/-- The AND/OR composite branch of `ArchitectAgent.design` (`agents.py`
lines 904-944): alphabet propagation, flattening, the size pre-check, child
builds (the recursive `self.design` abstracted as `build`), the stable sort
by state count, and the combine loop with its intermediate check. -/
def designAndOr (fuel maxP : Nat) (build : LogicSpec → Except String DFA)
    (s : LogicSpec) : Except String DFA :=
  match estLoop fuel maxP (designFlat fuel s) 1 with
  | .error e => .error e
  | .ok _ =>
    match buildAll build (designFlat fuel s) with
    | .error e => .error e
    | .ok child_dfas =>
      match pySortedBy (fun p => p.2.states.length) child_dfas with
      | [] => .error "list index out of range"
      | first :: restD => combineLoop maxP s.logic_type first.2 restD

theorem estLoop_cons (fuel maxP : Nat) (c : LogicSpec) (rest : List LogicSpec) (total : Nat) :
    estLoop fuel maxP (c :: rest) total =
      if maxP < total * max 1 (estimateStates fuel c)
      then .error (oversizeMsg (total * max 1 (estimateStates fuel c)) maxP)
      else estLoop fuel maxP rest (total * max 1 (estimateStates fuel c)) := rfl

theorem estLoop_oversize (fuel maxP : Nat) :
    ∀ (l : List LogicSpec) (acc : Nat), l ≠ [] →
      maxP < acc * (l.map (fun c => max 1 (estimateStates fuel c))).prod →
      ∃ est, maxP < est ∧ estLoop fuel maxP l acc = .error (oversizeMsg est maxP) := by
  intro l
  induction l with
  | nil => intro acc h; cases h rfl
  | cons a rest ih =>
    intro acc _ hover
    by_cases hf : maxP < acc * max 1 (estimateStates fuel a)
    · refine ⟨acc * max 1 (estimateStates fuel a), hf, ?_⟩
      rw [estLoop_cons, if_pos hf]
    · have hne : rest ≠ [] := by
        intro hr
        rw [hr] at hover
        simp only [List.map_cons, List.map_nil, List.prod_cons, List.prod_nil, mul_one] at hover
        exact hf hover
      have hover2 : maxP <
          (acc * max 1 (estimateStates fuel a)) *
            (rest.map (fun c => max 1 (estimateStates fuel c))).prod := by
        rw [List.map_cons, List.prod_cons] at hover
        calc maxP
            < acc * (max 1 (estimateStates fuel a) *
                (rest.map (fun c => max 1 (estimateStates fuel c))).prod) := hover
          _ = (acc * max 1 (estimateStates fuel a)) *
                (rest.map (fun c => max 1 (estimateStates fuel c))).prod := by
              rw [mul_assoc]
      obtain ⟨est, h1, h2⟩ := ih (acc * max 1 (estimateStates fuel a)) hne hover2
      refine ⟨est, h1, ?_⟩
      rw [estLoop_cons, if_neg hf]
      exact h2

/-- C6.  For every AND/OR specification (modelled by `designAndOr`, the
AND/OR composite branch of `ArchitectAgent.design`, with the recursive
`self.design` abstracted as `build`) with a nonempty flattened child list,
whose product of per-child estimated state counts (each clamped to at least
1, as in the source) exceeds the configured ceiling `maxP`, `design` raises
the distinct "Product size estimate too large" `ValueError` — before any
child DFA is built and hence before any (partial or final) product is
constructed: the result is that error for EVERY child-building function
`build`, so no DFA is returned and nothing is silently truncated. -/
theorem design_oversize_error (fuel maxP : Nat) (s : LogicSpec)
    (hop : s.logic_type = "AND" ∨ s.logic_type = "OR")
    (hch : (designFlat fuel s).length ≠ 0)
    (hover : maxP < ((designFlat fuel s).map (fun c => max 1 (estimateStates fuel c))).prod) :
    ∃ est, maxP < est ∧ ∀ build, designAndOr fuel maxP build s =
      .error (oversizeMsg est maxP) := by
  have hne : designFlat fuel s ≠ [] := by
    intro hcon
    rw [hcon] at hch
    exact hch rfl
  obtain ⟨est, h1, h2⟩ := estLoop_oversize fuel maxP (designFlat fuel s) 1 hne
    (by rw [one_mul]; exact hover)
  refine ⟨est, h1, fun build => ?_⟩
  unfold designAndOr
  rw [h2]

/-- The witness specification for C6: an AND of two three-state estimates
against a ceiling of 8. -/
def c6spec : LogicSpec :=
  .mk "AND" "" ["a", "b"]
    [.mk "ENDS_WITH" "ab" ["a", "b"] [], .mk "ENDS_WITH" "ba" ["a", "b"] []]

/-- Witness for C6: the 3*3 = 9 estimate exceeds the ceiling 8, so the
design branch fails with the oversize error for every builder. -/
theorem design_oversize_error_witness :
    ∃ est, 8 < est ∧ ∀ build, designAndOr 5 8 build c6spec = .error (oversizeMsg est 8) :=
  design_oversize_error 5 8 c6spec (Or.inl rfl) (by decide) (by decide)

/-- The tree effect of `design`'s per-flattened-child recursion: the Python
loop `for c in flat: self.design(c)` mutates, inside the tree, exactly the
frontier nodes that `flatten_children` reaches (children of the same
operator with children of their own are traversed, all other nodes are
frontier); on the tree value this maps `frontier` over that frontier while
the traversed spine keeps its fields. -/
def spineMap (frontier : LogicSpec → LogicSpec) (lt : String) : Nat → LogicSpec → LogicSpec
  | 0, s => s
  | fuel+1, .mk lt2 tg alph cs =>
    if lt2 = lt ∧ cs.isEmpty = false then .mk lt2 tg alph (cs.map (spineMap frontier lt fuel))
    else frontier (.mk lt2 tg alph cs)

/-- The state of the specification tree after `ArchitectAgent.design`
returns (lines 896-1040).  The atomic paths (the cache path for childless
non-composite nodes and the atomic builders) never touch the tree; the NOT
branch propagates the node alphabet (`spec.alphabet or ['0','1']`) into the
first child and recurses into it; the AND/OR branch propagates into every
direct child, then re-propagates into and recursively designs every
`flatten_children` frontier node (cf. `spineMap`). -/
def designTreeF : Nat → LogicSpec → LogicSpec
  | 0, s => s
  | fuel+1, .mk lt tg alph cs =>
    if lt = "NOT" then
      match cs with
      | [] => .mk lt tg alph []
      | c :: rest =>
        .mk lt tg alph
          (designTreeF fuel (propagateF fuel c (if alph.isEmpty then ["0", "1"] else alph)) ::
            rest)
    else if lt = "AND" ∨ lt = "OR" then
      .mk lt tg alph
        ((cs.map (fun c => propagateF fuel c (if alph.isEmpty then ["0", "1"] else alph))).map
          (spineMap
            (fun c => designTreeF fuel
              (propagateF fuel c (if alph.isEmpty then ["0", "1"] else alph)))
            lt fuel))
    else .mk lt tg alph cs

/-- A specification tree is alphabet-unified for `A`: every node carries
exactly the alphabet `A`. -/
inductive UnifiedP (A : List String) : LogicSpec → Prop where
  | mk (lt tg : String) (cs : List LogicSpec) (hcs : ∀ c ∈ cs, UnifiedP A c) :
      UnifiedP A (.mk lt tg A cs)

theorem unifiedP_inv {A : List String} {lt tg : String} {alph : List String}
    {cs : List LogicSpec} (h : UnifiedP A (.mk lt tg alph cs)) :
    alph = A ∧ ∀ c ∈ cs, UnifiedP A c := by
  cases h with
  | mk _ _ _ hcs => exact ⟨rfl, hcs⟩

theorem map_id_of_mem {α : Type} (f : α → α) :
    ∀ (l : List α), (∀ x ∈ l, f x = x) → l.map f = l := by
  intro l
  induction l with
  | nil => intro _; rfl
  | cons a rest ih =>
    intro h
    simp only [List.map_cons]
    rw [h a (List.mem_cons_self _ _), ih (fun x hx => h x (List.mem_cons_of_mem _ hx))]

theorem propagateF_unified (A : List String) :
    ∀ (fuel : Nat) (t : LogicSpec), UnifiedP A t → propagateF fuel t A = t := by
  intro fuel
  induction fuel with
  | zero => intro t _; rfl
  | succ fuel ih =>
    intro t hU
    cases hU with
    | mk lt tg cs hcs =>
      show LogicSpec.mk lt tg A (cs.map fun c => propagateF fuel c A) = .mk lt tg A cs
      rw [map_id_of_mem (fun c => propagateF fuel c A) cs (fun c hc => ih c (hcs c hc))]

theorem spineMap_succ (frontier : LogicSpec → LogicSpec) (lt : String) (fuel : Nat)
    (lt2 tg : String) (alph : List String) (cs : List LogicSpec) :
    spineMap frontier lt (fuel + 1) (.mk lt2 tg alph cs) =
      if lt2 = lt ∧ cs.isEmpty = false then .mk lt2 tg alph (cs.map (spineMap frontier lt fuel))
      else frontier (.mk lt2 tg alph cs) := rfl

theorem spineMap_unified (A : List String) (frontier : LogicSpec → LogicSpec) (lt : String)
    (hfr : ∀ c, UnifiedP A c → frontier c = c) :
    ∀ (fuel : Nat) (c : LogicSpec), UnifiedP A c → spineMap frontier lt fuel c = c := by
  intro fuel
  induction fuel with
  | zero => intro c _; rfl
  | succ fuel ih =>
    intro c hU
    obtain ⟨lt2, tg, alph, cs⟩ := c
    obtain ⟨halph, hcs⟩ := unifiedP_inv hU
    subst halph
    rw [spineMap_succ]
    by_cases hcond : lt2 = lt ∧ cs.isEmpty = false
    · rw [if_pos hcond]
      rw [map_id_of_mem (spineMap frontier lt fuel) cs (fun x hx => ih x (hcs x hx))]
    · rw [if_neg hcond]
      exact hfr _ hU

theorem designTreeF_succ (fuel : Nat) (lt tg : String) (alph : List String)
    (cs : List LogicSpec) :
    designTreeF (fuel + 1) (.mk lt tg alph cs) =
      (if lt = "NOT" then
        match cs with
        | [] => .mk lt tg alph []
        | c :: rest =>
          .mk lt tg alph
            (designTreeF fuel (propagateF fuel c (if alph.isEmpty then ["0", "1"] else alph)) ::
              rest)
      else if lt = "AND" ∨ lt = "OR" then
        .mk lt tg alph
          ((cs.map (fun c => propagateF fuel c (if alph.isEmpty then ["0", "1"] else alph))).map
            (spineMap
              (fun c => designTreeF fuel
                (propagateF fuel c (if alph.isEmpty then ["0", "1"] else alph)))
              lt fuel))
      else .mk lt tg alph cs) := rfl

/-- C9.  `ArchitectAgent.design` consumes the specification tree read-only:
for every tree all of whose nodes carry one common non-empty alphabet `A`
(the alphabet-unified shape the externally produced tree has), the tree state
after `design` returns (`designTreeF`, for every fuel) is the input tree
itself — in particular every `spec.alphabet = alphabet` assignment performed
by `_propagate_alphabet_down` re-assigns the value the node already holds,
so no node of the tree changes. -/
theorem design_tree_readonly (t : LogicSpec) (A : List String) (hA : A ≠ [])
    (hU : UnifiedP A t) : ∀ fuel, designTreeF fuel t = t := by
  have hAe : A.isEmpty = false := by
    cases A with
    | nil => cases hA rfl
    | cons a r => rfl
  suffices h : ∀ fuel t, UnifiedP A t → designTreeF fuel t = t from fun fuel => h fuel t hU
  intro fuel
  induction fuel with
  | zero => intro t _; rfl
  | succ fuel ih =>
    intro t hU2
    obtain ⟨lt, tg, alph, cs⟩ := t
    obtain ⟨halph, hcs⟩ := unifiedP_inv hU2
    subst alph
    rw [designTreeF_succ]
    have hAif : (if A.isEmpty then ["0", "1"] else A) = A := by
      rw [hAe]
      rfl
    by_cases hNOT : lt = "NOT"
    · rw [if_pos hNOT]
      cases cs with
      | nil => rfl
      | cons c rest =>
        have hc : UnifiedP A c := hcs c (List.mem_cons_self _ _)
        show LogicSpec.mk lt tg A
            (designTreeF fuel (propagateF fuel c (if A.isEmpty then ["0", "1"] else A)) ::
              rest) = _
        rw [hAif, propagateF_unified A fuel c hc, ih c hc]
    · rw [if_neg hNOT]
      by_cases hAO : lt = "AND" ∨ lt = "OR"
      · rw [if_pos hAO, hAif]
        rw [map_id_of_mem (fun c => propagateF fuel c A) cs
          (fun c hc => propagateF_unified A fuel c (hcs c hc))]
        rw [map_id_of_mem
          (spineMap (fun c => designTreeF fuel (propagateF fuel c A)) lt fuel) cs
          (fun c hc => spineMap_unified A _ lt
            (fun x hx => by rw [propagateF_unified A fuel x hx]; exact ih x hx)
            fuel c (hcs c hc))]
      · rw [if_neg hAO]

/-- The witness tree for C9: an alphabet-unified AND over two atomic
children. -/
def c9spec : LogicSpec :=
  .mk "AND" "" ["0", "1"]
    [.mk "ENDS_WITH" "01" ["0", "1"] [], .mk "CONTAINS" "1" ["0", "1"] []]

/-- Witness for C9: designing the unified witness tree leaves it unchanged. -/
theorem design_tree_readonly_witness : designTreeF 3 c9spec = c9spec :=
  design_tree_readonly c9spec ["0", "1"] (by decide)
    (UnifiedP.mk "AND" "" _ (fun c hc => by
      rcases List.mem_cons.mp hc with rfl | hc2
      · exact UnifiedP.mk "ENDS_WITH" "01" [] (fun x hx => absurd hx (List.not_mem_nil x))
      · rw [List.mem_singleton.mp hc2]
        exact UnifiedP.mk "CONTAINS" "1" [] (fun x hx => absurd hx (List.not_mem_nil x)))) 3

/-! ### The persistent atomic-DFA cache (`agents.py` lines 661-723) -/

/-- First-match lookup in an association list over an arbitrary decidable
key type (the cache is keyed by `(logic_type, target, alphabet_tuple)`;
`_get_atomic_spec_hash` derives the storage key deterministically from this
triple, so set and get of the same triple address the same entry). -/
def klookup {κ β : Type} [DecidableEq κ] : List (κ × β) → κ → Option β
  | [], _ => none
  | (k, v) :: rest, key => if k = key then some v else klookup rest key

/-- Position-preserving upsert, modelling `cache.set` for a key type with
decidable equality. -/
def kset {κ β : Type} [DecidableEq κ] : List (κ × β) → κ → β → List (κ × β)
  | [], key, v => [(key, v)]
  | (k, w) :: rest, key, v =>
    if k = key then (k, v) :: rest else (k, w) :: kset rest key v

theorem klookup_kset_self {κ β : Type} [DecidableEq κ] (t : List (κ × β)) (k : κ) (v : β) :
    klookup (kset t k v) k = some v := by
  induction t with
  | nil => simp [kset, klookup]
  | cons p rest ih =>
    by_cases h : p.1 = k
    · simp [kset, klookup, h]
    · simp [kset, klookup, h, ih]

/-- The architect's cache state: the persistent store plus the hit/miss
telemetry counters. -/
structure CacheState where
  cache : List ((String × String × List String) × DFA)
  cache_hits : Nat
  cache_misses : Nat

/-- `_set_cached_atomic_dfa` (lines 704-723): serialize the DFA payload and
store it under the key derived from the triple.  The JSON round trip
(`dict(dfa_tuple)`, `json.dumps`, `json.loads`, `tuple(dict.items())`) is
the identity on the modelled DFA value. -/
def setCachedAtomicDfa (st : CacheState) (lt tg : String) (alph : List String)
    (d : DFA) : CacheState :=
  { st with cache := kset st.cache (lt, tg, alph) d }

/-- `_get_cached_atomic_dfa` (lines 669-702): look the key up; on `None`
count a miss and return nothing, otherwise deserialize, count a hit and
return the stored DFA. -/
def getCachedAtomicDfa (st : CacheState) (lt tg : String) (alph : List String) :
    Option DFA × CacheState :=
  match klookup st.cache (lt, tg, alph) with
  | none => (none, { st with cache_misses := st.cache_misses + 1 })
  | some d => (some d, { st with cache_hits := st.cache_hits + 1 })

/-- C7.  For every atomic cache key (logic_type, target, alphabet tuple) and
every atomic DFA `d`: after `_set_cached_atomic_dfa`, a
`_get_cached_atomic_dfa` of the same key returns a DFA behaviourally
equivalent to `d` (it accepts exactly the same strings), increments the hit
counter and leaves the miss counter unchanged; and a second get of the same
key without an intervening set is again a cache hit — it returns the same
DFA, increments the hit counter once more and never touches the miss
counter. -/
theorem cache_roundtrip (st : CacheState) (lt tg : String) (alph : List String) (d : DFA) :
    ∃ d', (getCachedAtomicDfa (setCachedAtomicDfa st lt tg alph d) lt tg alph).1 = some d' ∧
      (∀ s, d'.accepts s = d.accepts s) ∧
      (getCachedAtomicDfa (setCachedAtomicDfa st lt tg alph d) lt tg alph).2.cache_hits =
        st.cache_hits + 1 ∧
      (getCachedAtomicDfa (setCachedAtomicDfa st lt tg alph d) lt tg alph).2.cache_misses =
        st.cache_misses ∧
      (getCachedAtomicDfa
        (getCachedAtomicDfa (setCachedAtomicDfa st lt tg alph d) lt tg alph).2
        lt tg alph).1 = some d' ∧
      (getCachedAtomicDfa
        (getCachedAtomicDfa (setCachedAtomicDfa st lt tg alph d) lt tg alph).2
        lt tg alph).2.cache_hits = st.cache_hits + 2 ∧
      (getCachedAtomicDfa
        (getCachedAtomicDfa (setCachedAtomicDfa st lt tg alph d) lt tg alph).2
        lt tg alph).2.cache_misses = st.cache_misses := by
  have hk : klookup (kset st.cache (lt, tg, alph) d) (lt, tg, alph) = some d :=
    klookup_kset_self st.cache (lt, tg, alph) d
  refine ⟨d, ?_, fun s => rfl, ?_, ?_, ?_, ?_, ?_⟩ <;>
    simp [getCachedAtomicDfa, setCachedAtomicDfa, hk]

end Spec2Proof
